import Mathlib

/-!
# BSCM: the Basis Spline Collocation Method engine (`Spline.h`, `Spline.cpp`)

A shallow embedding of class `BSCM::Spline` and a verification of its specification.

* The class is embedded twice.  In the exact embedding (`Spline`) a C++ `double` is a `Dbl`: a
  rational number, or one of the IEEE special values `±inf` and `NaN` that a division by zero
  produces; no operation rounds or overflows, and knots and evaluation points are rationals.
  In the binary64 embedding (`Binary64.Spline`) a `double` is an `F64`, whose operations round
  to the nearest binary64 number, overflow to an infinity and follow the IEEE rules for
  `NaN`, also in comparisons.
* A theorem over `Spline` is a statement about the program in exact arithmetic, and says so.
  What the program does on doubles is stated over `Binary64.Spline`; the examples of the
  last part show where rounding and overflow separate the two.
* A failed `assert` and an element access outside its container end the evaluation with a
  `Violation`; every evaluator returns `Except Violation _`.
* The memoization table `B_k_i_alpha` is part of the engine state; the memoized evaluator
  returns the new state together with its value.
-/

namespace BSCM

/-! ## Values of type `double` -/

/-- A `double` in exact arithmetic: a finite rational value, an infinity (`inf true` is
`-inf`, `inf false` is `+inf`), or `NaN`.  Rounding is not modelled, and zero has no sign:
the only divisors in `Spline.cpp` are differences of knots and positive integers. -/
inductive Dbl where
  | fin (q : ℚ)
  | inf (negative : Bool)
  | nan
  deriving DecidableEq

namespace Dbl

/-- IEEE negation. -/
def neg : Dbl → Dbl
  | fin q => fin (-q)
  | inf s => inf (!s)
  | nan => nan

/-- IEEE addition: `inf + (-inf)` is `NaN`. -/
def add : Dbl → Dbl → Dbl
  | fin a, fin b => fin (a + b)
  | fin _, inf s => inf s
  | inf s, fin _ => inf s
  | inf s, inf t => if s = t then inf s else nan
  | _, _ => nan

/-- IEEE subtraction. -/
def sub (a b : Dbl) : Dbl := add a (neg b)

/-- IEEE multiplication: `0 * inf` is `NaN`. -/
def mul : Dbl → Dbl → Dbl
  | fin a, fin b => fin (a * b)
  | fin a, inf s => if a = 0 then nan else inf (xor s (decide (a < 0)))
  | inf s, fin b => if b = 0 then nan else inf (xor s (decide (b < 0)))
  | inf s, inf t => inf (xor s t)
  | _, _ => nan

/-- IEEE division: `0 / 0` and `inf / inf` are `NaN`, a nonzero value over zero is an
infinity, a finite value over an infinity is zero. -/
def div : Dbl → Dbl → Dbl
  | fin a, fin b =>
      if b = 0 then (if a = 0 then nan else inf (decide (a < 0))) else fin (a / b)
  | fin _, inf _ => fin 0
  | inf s, fin b => inf (xor s (decide (b < 0)))
  | _, _ => nan

instance : Neg Dbl := ⟨neg⟩
instance : Add Dbl := ⟨add⟩
instance : Sub Dbl := ⟨sub⟩
instance : Mul Dbl := ⟨mul⟩
instance : Div Dbl := ⟨div⟩

/-- The test `std::isnan`. -/
def isNaN : Dbl → Bool
  | nan => true
  | _ => false

/-- Conversion of a `size_t` to `double`. -/
def ofNat (n : Nat) : Dbl := fin (n : ℚ)

/-- Conversion of an `int` to `double`. -/
def ofInt (z : Int) : Dbl := fin (z : ℚ)

/-- The rational value of a finite double (`0` for the special values); used only to
state properties of finite results. -/
def toRat : Dbl → ℚ
  | fin q => q
  | _ => 0

end Dbl

/-! ## Contract violations and containers -/

/-- The ways an evaluation can end without a result. -/
inductive Violation where
  /-- An `assert` of `Spline.cpp` or a range assertion of an Eigen matrix failed. -/
  | assertion
  /-- An unchecked `std::vector` access (`operator[]`, `front`, `back`) left the vector. -/
  | indexOutOfRange
  deriving DecidableEq

deriving instance DecidableEq for Except

/-- Unchecked `std::vector::operator[]`. -/
def vecGet {α : Type} (v : List α) (j : Nat) : Except Violation α :=
  match v[j]? with
  | some a => .ok a
  | none => .error .indexOutOfRange

/-- Element `(r, c)` of an Eigen matrix, stored as the list of its rows; Eigen asserts that
the indices are in range. -/
def matGet {α : Type} (m : List (List α)) (r c : Nat) : Except Violation α :=
  match m[r]? with
  | none => .error .assertion
  | some row =>
    match row[c]? with
    | some a => .ok a
    | none => .error .assertion

/-- Read `B_k_i_alpha[k][i][alpha]`. -/
def cacheGet (c : List (List (List Dbl))) (k i alpha : Nat) : Except Violation Dbl := do
  let ck ← vecGet c k
  let cki ← vecGet ck i
  vecGet cki alpha

/-- Assign `B_k_i_alpha[k][i][alpha] = v` (the slot exists whenever `cacheGet` succeeded). -/
def cacheSet (c : List (List (List Dbl))) (k i alpha : Nat) (v : Dbl) :
    List (List (List Dbl)) :=
  List.modify (fun ck => List.modify (fun cki => cki.set alpha v) i ck) k c

/-! ## The engine -/

/-- The data members of class `Spline`. -/
structure Spline where
  order : Nat
  knotX : List ℚ
  numKnots : Nat
  collocationX : List ℚ
  N : Nat
  B_matrix : List (List Dbl)
  K_matrix : List (List Int)
  beta_matrix : List (List Dbl)
  B_tilde_matrix : List (List Dbl)
  C_tilde_matrix : List (List Dbl)
  xMin : ℚ
  xMax : ℚ
  B_k_i_alpha : List (List (List Dbl))
  deriving DecidableEq

namespace Spline

/-- The bound `MIN_ORDER`. -/
def MIN_ORDER : Nat := 3

/-- The bound `MAX_ORDER`. -/
def MAX_ORDER : Nat := 15

/-- The bound `MAX_NUMBER_KNOTS`. -/
def MAX_NUMBER_KNOTS : Nat := 100

/-- The element `knotX[j]`. -/
def knot (s : Spline) (j : Nat) : Except Violation ℚ := vecGet s.knotX j

/-- The element `knotX.front()`. -/
def front (s : Spline) : Except Violation ℚ := vecGet s.knotX 0

/-- The element `knotX.back()`. -/
def back (s : Spline) : Except Violation ℚ := vecGet s.knotX (s.knotX.length - 1)

/-- The method `Spline::B ( size_t k, size_t i, double x )`: the basis function `B(k,i)` at a
real `x`.  On a constructed engine `k ≤ order ≤ numKnots / 2`, so the `size_t` difference
`numKnots - k` does not wrap. -/
def B (s : Spline) (k i : Nat) (x : ℚ) : Except Violation Dbl :=
  if ¬ (1 ≤ k ∧ k ≤ s.order) then .error .assertion
  else if ¬ (i < s.numKnots - k) then .error .assertion
  else do
    let lo ← s.front
    let hi ← s.back
    if ¬ (lo ≤ x ∧ x ≤ hi) then .error .assertion
    else do
      let ti ← s.knot i
      let tik ← s.knot (i + k)
      if x < ti ∨ x > tik then pure (Dbl.fin 0)
      else
        match k with
        | k' + 2 => do
          let b1 ← B s (k' + 1) i x
          let tk1 ← s.knot (k' + 2 + i - 1)
          let firstTerm := b1 * ((Dbl.fin x - Dbl.fin ti) / (Dbl.fin tk1 - Dbl.fin ti))
          let b2 ← B s (k' + 1) (i + 1) x
          let ti1 ← s.knot (i + 1)
          let secondTerm := b2 * ((Dbl.fin tik - Dbl.fin x) / (Dbl.fin tik - Dbl.fin ti1))
          pure (firstTerm + secondTerm)
        | _ => do
          let ti1 ← s.knot (i + 1)
          pure (if ti ≤ x ∧ x < ti1 then Dbl.fin 1 else Dbl.fin 0)

/-- The method `Spline::C`: the recursion of Umar's Equation (5). -/
def C (s : Spline) (k i : Nat) (x : ℚ) : Except Violation Dbl :=
  if ¬ (k ≥ 1) then .error .assertion
  else
    match k with
    | k' + 2 => do
      let c1 ← C s (k' + 1) i x
      let tk1 ← s.knot (k' + 2 + i - 1)
      let ti ← s.knot i
      let firstTerm := c1 / (Dbl.fin tk1 - Dbl.fin ti)
      let c2 ← C s (k' + 1) (i + 1) x
      let tk ← s.knot (k' + 2 + i)
      let ti1 ← s.knot (i + 1)
      let secondTerm := c2 / (Dbl.fin tk - Dbl.fin ti1)
      pure (Dbl.ofNat (k' + 2 - 1) * (firstTerm - secondTerm))
    | _ => B s 1 i x

/-- The method `Spline::D_B`: the `p`-th derivative of `B(k,i)` at a real `x`. -/
def D_B (s : Spline) (p k i : Nat) (x : ℚ) : Except Violation Dbl :=
  if ¬ (p < s.order) then .error .assertion
  else if ¬ (p + 1 ≤ k ∧ k ≤ s.order) then .error .assertion
  else if ¬ (i < s.numKnots - k) then .error .assertion
  else do
    let lo ← s.front
    let hi ← s.back
    if ¬ (lo ≤ x ∧ x ≤ hi) then .error .assertion
    else
      match k with
      | k' + 1 =>
        if k' + 1 ≥ p + 2 then do
          let ti ← s.knot i
          let tk1 ← s.knot (k' + 1 + i - 1)
          let firstTermRatio := (Dbl.fin x - Dbl.fin ti) / (Dbl.fin tk1 - Dbl.fin ti)
          let tk ← s.knot (k' + 1 + i)
          let ti1 ← s.knot (i + 1)
          let secondTermRatio := (Dbl.fin tk - Dbl.fin x) / (Dbl.fin tk - Dbl.fin ti1)
          let firstTermDeriv ← D_B s p k' i x
          let secondTermDeriv ← D_B s p k' (i + 1) x
          pure ((Dbl.ofNat (k' + 1 - 1) / Dbl.ofNat (k' + 1 - p - 1))
                * ((firstTermRatio * firstTermDeriv) + (secondTermRatio * secondTermDeriv)))
        else if ¬ (k' + 1 = p + 1) then .error .assertion
        else C s (k' + 1) i x
      | 0 => .error .assertion

/-- The engine after the assignment `B_k_i_alpha[k][i][alpha] = v`. -/
def store (s : Spline) (k i alpha : Nat) (v : Dbl) : Spline :=
  { s with B_k_i_alpha := cacheSet s.B_k_i_alpha k i alpha v }

/-- The method `Spline::B ( size_t k, size_t i, size_t alpha )`: the basis function `B(k,i)` at the
`alpha`-th collocation point, memoized in `B_k_i_alpha`; returns the value and the engine
with its updated table. -/
def B_alpha (s : Spline) (k i alpha : Nat) : Except Violation (Dbl × Spline) :=
  if ¬ (1 ≤ k ∧ k ≤ s.order) then .error .assertion
  else if ¬ (i < s.numKnots - k) then .error .assertion
  else if ¬ (alpha < s.N) then .error .assertion
  else do
    let slot ← cacheGet s.B_k_i_alpha k i alpha
    if ¬ slot.isNaN then pure (slot, s)
    else do
      let x ← vecGet s.collocationX alpha
      match k with
      | k' + 2 => do
        let (firstTermB, s1) ← B_alpha s (k' + 1) i alpha
        let (secondTermB, s2) ← B_alpha s1 (k' + 1) (i + 1) alpha
        let ti ← s2.knot i
        let tk1 ← s2.knot (k' + 2 + i - 1)
        let firstTerm := firstTermB * ((Dbl.fin x - Dbl.fin ti) / (Dbl.fin tk1 - Dbl.fin ti))
        let tk ← s2.knot (k' + 2 + i)
        let ti1 ← s2.knot (i + 1)
        let secondTerm := secondTermB * ((Dbl.fin tk - Dbl.fin x) / (Dbl.fin tk - Dbl.fin ti1))
        pure (firstTerm + secondTerm, s2.store (k' + 2) i alpha (firstTerm + secondTerm))
      | _ => do
        let v ← B s 1 i x
        pure (v, s.store 1 i alpha v)

end Spline

/-! ## Loops -/

/-- A counted loop `for (j = i; j < i + n; j++)` whose body yields one element per
iteration: the list of the elements, unless an iteration ends in a violation. -/
def tabulate {α : Type} (f : Nat → Except Violation α) : Nat → Nat → Except Violation (List α)
  | _, 0 => .ok []
  | i, n + 1 => do
    let a ← f i
    let rest ← tabulate f (i + 1) n
    pure (a :: rest)

/-- A counted loop whose body also updates a state. -/
def tabulateS {σ α : Type} (f : σ → Nat → Except Violation (α × σ)) :
    σ → Nat → Nat → Except Violation (List α × σ)
  | st, _, 0 => .ok ([], st)
  | st, i, n + 1 => do
    let (a, st1) ← f st i
    let (rest, st2) ← tabulateS f st1 (i + 1) n
    pure (a :: rest, st2)

/-- A counted loop `for (j = i; j < i + n; j++) sum += f(j)`. -/
def sumLoop (f : Nat → Except Violation Dbl) : Nat → Nat → Dbl → Except Violation Dbl
  | _, 0, sum => .ok sum
  | i, n + 1, sum => do
    let v ← f i
    sumLoop f (i + 1) n (sum + v)

namespace Spline

/-- One iteration of the loop of lines 40-44 of `Spline.cpp`: the assertion on two
consecutive physical knots, then their midpoint. -/
def collocationPoint (knotX : List ℚ) (i : Nat) : Except Violation ℚ := do
  let a ← vecGet knotX i
  let b ← vecGet knotX (i + 1)
  if ¬ (a < b) then .error .assertion
  else pure ((a + b) / 2)

/-- The table `B_k_i_alpha` as the constructor allocates it: index `k = 0` is an empty
vector, index `k` in `1 .. order` holds `N + 2*order - k - 1` rows of `N` slots, every slot
`NaN`. -/
def allocCache (order N : Nat) : List (List (List Dbl)) :=
  [] :: (List.range order).map
    (fun j => List.replicate (N + 2 * order - (j + 1) - 1) (List.replicate N Dbl.nan))

/-- The entry `beta_matrix(r,i)`: the sum over `p` of `K_matrix(r,p) * D_B(p, order, i, x)`. -/
def betaEntry (s : Spline) (r i : Nat) (x : ℚ) : Except Violation Dbl :=
  sumLoop (fun p => do
    let kv ← matGet s.K_matrix r p
    let d ← D_B s p s.order i x
    pure (Dbl.ofInt kv * d)) 0 s.order (Dbl.fin 0)

/-- Row `r` of `beta_matrix`, evaluated at `xMin` when `r < order / 2` and at `xMax`
otherwise. -/
def betaRow (s : Spline) (r : Nat) : Except Violation (List Dbl) :=
  let x := if r < s.order / 2 then s.xMin else s.xMax
  tabulate (fun i => betaEntry s r i x) 0 (s.order + s.N - 1)

/-- The constructor `Spline::Spline`.  The inversion `PartialPivLU::inverse` of the Eigen
library is the parameter `inverse`. -/
def construct (order : Nat) (knotX : List ℚ) (K_matrix : List (List Int))
    (inverse : List (List Dbl) → List (List Dbl)) : Except Violation Spline :=
  if ¬ (order % 2 = 1) then .error .assertion
  else if ¬ (MIN_ORDER ≤ order ∧ order ≤ MAX_ORDER) then .error .assertion
  else if ¬ (2 * order ≤ knotX.length ∧ knotX.length ≤ MAX_NUMBER_KNOTS) then
    .error .assertion
  else do
    let numKnots := knotX.length
    let xMin ← vecGet knotX (order - 1)
    let xMax ← vecGet knotX (numKnots - order)
    let collocationX ← tabulate (collocationPoint knotX) (order - 1)
      (numKnots - order - (order - 1))
    if ¬ (collocationX.length = numKnots - 2 * order + 1) then .error .assertion
    else do
      let N := collocationX.length
      let s0 : Spline :=
        { order := order, knotX := knotX, numKnots := numKnots, collocationX := collocationX,
          N := N, B_matrix := [], K_matrix := K_matrix, beta_matrix := [],
          B_tilde_matrix := [], C_tilde_matrix := [], xMin := xMin, xMax := xMax,
          B_k_i_alpha := allocCache order N }
      let (rows, s1) ← tabulateS
        (fun st alpha => tabulateS (fun st1 i => B_alpha st1 st1.order i alpha) st 0
          (N + order - 1)) s0 0 N
      let s2 : Spline := { s1 with B_matrix := rows }
      let beta ← tabulate (betaRow s2) 0 (order - 1)
      let s3 : Spline := { s2 with beta_matrix := beta }
      let s4 : Spline := { s3 with B_tilde_matrix := s3.B_matrix ++ s3.beta_matrix }
      pure { s4 with C_tilde_matrix := inverse s4.B_tilde_matrix }

/-- The method `Spline::operatorMatrix`: the matrix of the differentiation operator of order
`derivativeOrder`. -/
def operatorMatrix (s : Spline) (derivativeOrder : Nat) : Except Violation (List (List Dbl)) :=
  tabulate (fun alpha => tabulate (fun beta =>
    sumLoop (fun i => do
      let c ← matGet s.C_tilde_matrix i beta
      let x ← vecGet s.collocationX alpha
      let d ← D_B s derivativeOrder s.order i x
      pure (c * d)) 0 (s.order + s.N - 1) (Dbl.fin 0)) 0 s.N) 0 s.N

end Spline

/-! ## Vocabulary of the specification -/

/-- The knot `knot[j]` as a number (`0` outside the vector). -/
def Spline.t (s : Spline) (j : Nat) : ℚ := s.knotX.getD j 0

/-- The knots of the engine of `main.cpp`. -/
def demoKnots : List ℚ := [0, 1, 2, 3, 4, 5, 6, 7]

/-- The boundary conditions of `main.cpp`: value zero at the left boundary, first
derivative zero at the right boundary. -/
def demoK : List (List Int) := [[1, 0, 0], [0, 1, 0]]

/-- Two engines that differ at most in the table `B_k_i_alpha`. -/
def Spline.SameData (s s' : Spline) : Prop :=
  ∃ c, s' = { s with B_k_i_alpha := c }

/-- The knots are strictly increasing: every knot is below its successor. -/
def Spline.StrictKnots (s : Spline) : Prop :=
  ∀ j, j + 1 < s.knotX.length → s.t j < s.t (j + 1)

/-- The knots are nondecreasing: no knot is above its successor. -/
def Spline.NondecreasingKnots (s : Spline) : Prop :=
  ∀ j, j + 1 < s.knotX.length → s.t j ≤ s.t (j + 1)

/-- The value of `Spline::B(k,i,x)` as a rational number, for arguments that pass the
assertions and knots that make every divisor nonzero: the same case analysis as the source
function, over a knot function `t`. -/
def Bq (t : Nat → ℚ) : Nat → Nat → ℚ → ℚ
  | 0, _, _ => 0
  | 1, i, x => if x < t i ∨ x > t (i + 1) then 0 else if t i ≤ x ∧ x < t (i + 1) then 1 else 0
  | k + 2, i, x =>
    if x < t i ∨ x > t (i + (k + 2)) then 0
    else Bq t (k + 1) i x * ((x - t i) / (t (k + 2 + i - 1) - t i))
      + Bq t (k + 1) (i + 1) x * ((t (i + (k + 2)) - x) / (t (i + (k + 2)) - t (i + 1)))

/-- The sum over all valid `i`, `0 ≤ i ≤ numKnots - k - 1`, of `B(k,i,x)`, accumulated in
index order. -/
def Spline.basisSum (s : Spline) (k : Nat) (x : ℚ) : Except Violation Dbl :=
  sumLoop (fun i => s.B k i x) 0 (s.numKnots - k) (Dbl.fin 0)

/-- The Cox-de Boor equations at `(k, i, x)` as the specification states them: the step
function at `k = 1`, the blend of the two basis functions of order `k - 1` at `k ≥ 2`. -/
def Spline.CoxDeBoor (s : Spline) (k i : Nat) (x : ℚ) : Prop :=
  (k = 1 → s.B 1 i x = .ok (if s.t i ≤ x ∧ x < s.t (i + 1) then Dbl.fin 1 else Dbl.fin 0)) ∧
  (2 ≤ k → ∃ b b1 b2, s.B k i x = .ok b ∧ s.B (k - 1) i x = .ok b1 ∧
    s.B (k - 1) (i + 1) x = .ok b2 ∧
    b = ((Dbl.fin x - Dbl.fin (s.t i)) / (Dbl.fin (s.t (k + i - 1)) - Dbl.fin (s.t i))) * b1
      + ((Dbl.fin (s.t (k + i)) - Dbl.fin x)
          / (Dbl.fin (s.t (k + i)) - Dbl.fin (s.t (i + 1)))) * b2)

/-- The matrix `B_tilde` of the engine of `main.cpp`. -/
def demoBtilde : List (List Dbl) :=
  [[.fin (1 / 8), .fin (3 / 4), .fin (1 / 8), .fin 0, .fin 0],
   [.fin 0, .fin (1 / 8), .fin (3 / 4), .fin (1 / 8), .fin 0],
   [.fin 0, .fin 0, .fin (1 / 8), .fin (3 / 4), .fin (1 / 8)],
   [.fin (1 / 2), .fin (1 / 2), .fin 0, .fin 0, .fin 0],
   [.fin 0, .fin 0, .fin 0, .fin (-1), .fin 1]]

/-- The inverse of `demoBtilde`. -/
def demoCtilde : List (List Dbl) :=
  [[.fin (-164 / 99), .fin (28 / 99), .fin (-4 / 99), .fin (239 / 99), .fin (1 / 198)],
   [.fin (164 / 99), .fin (-28 / 99), .fin (4 / 99), .fin (-41 / 99), .fin (-1 / 198)],
   [.fin (-28 / 99), .fin (140 / 99), .fin (-20 / 99), .fin (7 / 99), .fin (5 / 198)],
   [.fin (4 / 99), .fin (-20 / 99), .fin (116 / 99), .fin (-1 / 99), .fin (-29 / 198)],
   [.fin (4 / 99), .fin (-20 / 99), .fin (116 / 99), .fin (-1 / 99), .fin (169 / 198)]]

/-- An inversion routine for the examples: the inverse of `demoBtilde`, and a matrix of
`NaN` of the same shape for every other argument. -/
def demoInverse (m : List (List Dbl)) : List (List Dbl) :=
  if m = demoBtilde then demoCtilde else m.map (fun row => row.map (fun _ => Dbl.nan))

/-- The engine a successful construction returned (an engine without knots otherwise). -/
def engineOf (r : Except Violation Spline) : Spline :=
  match r with
  | .ok s => s
  | .error _ =>
    { order := 0, knotX := [], numKnots := 0, collocationX := [], N := 0, B_matrix := [],
      K_matrix := [], beta_matrix := [], B_tilde_matrix := [], C_tilde_matrix := [],
      xMin := 0, xMax := 0, B_k_i_alpha := [] }

/-- The engine of `main.cpp`: order 3 on the knots `0, 1, ..., 7`. -/
def demoEngine : Spline := engineOf (Spline.construct 3 demoKnots demoK demoInverse)

/-- Knots with a repeated padding knot: nondecreasing, strictly increasing over the
physical range `knot[2] .. knot[5]` of order 3. -/
def clampedKnots : List ℚ := [0, 0, 1, 2, 3, 4, 5, 6]

/-- The engine of order 3 on `clampedKnots`. -/
def clampedEngine : Spline := engineOf (Spline.construct 3 clampedKnots demoK demoInverse)

/-- The value the memoized evaluator computes for the slot `(k, i)` of a collocation point
`x`: the step function at `k = 1` and, above, the blend of the two values of order `k - 1`
in double arithmetic, without the early return of the evaluator at a real `x`. -/
def Bm (t : Nat → ℚ) (x : ℚ) : Nat → Nat → Dbl
  | 0, _ => Dbl.nan
  | 1, i =>
    if x < t i ∨ x > t (i + 1) then Dbl.fin 0
    else if t i ≤ x ∧ x < t (i + 1) then Dbl.fin 1 else Dbl.fin 0
  | k + 2, i =>
    Bm t x (k + 1) i
      * ((Dbl.fin x - Dbl.fin (t i)) / (Dbl.fin (t (k + 2 + i - 1)) - Dbl.fin (t i)))
    + Bm t x (k + 1) (i + 1)
      * ((Dbl.fin (t (k + 2 + i)) - Dbl.fin x) / (Dbl.fin (t (k + 2 + i)) - Dbl.fin (t (i + 1))))

/-- The state of an engine between two calls of the memoized evaluator: the sizes fit, the
collocation points lie in the knot span, the table has a slot for every valid key, and
every slot that is not `NaN` holds the value of its key. -/
structure Spline.Ready (s : Spline) : Prop where
  numKnots_eq : s.numKnots = s.knotX.length
  order_pos : 1 ≤ s.order
  size : s.numKnots = s.N + 2 * s.order - 1
  coll_length : s.collocationX.length = s.N
  coll_span : ∀ (a : Nat) (x : ℚ), s.collocationX[a]? = some x →
    s.t 0 ≤ x ∧ x ≤ s.t (s.knotX.length - 1)
  slot_exists : ∀ (k i a : Nat), 1 ≤ k → k ≤ s.order → i < s.numKnots - k → a < s.N →
    ∃ v, cacheGet s.B_k_i_alpha k i a = .ok v
  slot_value : ∀ (k i a : Nat) (v : Dbl) (x : ℚ), cacheGet s.B_k_i_alpha k i a = .ok v →
    v.isNaN = false → s.collocationX[a]? = some x → v = Bm s.t x k i

/-- The sum of the entries of a row of doubles, accumulated from the left. -/
def Dbl.sum (l : List Dbl) : Dbl := l.foldl (fun acc v => acc + v) (Dbl.fin 0)

/-- An inversion routine returns a matrix of the shape of its argument, as
`PartialPivLU::inverse` does. -/
def ShapePreserving (inverse : List (List Dbl) → List (List Dbl)) : Prop :=
  ∀ m, (inverse m).map List.length = m.map List.length

/-- The rational value of an evaluation that returned a finite double (`0` otherwise). -/
def resultValue (r : Except Violation Dbl) : ℚ :=
  match r with
  | .ok v => v.toRat
  | .error _ => 0

/-- The polynomial piece of `B(k,i)` on the knot interval `(t j, t (j+1))`: the blend of
the source function, started from the indicator of `i = j` and without the early return. -/
def BI (t : Nat → ℚ) (j : Nat) : Nat → Nat → ℚ → ℚ
  | 0, _, _ => 0
  | 1, i, _ => if i = j then 1 else 0
  | k + 2, i, y =>
    BI t j (k + 1) i y * ((y - t i) / (t (k + 2 + i - 1) - t i))
      + BI t j (k + 1) (i + 1) y * ((t (i + (k + 2)) - y) / (t (i + (k + 2)) - t (i + 1)))

/-- The `p`-th derivative of the piece `BI t j k i`, by the differentiation formula of the
basis functions (Umar's Equation (5)) applied `p` times. -/
def GI (t : Nat → ℚ) (j : Nat) : Nat → Nat → Nat → ℚ → ℚ
  | 0, k, i, y => BI t j k i y
  | p + 1, k, i, y =>
    ((k - 1 : Nat) : ℚ) * (GI t j p (k - 1) i y / (t (k + i - 1) - t i)
      - GI t j p (k - 1) (i + 1) y / (t (k + i) - t (i + 1)))

/-- Twelve equally spaced knots for an engine of order 5. -/
def quinticKnots : List ℚ := [0, 1, 2, 3, 4, 5, 6, 7, 8, 9, 10, 11]

/-- Boundary conditions for order 5: value and first derivative zero at both boundaries. -/
def quinticK : List (List Int) :=
  [[1, 0, 0, 0, 0], [0, 1, 0, 0, 0], [1, 0, 0, 0, 0], [0, 1, 0, 0, 0]]

/-- The engine of order 5 on `quinticKnots`. -/
def quinticEngine : Spline :=
  engineOf (Spline.construct 5 quinticKnots quinticK demoInverse)

/-- The slot `(k, i, a)` of the table holds the value the memoized evaluator computes for its
key. -/
def Spline.Hold (s : Spline) (k i a : Nat) : Prop :=
  ∀ (x : ℚ), s.collocationX[a]? = some x → cacheGet s.B_k_i_alpha k i a = .ok (Bm s.t x k i)

/-- The slot `(k, i, a)` and every slot the evaluation of its key descends to hold their
values: the keys `(k', i')` with `1 ≤ k' ≤ k` and `i ≤ i'`, `i' + k' ≤ i + k`. -/
def Spline.Done (s : Spline) (k i a : Nat) : Prop :=
  ∀ (k' i' : Nat), 1 ≤ k' → k' ≤ k → i ≤ i' → i' + k' ≤ i + k → s.Hold k' i' a

/-- Every slot that is not `NaN` was filled after the slots below it. -/
def Spline.Closed (s : Spline) : Prop :=
  ∀ (k i a : Nat) (v : Dbl), cacheGet s.B_k_i_alpha k i a = .ok v → v.isNaN = false →
    s.Done k i a

/-- Every slot of a valid key `(k, i, alpha)`, `1 ≤ k ≤ order`, `i < numKnots - k`,
`alpha < N`, holds the value the memoized evaluator computes for the key. -/
def Spline.Filled (s : Spline) : Prop :=
  ∀ (k i a : Nat), 1 ≤ k → k ≤ s.order → i < s.numKnots - k → a < s.N → s.Hold k i a

/-- Whether a read of the table found a slot that is `NaN`, the marker of a slot not yet
computed. -/
def slotUnset (r : Except Violation Dbl) : Bool :=
  match r with
  | .ok v => v.isNaN
  | .error _ => false

/-- The engine a call of the memoized evaluator leaves: the returned engine, or the engine
of the call when it ended in a violation. -/
def engineAfter (s : Spline) (r : Except Violation (Dbl × Spline)) : Spline :=
  match r with
  | .ok (_, s1) => s1
  | .error _ => s

namespace Spline

/-- The nesting depth of a call `B(k,i,x)`: the number of activations of the evaluators
`B`, `C` and `D_B` on the call stack at the deepest point of the evaluation, the call itself
included.  The branches are those of `Spline::B ( size_t k, size_t i, double x )`, with the
knots read through `t`: a call that stops at an assertion, at the early return or at order 1
makes no call; at `k ≥ 2` the two calls at order `k - 1` are nested in it. -/
def B_depth (s : Spline) (k i : Nat) (x : ℚ) : Nat :=
  if ¬ (1 ≤ k ∧ k ≤ s.order) then 1
  else if ¬ (i < s.numKnots - k) then 1
  else if ¬ (s.t 0 ≤ x ∧ x ≤ s.t (s.knotX.length - 1)) then 1
  else if x < s.t i ∨ x > s.t (i + k) then 1
  else
    match k with
    | k' + 2 => 1 + max (B_depth s (k' + 1) i x) (B_depth s (k' + 1) (i + 1) x)
    | _ => 1

/-- The nesting depth of a call `C(k,i,x)`, the call itself included: at `k = 1` the call of
`B(1,i,x)` is nested in it, at `k ≥ 2` the two calls of `C` at order `k - 1`. -/
def C_depth (s : Spline) (k i : Nat) (x : ℚ) : Nat :=
  if ¬ (k ≥ 1) then 1
  else
    match k with
    | k' + 2 => 1 + max (C_depth s (k' + 1) i x) (C_depth s (k' + 1) (i + 1) x)
    | _ => 1 + B_depth s 1 i x

/-- The nesting depth of a call `D_B(p,k,i,x)`, the call itself included: at `k ≥ p + 2` the
two calls of `D_B` at order `k - 1` are nested in it, at `k = p + 1` the call of `C(k,i,x)`. -/
def D_B_depth (s : Spline) (p k i : Nat) (x : ℚ) : Nat :=
  if ¬ (p < s.order) then 1
  else if ¬ (p + 1 ≤ k ∧ k ≤ s.order) then 1
  else if ¬ (i < s.numKnots - k) then 1
  else if ¬ (s.t 0 ≤ x ∧ x ≤ s.t (s.knotX.length - 1)) then 1
  else
    match k with
    | k' + 1 =>
      if k' + 1 ≥ p + 2 then 1 + max (D_B_depth s p k' i x) (D_B_depth s p k' (i + 1) x)
      else if ¬ (k' + 1 = p + 1) then 1
      else 1 + C_depth s (k' + 1) i x
    | 0 => 1

/-- The nesting depth of a call of the memoized `B(k,i,alpha)`, the call itself included: a
call that stops at an assertion or returns a filled slot makes no call; at `k = 1` the call
of `B(1,i,x)` is nested in it, at `k ≥ 2` the two memoized calls at order `k - 1`, the
second one on the engine the first one leaves. -/
def B_alpha_depth (s : Spline) (k i alpha : Nat) : Nat :=
  if ¬ (1 ≤ k ∧ k ≤ s.order) then 1
  else if ¬ (i < s.numKnots - k) then 1
  else if ¬ (alpha < s.N) then 1
  else if ¬ (slotUnset (cacheGet s.B_k_i_alpha k i alpha)) then 1
  else
    match k with
    | k' + 2 =>
      1 + max (B_alpha_depth s (k' + 1) i alpha)
        (B_alpha_depth (engineAfter s (B_alpha s (k' + 1) i alpha)) (k' + 1) (i + 1) alpha)
    | _ => 1 + B_depth s 1 i (s.collocationX.getD alpha 0)

end Spline

/-- Whether a double is a finite number. -/
def Dbl.isFinite : Dbl → Bool
  | .fin _ => true
  | _ => false

/-- The entry `(i, j)` of a matrix stored as the list of its rows (`NaN` outside the
matrix). -/
def matEntry (m : List (List Dbl)) (i j : Nat) : Dbl := (m.getD i []).getD j Dbl.nan

/-- The matrix product `a * b` in double arithmetic: the entry `(i, j)` is the sum over `k`
of `a(i,k) * b(k,j)`, accumulated in index order. -/
def matMul (a b : List (List Dbl)) : List (List Dbl) :=
  (List.range a.length).map (fun i => (List.range (b.headD []).length).map (fun j =>
    Dbl.sum ((List.range b.length).map (fun k => matEntry a i k * matEntry b k j))))

/-- The identity matrix of size `n`. -/
def identityMatrix (n : Nat) : List (List Dbl) :=
  (List.range n).map (fun i =>
    (List.range n).map (fun j => if i = j then Dbl.fin 1 else Dbl.fin 0))

/-- The rational matrix of the entries of a matrix of doubles, over the first `n` rows and
columns. -/
def toMatrix (n : Nat) (m : List (List Dbl)) : Matrix (Fin n) (Fin n) ℚ :=
  fun i j => (matEntry m i j).toRat

/-- A matrix of `n` rows of `n` finite entries. -/
def FiniteSquare (n : Nat) (m : List (List Dbl)) : Prop :=
  m.length = n ∧ ∀ row ∈ m, row.length = n ∧ ∀ v ∈ row, v.isFinite = true

/-- A non-singular matrix: square, of finite entries, with a determinant that is not
zero. -/
def Nonsingular (m : List (List Dbl)) : Prop :=
  FiniteSquare m.length m ∧ (toMatrix m.length m).det ≠ 0

/-- Modelled from the spec: the inversion `PartialPivLU::inverse` of the Eigen library, which
is not among the sources, idealised to exact arithmetic.  The specification calls `C_tilde`
the inverse of `B_tilde` and promises nothing for a singular `B_tilde`: an exact inversion
returns a matrix of the shape of its argument, and for a non-singular argument a matrix
whose product with the argument is the identity.  A routine that returns doubles meets this
only where the entries of the inverse are doubles. -/
def InversionRoutine (inverse : List (List Dbl) → List (List Dbl)) : Prop :=
  ShapePreserving inverse ∧
  ∀ m, Nonsingular m → matMul (inverse m) m = identityMatrix m.length

/-- The entry `(i, j)` of the inverse of a square matrix by the adjugate formula, in exact
arithmetic. -/
def invEntry (m : List (List Dbl)) (i j : Nat) : Dbl :=
  if h : i < m.length ∧ j < m.length then
    Dbl.fin ((toMatrix m.length m).det⁻¹ * (toMatrix m.length m).adjugate ⟨i, h.1⟩ ⟨j, h.2⟩)
  else Dbl.nan

/-- Modelled from the spec: an inversion routine in exact arithmetic, standing for
`PartialPivLU::inverse` of the Eigen library, which is not among the sources: the inverse of
a non-singular matrix by the adjugate formula, entry by entry over the shape of the
argument. -/
def specInverse (m : List (List Dbl)) : List (List Dbl) :=
  (List.range m.length).map (fun i =>
    (List.range (m.getD i []).length).map (fun j => invEntry m i j))

/-- The engine of `main.cpp` with `C_tilde` computed by `specInverse`. -/
def demoEngineExact : Spline :=
  { demoEngine with C_tilde_matrix := specInverse demoEngine.B_tilde_matrix }

/-- Knots whose padding knots are out of order: `knot[1] = 5` lies above `knot[2] = 2`; the
physical knots `2, 3, 4, 5` of order 3 are strictly increasing. -/
def shuffledKnots : List ℚ := [0, 5, 2, 3, 4, 5, 6, 7]

/-- The engine of order 3 on `shuffledKnots`. -/
def shuffledEngine : Spline := engineOf (Spline.construct 3 shuffledKnots demoK demoInverse)

/-! ## Binary64 arithmetic

The embedding above computes with exact rationals: it is the program in exact arithmetic.
The embedding below is the same program in IEEE 754 binary64 arithmetic, where every
operation rounds to the nearest double, ties to even, and overflows to an infinity.  Zeros
carry no sign. -/

namespace Dbl

/-- The binary search of `log2`: the exponent `e` with `2 ^ e ≤ n < 2 ^ (e + 1)`, given
`2 ^ acc ≤ n < 2 ^ (acc + 2 ^ j)`. -/
def log2Search (n : Nat) : Nat → Nat → Nat
  | 0, acc => acc
  | j + 1, acc =>
    if 2 ^ (acc + 2 ^ j) ≤ n then log2Search n j (acc + 2 ^ j) else log2Search n j acc

/-- The least `j` from `j` on with `n < 2 ^ (2 ^ j)`, found in at most `fuel` steps. -/
def log2Level (n : Nat) : Nat → Nat → Nat
  | 0, j => j
  | fuel + 1, j => if n < 2 ^ (2 ^ j) then j else log2Level n fuel (j + 1)

/-- The exponent `e` with `2 ^ e ≤ n < 2 ^ (e + 1)`, for positive `n`. -/
def log2 (n : Nat) : Nat := log2Search n (log2Level n n 0) 0

/-- The integer `e` with `2 ^ e ≤ n / d < 2 ^ (e + 1)`, for positive `n` and `d`. -/
def ilog2 (n d : Nat) : Int :=
  let e0 : Int := (log2 n : Int) - (log2 d : Int)
  if (if 0 ≤ e0 then d * 2 ^ e0.toNat ≤ n else d ≤ n * 2 ^ (-e0).toNat) then e0 else e0 - 1

/-- The double nearest to a rational number, ties to the even significand: 53 significant
bits, least exponent `-1074`, an infinity from `2 ^ 1024` on. -/
def round64 (q : ℚ) : Dbl :=
  if q = 0 then fin 0
  else
    let n := q.num.natAbs
    let d := q.den
    let qe : Int := max (ilog2 n d - 52) (-1074)
    let num := if 0 ≤ qe then n else n * 2 ^ (-qe).toNat
    let den := if 0 ≤ qe then d * 2 ^ qe.toNat else d
    let m := num / den
    let r := num % den
    let m1 := if den < 2 * r then m + 1 else if 2 * r = den then m + m % 2 else m
    if 0 ≤ qe ∧ 2 ^ 1024 ≤ m1 * 2 ^ qe.toNat then inf (decide (q < 0))
    else
      let mag : ℚ :=
        if 0 ≤ qe then ((m1 * 2 ^ qe.toNat : Nat) : ℚ)
        else ((m1 : Nat) : ℚ) / ((2 ^ (-qe).toNat : Nat) : ℚ)
      fin (if q < 0 then -mag else mag)

/-- The result of an operation, rounded to a double. -/
def round : Dbl → Dbl
  | fin q => round64 q
  | v => v

/-- IEEE `<`: false when an operand is `NaN`. -/
def lt : Dbl → Dbl → Bool
  | fin a, fin b => decide (a < b)
  | fin _, inf s => !s
  | inf s, fin _ => s
  | inf s, inf t => s && !t
  | _, _ => false

/-- IEEE `<=`: false when an operand is `NaN`. -/
def le : Dbl → Dbl → Bool
  | fin a, fin b => decide (a ≤ b)
  | fin _, inf s => !s
  | inf s, fin _ => s
  | inf s, inf t => s || !t
  | _, _ => false

end Dbl

/-- A `double`: a value of `Dbl` with the rounding operations of binary64. -/
structure F64 where
  val : Dbl
  deriving DecidableEq

namespace F64

instance : Add F64 := ⟨fun a b => ⟨(a.val + b.val).round⟩⟩
instance : Sub F64 := ⟨fun a b => ⟨(a.val - b.val).round⟩⟩
instance : Mul F64 := ⟨fun a b => ⟨(a.val * b.val).round⟩⟩
instance : Div F64 := ⟨fun a b => ⟨(a.val / b.val).round⟩⟩
instance : LT F64 := ⟨fun a b => Dbl.lt a.val b.val = true⟩
instance : LE F64 := ⟨fun a b => Dbl.le a.val b.val = true⟩
instance (a b : F64) : Decidable (a < b) :=
  inferInstanceAs (Decidable (Dbl.lt a.val b.val = true))
instance (a b : F64) : Decidable (a ≤ b) :=
  inferInstanceAs (Decidable (Dbl.le a.val b.val = true))

/-- The double nearest to a rational number, as a decimal literal is read. -/
def ofRat (q : ℚ) : F64 := ⟨Dbl.round64 q⟩

/-- Conversion of a `size_t` to `double`. -/
def ofNat (n : Nat) : F64 := ⟨Dbl.round64 (n : ℚ)⟩

/-- Conversion of an `int` to `double`. -/
def ofInt (z : Int) : F64 := ⟨Dbl.round64 (z : ℚ)⟩

/-- The value `NaN`. -/
def nan : F64 := ⟨Dbl.nan⟩

/-- The test `std::isnan`. -/
def isNaN (x : F64) : Bool := x.val.isNaN

end F64

namespace Binary64

/-- Read `B_k_i_alpha[k][i][alpha]`. -/
def cacheGet (c : List (List (List F64))) (k i alpha : Nat) : Except Violation F64 := do
  let ck ← vecGet c k
  let cki ← vecGet ck i
  vecGet cki alpha

/-- Assign `B_k_i_alpha[k][i][alpha] = v`. -/
def cacheSet (c : List (List (List F64))) (k i alpha : Nat) (v : F64) :
    List (List (List F64)) :=
  List.modify (fun ck => List.modify (fun cki => cki.set alpha v) i ck) k c

/-- A counted loop `for (j = i; j < i + n; j++) sum += f(j)` in binary64. -/
def sumLoop (f : Nat → Except Violation F64) : Nat → Nat → F64 → Except Violation F64
  | _, 0, sum => .ok sum
  | i, n + 1, sum => do
    let v ← f i
    sumLoop f (i + 1) n (sum + v)

/-- The data members of class `Spline`, with every `double` a binary64 value. -/
structure Spline where
  order : Nat
  knotX : List F64
  numKnots : Nat
  collocationX : List F64
  N : Nat
  B_matrix : List (List F64)
  K_matrix : List (List Int)
  beta_matrix : List (List F64)
  B_tilde_matrix : List (List F64)
  C_tilde_matrix : List (List F64)
  xMin : F64
  xMax : F64
  B_k_i_alpha : List (List (List F64))
  deriving DecidableEq

namespace Spline

/-- The element `knotX[j]`. -/
def knot (s : Spline) (j : Nat) : Except Violation F64 := vecGet s.knotX j

/-- The element `knotX.front()`. -/
def front (s : Spline) : Except Violation F64 := vecGet s.knotX 0

/-- The element `knotX.back()`. -/
def back (s : Spline) : Except Violation F64 := vecGet s.knotX (s.knotX.length - 1)

/-- The method `Spline::B ( size_t k, size_t i, double x )` in binary64: the argument `x` is
any double, `NaN` and the infinities included. -/
def B (s : Spline) (k i : Nat) (x : F64) : Except Violation F64 :=
  if ¬ (1 ≤ k ∧ k ≤ s.order) then .error .assertion
  else if ¬ (i < s.numKnots - k) then .error .assertion
  else do
    let lo ← s.front
    let hi ← s.back
    if ¬ (lo ≤ x ∧ x ≤ hi) then .error .assertion
    else do
      let ti ← s.knot i
      let tik ← s.knot (i + k)
      if x < ti ∨ x > tik then pure (F64.ofNat 0)
      else
        match k with
        | k' + 2 => do
          let b1 ← B s (k' + 1) i x
          let tk1 ← s.knot (k' + 2 + i - 1)
          let firstTerm := b1 * ((x - ti) / (tk1 - ti))
          let b2 ← B s (k' + 1) (i + 1) x
          let ti1 ← s.knot (i + 1)
          let secondTerm := b2 * ((tik - x) / (tik - ti1))
          pure (firstTerm + secondTerm)
        | _ => do
          let ti1 ← s.knot (i + 1)
          pure (if ti ≤ x ∧ x < ti1 then F64.ofNat 1 else F64.ofNat 0)

/-- The method `Spline::C` in binary64. -/
def C (s : Spline) (k i : Nat) (x : F64) : Except Violation F64 :=
  if ¬ (k ≥ 1) then .error .assertion
  else
    match k with
    | k' + 2 => do
      let c1 ← C s (k' + 1) i x
      let tk1 ← s.knot (k' + 2 + i - 1)
      let ti ← s.knot i
      let firstTerm := c1 / (tk1 - ti)
      let c2 ← C s (k' + 1) (i + 1) x
      let tk ← s.knot (k' + 2 + i)
      let ti1 ← s.knot (i + 1)
      let secondTerm := c2 / (tk - ti1)
      pure (F64.ofNat (k' + 2 - 1) * (firstTerm - secondTerm))
    | _ => B s 1 i x

/-- The method `Spline::D_B` in binary64. -/
def D_B (s : Spline) (p k i : Nat) (x : F64) : Except Violation F64 :=
  if ¬ (p < s.order) then .error .assertion
  else if ¬ (p + 1 ≤ k ∧ k ≤ s.order) then .error .assertion
  else if ¬ (i < s.numKnots - k) then .error .assertion
  else do
    let lo ← s.front
    let hi ← s.back
    if ¬ (lo ≤ x ∧ x ≤ hi) then .error .assertion
    else
      match k with
      | k' + 1 =>
        if k' + 1 ≥ p + 2 then do
          let ti ← s.knot i
          let tk1 ← s.knot (k' + 1 + i - 1)
          let firstTermRatio := (x - ti) / (tk1 - ti)
          let tk ← s.knot (k' + 1 + i)
          let ti1 ← s.knot (i + 1)
          let secondTermRatio := (tk - x) / (tk - ti1)
          let firstTermDeriv ← D_B s p k' i x
          let secondTermDeriv ← D_B s p k' (i + 1) x
          pure ((F64.ofNat (k' + 1 - 1) / F64.ofNat (k' + 1 - p - 1))
                * ((firstTermRatio * firstTermDeriv) + (secondTermRatio * secondTermDeriv)))
        else if ¬ (k' + 1 = p + 1) then .error .assertion
        else C s (k' + 1) i x
      | 0 => .error .assertion

/-- The engine after the assignment `B_k_i_alpha[k][i][alpha] = v`. -/
def store (s : Spline) (k i alpha : Nat) (v : F64) : Spline :=
  { s with B_k_i_alpha := cacheSet s.B_k_i_alpha k i alpha v }

/-- The method `Spline::B ( size_t k, size_t i, size_t alpha )` in binary64. -/
def B_alpha (s : Spline) (k i alpha : Nat) : Except Violation (F64 × Spline) :=
  if ¬ (1 ≤ k ∧ k ≤ s.order) then .error .assertion
  else if ¬ (i < s.numKnots - k) then .error .assertion
  else if ¬ (alpha < s.N) then .error .assertion
  else do
    let slot ← cacheGet s.B_k_i_alpha k i alpha
    if ¬ slot.isNaN then pure (slot, s)
    else do
      let x ← vecGet s.collocationX alpha
      match k with
      | k' + 2 => do
        let (firstTermB, s1) ← B_alpha s (k' + 1) i alpha
        let (secondTermB, s2) ← B_alpha s1 (k' + 1) (i + 1) alpha
        let ti ← s2.knot i
        let tk1 ← s2.knot (k' + 2 + i - 1)
        let firstTerm := firstTermB * ((x - ti) / (tk1 - ti))
        let tk ← s2.knot (k' + 2 + i)
        let ti1 ← s2.knot (i + 1)
        let secondTerm := secondTermB * ((tk - x) / (tk - ti1))
        pure (firstTerm + secondTerm, s2.store (k' + 2) i alpha (firstTerm + secondTerm))
      | _ => do
        let v ← B s 1 i x
        pure (v, s.store 1 i alpha v)

/-- One iteration of the loop of lines 40-44 of `Spline.cpp` in binary64: the sum of the two
knots is rounded, and overflows to an infinity from `2 ^ 1024` on. -/
def collocationPoint (knotX : List F64) (i : Nat) : Except Violation F64 := do
  let a ← vecGet knotX i
  let b ← vecGet knotX (i + 1)
  if ¬ (a < b) then .error .assertion
  else pure ((a + b) / F64.ofNat 2)

/-- The table `B_k_i_alpha` as the constructor allocates it, every slot `NaN`. -/
def allocCache (order N : Nat) : List (List (List F64)) :=
  [] :: (List.range order).map
    (fun j => List.replicate (N + 2 * order - (j + 1) - 1) (List.replicate N F64.nan))

/-- The entry `beta_matrix(r,i)` in binary64. -/
def betaEntry (s : Spline) (r i : Nat) (x : F64) : Except Violation F64 :=
  sumLoop (fun p => do
    let kv ← matGet s.K_matrix r p
    let d ← D_B s p s.order i x
    pure (F64.ofInt kv * d)) 0 s.order (F64.ofNat 0)

/-- Row `r` of `beta_matrix` in binary64. -/
def betaRow (s : Spline) (r : Nat) : Except Violation (List F64) :=
  let x := if r < s.order / 2 then s.xMin else s.xMax
  tabulate (fun i => betaEntry s r i x) 0 (s.order + s.N - 1)

/-- The constructor `Spline::Spline` in binary64.  The inversion `PartialPivLU::inverse` of
the Eigen library is the parameter `inverse`. -/
def construct (order : Nat) (knotX : List F64) (K_matrix : List (List Int))
    (inverse : List (List F64) → List (List F64)) : Except Violation Spline :=
  if ¬ (order % 2 = 1) then .error .assertion
  else if ¬ (BSCM.Spline.MIN_ORDER ≤ order ∧ order ≤ BSCM.Spline.MAX_ORDER) then
    .error .assertion
  else if ¬ (2 * order ≤ knotX.length ∧ knotX.length ≤ BSCM.Spline.MAX_NUMBER_KNOTS) then
    .error .assertion
  else do
    let numKnots := knotX.length
    let xMin ← vecGet knotX (order - 1)
    let xMax ← vecGet knotX (numKnots - order)
    let collocationX ← tabulate (collocationPoint knotX) (order - 1)
      (numKnots - order - (order - 1))
    if ¬ (collocationX.length = numKnots - 2 * order + 1) then .error .assertion
    else do
      let N := collocationX.length
      let s0 : Spline :=
        { order := order, knotX := knotX, numKnots := numKnots, collocationX := collocationX,
          N := N, B_matrix := [], K_matrix := K_matrix, beta_matrix := [],
          B_tilde_matrix := [], C_tilde_matrix := [], xMin := xMin, xMax := xMax,
          B_k_i_alpha := allocCache order N }
      let (rows, s1) ← tabulateS
        (fun st alpha => tabulateS (fun st1 i => B_alpha st1 st1.order i alpha) st 0
          (N + order - 1)) s0 0 N
      let s2 : Spline := { s1 with B_matrix := rows }
      let beta ← tabulate (betaRow s2) 0 (order - 1)
      let s3 : Spline := { s2 with beta_matrix := beta }
      let s4 : Spline := { s3 with B_tilde_matrix := s3.B_matrix ++ s3.beta_matrix }
      pure { s4 with C_tilde_matrix := inverse s4.B_tilde_matrix }

/-- The method `Spline::operatorMatrix` in binary64. -/
def operatorMatrix (s : Spline) (derivativeOrder : Nat) : Except Violation (List (List F64)) :=
  tabulate (fun alpha => tabulate (fun beta =>
    sumLoop (fun i => do
      let c ← matGet s.C_tilde_matrix i beta
      let x ← vecGet s.collocationX alpha
      let d ← D_B s derivativeOrder s.order i x
      pure (c * d)) 0 (s.order + s.N - 1) (F64.ofNat 0)) 0 s.N) 0 s.N

end Spline

/-- The engine a successful construction returned (an engine without knots otherwise). -/
def engineOf (r : Except Violation Spline) : Spline :=
  match r with
  | .ok s => s
  | .error _ =>
    { order := 0, knotX := [], numKnots := 0, collocationX := [], N := 0, B_matrix := [],
      K_matrix := [], beta_matrix := [], B_tilde_matrix := [], C_tilde_matrix := [],
      xMin := F64.nan, xMax := F64.nan, B_k_i_alpha := [] }

end Binary64

/-! ## Inputs of the binary64 examples -/

/-- Whether a value is a binary64 number: rounding leaves it as it is. -/
def Dbl.isBinary64 (v : Dbl) : Bool := decide (v.round = v)

/-- The doubles nearest to a list of rational numbers. -/
def knots64 (l : List ℚ) : List F64 := l.map F64.ofRat

/-- An inversion routine for the binary64 examples that do not read `C_tilde`: the argument
itself. -/
def noInverse64 (m : List (List F64)) : List (List F64) := m

/-- Strictly increasing knots with one wider interval: `0, 1, 2, 3, 5, 6, 7, 8`. -/
def unevenKnots : List ℚ := [0, 1, 2, 3, 5, 6, 7, 8]

/-- The binary64 engine of order 3 on `unevenKnots`. -/
def unevenEngine64 : Binary64.Spline :=
  Binary64.engineOf (Binary64.Spline.construct 3 (knots64 unevenKnots) demoK noInverse64)

/-- Strictly increasing knots of tiny spacing: `j * 2 ^ (-600)` for `j = 0 .. 7`. -/
def tinyKnots : List ℚ :=
  [0, 1 / 2 ^ 600, 2 / 2 ^ 600, 3 / 2 ^ 600, 4 / 2 ^ 600, 5 / 2 ^ 600, 6 / 2 ^ 600,
    7 / 2 ^ 600]

/-- The engine of order 3 on `tinyKnots` in exact arithmetic. -/
def tinyEngine : Spline := engineOf (Spline.construct 3 tinyKnots demoK demoInverse)

/-- The binary64 engine of order 3 on `tinyKnots`. -/
def tinyEngine64 : Binary64.Spline :=
  Binary64.engineOf (Binary64.Spline.construct 3 (knots64 tinyKnots) demoK noInverse64)

/-- An inversion routine for the binary64 engine of `main.cpp`: for `demoBtilde` the doubles
nearest to the entries of its exact inverse `demoCtilde`, and a matrix of `NaN` of the same
shape for every other argument. -/
def nearestInverse64 (m : List (List F64)) : List (List F64) :=
  if m = demoBtilde.map (fun row => row.map F64.mk) then
    demoCtilde.map (fun row => row.map (fun v => F64.mk v.round))
  else m.map (fun row => row.map (fun _ => F64.nan))

/-- The binary64 engine of `main.cpp`: order 3 on the knots `0, 1, ..., 7`, with `C_tilde`
the doubles nearest to the exact inverse of `B_tilde`. -/
def demoEngine64 : Binary64.Spline :=
  Binary64.engineOf (Binary64.Spline.construct 3 (knots64 demoKnots) demoK nearestInverse64)

/-- Strictly increasing knots near the top of the binary64 range, all of them doubles:
`2 ^ 1019` times `-31, -16, 2, 4, 6, 8, 10, 12`.  The difference `knot[2] - knot[0]` is
`33 * 2 ^ 1019`, above the largest double. -/
def overflowKnots : List ℚ :=
  [-(31 * 2 ^ 1019), -(16 * 2 ^ 1019), 2 * 2 ^ 1019, 4 * 2 ^ 1019, 6 * 2 ^ 1019, 8 * 2 ^ 1019,
    10 * 2 ^ 1019, 12 * 2 ^ 1019]

/-- The binary64 engine of order 3 on `overflowKnots`. -/
def overflowEngine64 : Binary64.Spline :=
  Binary64.engineOf (Binary64.Spline.construct 3 (knots64 overflowKnots) demoK noInverse64)

/-! # Verification -/

/-! ## Loops and containers: basic facts -/

theorem bind_ok_iff {α β : Type} (e : Except Violation α) (g : α → Except Violation β) (b : β) :
    (e >>= g) = .ok b ↔ ∃ a, e = .ok a ∧ g a = .ok b := by
  cases e with
  | error v => simp [bind, Except.bind]
  | ok a => simp [bind, Except.bind]

theorem tabulate_ok_iff {α : Type} (f : Nat → Except Violation α) (n : Nat) :
    ∀ (i : Nat) (l : List α), tabulate f i n = .ok l ↔
      l.length = n ∧ ∀ j, j < n → ∃ a, l[j]? = some a ∧ f (i + j) = .ok a := by
  induction n with
  | zero =>
    intro i l
    simp [tabulate, eq_comm]
  | succ n ih =>
    intro i l
    rw [tabulate, bind_ok_iff]
    constructor
    · rintro ⟨a, ha, h⟩
      rw [bind_ok_iff] at h
      obtain ⟨rest, hr, h⟩ := h
      simp only [pure, Except.pure, Except.ok.injEq] at h
      subst h
      obtain ⟨hl, hj⟩ := (ih (i + 1) rest).1 hr
      refine ⟨by simp [hl], ?_⟩
      intro j hjn
      cases j with
      | zero => exact ⟨a, by simp, by simpa using ha⟩
      | succ j =>
        obtain ⟨b, hb, hf⟩ := hj j (by omega)
        refine ⟨b, by simpa using hb, ?_⟩
        have : i + (j + 1) = i + 1 + j := by omega
        rw [this]; exact hf
    · rintro ⟨hl, hj⟩
      cases l with
      | nil => simp at hl
      | cons a rest =>
        obtain ⟨a', ha', hf⟩ := hj 0 (by omega)
        simp at ha'
        subst ha'
        refine ⟨a, by simpa using hf, ?_⟩
        rw [bind_ok_iff]
        refine ⟨rest, ?_, rfl⟩
        rw [ih]
        refine ⟨by simpa using hl, ?_⟩
        intro j hjn
        obtain ⟨b, hb, hf⟩ := hj (j + 1) (by omega)
        refine ⟨b, by simpa using hb, ?_⟩
        have : i + (j + 1) = i + 1 + j := by omega
        rw [← this]; exact hf

/-- A loop whose iterations all succeed produces its list. -/
theorem tabulate_total {α : Type} (f : Nat → Except Violation α) (n : Nat) :
    ∀ (i : Nat), (∀ j, j < n → ∃ a, f (i + j) = .ok a) → ∃ l, tabulate f i n = .ok l := by
  induction n with
  | zero => intro i _; exact ⟨[], rfl⟩
  | succ n ih =>
    intro i h
    obtain ⟨a, ha⟩ := h 0 (by omega)
    obtain ⟨rest, hr⟩ := ih (i + 1) (fun j hj => by
      have := h (j + 1) (by omega)
      have e : i + (j + 1) = i + 1 + j := by omega
      rwa [e] at this)
    refine ⟨a :: rest, ?_⟩
    rw [tabulate]
    simp only [Nat.add_zero] at ha
    simp [ha, hr, bind, Except.bind, pure, Except.pure]

/-- A loop stops with an assertion failure at its first failing iteration, when every
iteration either succeeds or fails an assertion. -/
theorem tabulate_assertion {α : Type} (f : Nat → Except Violation α) (n : Nat) :
    ∀ (i : Nat), (∀ j, j < n → (∃ a, f (i + j) = .ok a) ∨ f (i + j) = .error .assertion) →
      (∃ j, j < n ∧ f (i + j) = .error .assertion) →
      tabulate f i n = .error .assertion := by
  induction n with
  | zero => rintro i _ ⟨j, hj, _⟩; omega
  | succ n ih =>
    rintro i hall ⟨j, hj, hbad⟩
    rw [tabulate]
    rcases hall 0 (by omega) with ⟨a, ha⟩ | ha
    · simp only [Nat.add_zero] at ha
      have hrest : tabulate f (i + 1) n = .error .assertion := by
        apply ih
        · intro j' hj'
          have := hall (j' + 1) (by omega)
          have e : i + (j' + 1) = i + 1 + j' := by omega
          rwa [e] at this
        · cases j with
          | zero => simp only [Nat.add_zero] at hbad; rw [ha] at hbad; cases hbad
          | succ j =>
            refine ⟨j, by omega, ?_⟩
            have e : i + (j + 1) = i + 1 + j := by omega
            rwa [e] at hbad
      simp [ha, hrest, bind, Except.bind]
    · simp only [Nat.add_zero] at ha
      simp [ha, bind, Except.bind]

theorem vecGet_ok {α : Type} (v : List α) (j : Nat) (h : j < v.length) :
    vecGet v j = .ok (v.get ⟨j, h⟩) := by
  simp [vecGet, List.getElem?_eq_getElem h]

theorem vecGet_ok_iff {α : Type} (v : List α) (j : Nat) (a : α) :
    vecGet v j = .ok a ↔ v[j]? = some a := by
  unfold vecGet
  cases h : v[j]? <;> simp

theorem vecGet_getD (v : List ℚ) (j : Nat) (h : j < v.length) :
    vecGet v j = .ok (v.getD j 0) := by
  simp [vecGet, List.getElem?_eq_getElem h, List.getD_eq_getElem?_getD]


/-! ## The constructor: rejected inputs and collocation points -/

theorem collocationPoint_ok (knotX : List ℚ) (i : Nat) (h : i + 1 < knotX.length)
    (hlt : knotX.getD i 0 < knotX.getD (i + 1) 0) :
    Spline.collocationPoint knotX i = .ok ((knotX.getD i 0 + knotX.getD (i + 1) 0) / 2) := by
  unfold Spline.collocationPoint
  rw [vecGet_getD knotX i (by omega), vecGet_getD knotX (i + 1) h]
  simp only [bind, Except.bind, hlt, pure, Except.pure, not_true_eq_false, if_false]

theorem collocationPoint_assertion (knotX : List ℚ) (i : Nat) (h : i + 1 < knotX.length)
    (hge : knotX.getD (i + 1) 0 ≤ knotX.getD i 0) :
    Spline.collocationPoint knotX i = .error .assertion := by
  unfold Spline.collocationPoint
  rw [vecGet_getD knotX i (by omega), vecGet_getD knotX (i + 1) h]
  simp only [bind, Except.bind, not_lt.2 hge, not_false_eq_true, if_true]

/-- Claim C1.  The constructor ends in an assertion failure, and produces no engine, when
the order is even, the order is below 3 or above 15, the number of knots is below
`2 * order` or above 100, or some physical-range knot `knot[i]`, `order - 1 ≤ i <
numKnots - order`, is not strictly less than its successor. -/
theorem C1_construct_rejects (order : Nat) (knotX : List ℚ) (K : List (List Int))
    (inverse : List (List Dbl) → List (List Dbl))
    (h : order % 2 = 0 ∨ order < 3 ∨ 15 < order ∨ knotX.length < 2 * order ∨
      100 < knotX.length ∨
      ∃ i, order - 1 ≤ i ∧ i < knotX.length - order ∧ knotX.getD i 0 ≥ knotX.getD (i + 1) 0) :
    Spline.construct order knotX K inverse = .error .assertion := by
  unfold Spline.construct
  by_cases h1 : order % 2 = 1
  swap
  · simp [h1]
  by_cases h2 : Spline.MIN_ORDER ≤ order ∧ order ≤ Spline.MAX_ORDER
  swap
  · simp [h1, h2]
  by_cases h3 : 2 * order ≤ knotX.length ∧ knotX.length ≤ Spline.MAX_NUMBER_KNOTS
  swap
  · simp [h1, h2, h3]
  simp only [h1, h2, h3, not_true_eq_false, if_false, and_self]
  simp only [Spline.MIN_ORDER, Spline.MAX_ORDER, Spline.MAX_NUMBER_KNOTS] at h2 h3
  rcases h with h | h | h | h | h | ⟨i, hi1, hi2, hge⟩
  · omega
  · omega
  · omega
  · omega
  · omega
  rw [vecGet_getD knotX (order - 1) (by omega), vecGet_getD knotX (knotX.length - order) (by omega)]
  have hloop : tabulate (Spline.collocationPoint knotX) (order - 1)
      (knotX.length - order - (order - 1)) = .error .assertion := by
    apply tabulate_assertion
    · intro j hj
      by_cases hlt : knotX.getD (order - 1 + j) 0 < knotX.getD (order - 1 + j + 1) 0
      · exact Or.inl ⟨_, collocationPoint_ok knotX _ (by omega) hlt⟩
      · exact Or.inr (collocationPoint_assertion knotX _ (by omega) (not_lt.1 hlt))
    · refine ⟨i - (order - 1), by omega, ?_⟩
      have e : order - 1 + (i - (order - 1)) = i := by omega
      rw [e]
      exact collocationPoint_assertion knotX i (by omega) hge
  simp [hloop, bind, Except.bind]

/-- Witness of C1: order 3 with knots `0,1,2,2,4,5,6,7`, where the physical knot `knot[2]` is
not below `knot[3]`, is rejected. -/
theorem C1_construct_rejects_witness :
    Spline.construct 3 [0, 1, 2, 2, 4, 5, 6, 7] demoK id = .error .assertion :=
  C1_construct_rejects 3 [0, 1, 2, 2, 4, 5, 6, 7] demoK id
    (Or.inr (Or.inr (Or.inr (Or.inr (Or.inr ⟨2, by decide, by decide, by decide!⟩)))))


/-! ## The memoized evaluator changes nothing but the table -/

theorem B_alpha_unfold (s : Spline) (k i alpha : Nat) :
    Spline.B_alpha s k i alpha =
      (if ¬ (1 ≤ k ∧ k ≤ s.order) then .error .assertion
      else if ¬ (i < s.numKnots - k) then .error .assertion
      else if ¬ (alpha < s.N) then .error .assertion
      else do
        let slot ← cacheGet s.B_k_i_alpha k i alpha
        if ¬ slot.isNaN then pure (slot, s)
        else do
          let x ← vecGet s.collocationX alpha
          match k with
          | k' + 2 => do
            let (firstTermB, s1) ← Spline.B_alpha s (k' + 1) i alpha
            let (secondTermB, s2) ← Spline.B_alpha s1 (k' + 1) (i + 1) alpha
            let ti ← s2.knot i
            let tk1 ← s2.knot (k' + 2 + i - 1)
            let firstTerm :=
              firstTermB * ((Dbl.fin x - Dbl.fin ti) / (Dbl.fin tk1 - Dbl.fin ti))
            let tk ← s2.knot (k' + 2 + i)
            let ti1 ← s2.knot (i + 1)
            let secondTerm :=
              secondTermB * ((Dbl.fin tk - Dbl.fin x) / (Dbl.fin tk - Dbl.fin ti1))
            pure (firstTerm + secondTerm, s2.store (k' + 2) i alpha (firstTerm + secondTerm))
          | _ => do
            let v ← Spline.B s 1 i x
            pure (v, s.store 1 i alpha v)) := by
  rcases k with _ | _ | k <;> rfl

theorem Spline.SameData.refl (s : Spline) : s.SameData s := ⟨s.B_k_i_alpha, rfl⟩

theorem Spline.SameData.trans {s s' s'' : Spline} (h : s.SameData s') (h' : s'.SameData s'') :
    s.SameData s'' := by
  obtain ⟨c, rfl⟩ := h
  obtain ⟨c', rfl⟩ := h'
  exact ⟨c', rfl⟩

theorem Spline.SameData.of_store (s : Spline) (k i alpha : Nat) (v : Dbl) :
    s.SameData (s.store k i alpha v) := ⟨_, rfl⟩

theorem B_alpha_sameData (k : Nat) : ∀ (s : Spline) (i alpha : Nat) (v : Dbl) (s' : Spline),
    Spline.B_alpha s k i alpha = .ok (v, s') → s.SameData s' := by
  induction k using Nat.strong_induction_on with
  | _ k ih =>
    intro s i alpha v s' h
    rw [B_alpha_unfold] at h
    split_ifs at h with h1 h2 h3
    rw [bind_ok_iff] at h
    obtain ⟨slot, _, h⟩ := h
    split_ifs at h with h4
    · rw [bind_ok_iff] at h
      obtain ⟨x, _, h⟩ := h
      rcases k with _ | _ | k
      · omega
      · simp only [bind_ok_iff] at h
        obtain ⟨w, _, h⟩ := h
        simp only [pure, Except.pure, Except.ok.injEq, Prod.mk.injEq] at h
        rw [← h.2]
        exact Spline.SameData.of_store _ _ _ _ _
      · simp only [bind_ok_iff] at h
        obtain ⟨⟨b1, s1⟩, hb1, ⟨b2, s2⟩, hb2, ti, _, tk1, _, tk, _, ti1, _, h⟩ := h
        simp only [pure, Except.pure, Except.ok.injEq, Prod.mk.injEq] at h
        rw [← h.2]
        exact ((ih (k + 1) (by omega) _ _ _ _ _ hb1).trans
          (ih (k + 1) (by omega) _ _ _ _ _ hb2)).trans (Spline.SameData.of_store _ _ _ _ _)
    · simp only [pure, Except.pure, Except.ok.injEq, Prod.mk.injEq] at h
      rw [← h.2]
      exact Spline.SameData.refl _

/-- An invariant `P` of the state that every iteration preserves holds after the loop, and
every element of the produced list satisfies what its iteration guarantees. -/
theorem tabulateS_invariant {σ α : Type} (f : σ → Nat → Except Violation (α × σ))
    (P : σ → Prop) (Q : Nat → α → Prop) (n : Nat) :
    ∀ (i : Nat) (st : σ) (l : List α) (st' : σ),
      (∀ st j a st1, P st → i ≤ j → j < i + n → f st j = .ok (a, st1) → P st1 ∧ Q j a) →
      P st → tabulateS f st i n = .ok (l, st') →
      P st' ∧ l.length = n ∧ ∀ j, j < n → ∃ a, l[j]? = some a ∧ Q (i + j) a := by
  induction n with
  | zero =>
    intro i st l st' _ hP h
    simp only [tabulateS, Except.ok.injEq, Prod.mk.injEq] at h
    obtain ⟨rfl, rfl⟩ := h
    exact ⟨hP, rfl, fun j hj => by omega⟩
  | succ n ih =>
    intro i st l st' hf hP h
    rw [tabulateS, bind_ok_iff] at h
    obtain ⟨⟨a, st1⟩, ha, h⟩ := h
    simp only [bind_ok_iff] at h
    obtain ⟨⟨rest, st2⟩, hr, h⟩ := h
    simp only [pure, Except.pure, Except.ok.injEq, Prod.mk.injEq] at h
    obtain ⟨rfl, rfl⟩ := h
    obtain ⟨hP1, hQa⟩ := hf st i a st1 hP (le_refl _) (by omega) ha
    obtain ⟨hP2, hlen, hj⟩ := ih (i + 1) st1 rest st2
      (fun st j a st1 hp h1 h2 hfj => hf st j a st1 hp (by omega) (by omega) hfj) hP1 hr
    refine ⟨hP2, by simp [hlen], ?_⟩
    intro j hjn
    cases j with
    | zero => exact ⟨a, by simp, hQa⟩
    | succ j =>
      obtain ⟨b, hb, hq⟩ := hj j (by omega)
      refine ⟨b, by simpa using hb, ?_⟩
      have e : i + (j + 1) = i + 1 + j := by omega
      rw [e]; exact hq

/-- The stages of a successful construction: the assertions on the order and the number of
knots hold, the collocation loop, the fill of `B_matrix` and the fill of `beta_matrix`
succeed, and the engine is assembled from their results. -/
theorem construct_ok (order : Nat) (knotX : List ℚ) (K : List (List Int))
    (inverse : List (List Dbl) → List (List Dbl)) (s : Spline)
    (h : Spline.construct order knotX K inverse = .ok s) :
    order % 2 = 1 ∧ 3 ≤ order ∧ order ≤ 15 ∧ 2 * order ≤ knotX.length ∧ knotX.length ≤ 100 ∧
    ∃ (coll : List ℚ) (rows : List (List Dbl)) (s1 : Spline) (beta : List (List Dbl)),
      tabulate (Spline.collocationPoint knotX) (order - 1)
        (knotX.length - order - (order - 1)) = .ok coll ∧
      coll.length = knotX.length - 2 * order + 1 ∧
      tabulateS (fun st alpha => tabulateS (fun st1 i => st1.B_alpha st1.order i alpha) st 0
          (coll.length + order - 1))
        { order := order, knotX := knotX, numKnots := knotX.length, collocationX := coll,
          N := coll.length, B_matrix := [], K_matrix := K, beta_matrix := [],
          B_tilde_matrix := [], C_tilde_matrix := [], xMin := knotX.getD (order - 1) 0,
          xMax := knotX.getD (knotX.length - order) 0,
          B_k_i_alpha := Spline.allocCache order coll.length } 0 coll.length = .ok (rows, s1) ∧
      tabulate (Spline.betaRow { s1 with B_matrix := rows }) 0 (order - 1) = .ok beta ∧
      s = { s1 with B_matrix := rows, beta_matrix := beta, B_tilde_matrix := rows ++ beta,
                    C_tilde_matrix := inverse (rows ++ beta) } := by
  unfold Spline.construct at h
  split_ifs at h with h1 h2 h3
  simp only [Spline.MIN_ORDER, Spline.MAX_ORDER, Spline.MAX_NUMBER_KNOTS] at h2 h3
  dsimp only at h
  rw [vecGet_getD knotX (order - 1) (by omega),
    vecGet_getD knotX (knotX.length - order) (by omega)] at h
  simp only [bind_ok_iff, Except.ok.injEq, exists_eq_left'] at h
  obtain ⟨coll, hcoll, h⟩ := h
  split_ifs at h with h4
  simp only [bind_ok_iff] at h
  obtain ⟨⟨rows, s1⟩, hrows, beta, hbeta, h⟩ := h
  simp only [pure, Except.pure, Except.ok.injEq] at h
  exact ⟨h1, h2.1, h2.2, h3.1, h3.2, coll, rows, s1, beta, hcoll, h4, hrows, hbeta, h.symm⟩

/-- The fill of `B_matrix` changes nothing but the table. -/
theorem fill_sameData (s0 s1 : Spline) (n m : Nat) (rows : List (List Dbl))
    (h : tabulateS (fun st alpha => tabulateS (fun st1 i => st1.B_alpha st1.order i alpha) st 0
      m) s0 0 n = .ok (rows, s1)) : s0.SameData s1 :=
  (tabulateS_invariant _ (fun st => s0.SameData st) (fun _ _ => True) _ 0 _ rows s1
    (fun st j a st1 hP _ _ hf => by
      refine ⟨?_, trivial⟩
      have := (tabulateS_invariant _ (fun st' => Spline.SameData st st') (fun _ _ => True) _ 0
        st a st1 (fun st' j' a' st1' hP' _ _ hf' =>
          ⟨hP'.trans (B_alpha_sameData _ _ _ _ _ _ hf'), trivial⟩)
        (Spline.SameData.refl _) hf).1
      exact hP.trans this)
    (Spline.SameData.refl _) h).1

/-- What the constructor leaves in the fields other than the matrices, for every input it
accepts. -/
theorem construct_fields (order : Nat) (knotX : List ℚ) (K : List (List Int))
    (inverse : List (List Dbl) → List (List Dbl)) (s : Spline)
    (h : Spline.construct order knotX K inverse = .ok s) :
    order % 2 = 1 ∧ 3 ≤ order ∧ order ≤ 15 ∧ 2 * order ≤ knotX.length ∧ knotX.length ≤ 100 ∧
    s.order = order ∧ s.knotX = knotX ∧ s.numKnots = knotX.length ∧ s.K_matrix = K ∧
    s.xMin = knotX.getD (order - 1) 0 ∧ s.xMax = knotX.getD (knotX.length - order) 0 ∧
    s.N = knotX.length - 2 * order + 1 ∧ s.collocationX.length = s.N ∧
    tabulate (Spline.collocationPoint knotX) (order - 1) (knotX.length - order - (order - 1))
      = .ok s.collocationX := by
  obtain ⟨h1, h2, h3, h4, h5, coll, rows, s1, beta, hcoll, hlen, hrows, hbeta, rfl⟩ :=
    construct_ok order knotX K inverse s h
  obtain ⟨c, rfl⟩ := fill_sameData _ _ _ _ _ hrows
  exact ⟨h1, h2, h3, h4, h5, rfl, rfl, rfl, rfl, rfl, rfl, hlen, rfl, hcoll⟩


/-! ## Arithmetic of finite doubles -/

@[simp] theorem Dbl.fin_add (a b : ℚ) : Dbl.fin a + Dbl.fin b = Dbl.fin (a + b) := rfl

@[simp] theorem Dbl.fin_sub (a b : ℚ) : Dbl.fin a - Dbl.fin b = Dbl.fin (a - b) := by
  show Dbl.add (Dbl.fin a) (Dbl.neg (Dbl.fin b)) = _
  simp [Dbl.add, Dbl.neg, sub_eq_add_neg]

@[simp] theorem Dbl.fin_mul (a b : ℚ) : Dbl.fin a * Dbl.fin b = Dbl.fin (a * b) := rfl

theorem Dbl.fin_div (a b : ℚ) (h : b ≠ 0) : Dbl.fin a / Dbl.fin b = Dbl.fin (a / b) := by
  show Dbl.div (Dbl.fin a) (Dbl.fin b) = _
  simp [Dbl.div, h]

/-! ## Knots -/

theorem Spline.knot_eq (s : Spline) (j : Nat) (h : j < s.knotX.length) :
    s.knot j = .ok (s.t j) := vecGet_getD s.knotX j h

theorem Spline.front_eq (s : Spline) (h : 0 < s.knotX.length) : s.front = .ok (s.t 0) :=
  vecGet_getD s.knotX 0 h

theorem Spline.back_eq (s : Spline) (h : 0 < s.knotX.length) :
    s.back = .ok (s.t (s.knotX.length - 1)) := vecGet_getD s.knotX _ (by omega)

theorem Spline.StrictKnots.lt {s : Spline} (h : s.StrictKnots) :
    ∀ (j i : Nat), i < j → j < s.knotX.length → s.t i < s.t j := by
  intro j
  induction j with
  | zero => intro i hi; omega
  | succ j ih =>
    intro i hi hj
    rcases Nat.lt_succ_iff_lt_or_eq.1 hi with h1 | h1
    · exact lt_trans (ih i h1 (by omega)) (h j hj)
    · subst h1; exact h i hj

theorem Spline.StrictKnots.le_of_le {s : Spline} (h : s.StrictKnots) (i j : Nat) (hij : i ≤ j)
    (hj : j < s.knotX.length) : s.t i ≤ s.t j := by
  rcases Nat.lt_or_eq_of_le hij with h1 | h1
  · exact le_of_lt (h.lt j i h1 hj)
  · subst h1; exact le_refl _

/-! ## The basis function at a real `x` -/

theorem B_unfold (s : Spline) (k i : Nat) (x : ℚ) :
    Spline.B s k i x =
      (if ¬ (1 ≤ k ∧ k ≤ s.order) then .error .assertion
      else if ¬ (i < s.numKnots - k) then .error .assertion
      else do
        let lo ← s.front
        let hi ← s.back
        if ¬ (lo ≤ x ∧ x ≤ hi) then .error .assertion
        else do
          let ti ← s.knot i
          let tik ← s.knot (i + k)
          if x < ti ∨ x > tik then pure (Dbl.fin 0)
          else
            match k with
            | k' + 2 => do
              let b1 ← Spline.B s (k' + 1) i x
              let tk1 ← s.knot (k' + 2 + i - 1)
              let firstTerm := b1 * ((Dbl.fin x - Dbl.fin ti) / (Dbl.fin tk1 - Dbl.fin ti))
              let b2 ← Spline.B s (k' + 1) (i + 1) x
              let ti1 ← s.knot (i + 1)
              let secondTerm :=
                b2 * ((Dbl.fin tik - Dbl.fin x) / (Dbl.fin tik - Dbl.fin ti1))
              pure (firstTerm + secondTerm)
            | _ => do
              let ti1 ← s.knot (i + 1)
              pure (if ti ≤ x ∧ x < ti1 then Dbl.fin 1 else Dbl.fin 0)) := by
  rcases k with _ | _ | k <;> rfl

/-- On strictly increasing knots and arguments that pass its assertions, `B(k,i,x)` returns
the finite value `Bq`. -/
theorem B_eq_Bq (s : Spline) (hn : s.numKnots = s.knotX.length) (hs : s.StrictKnots) (x : ℚ)
    (hlo : s.t 0 ≤ x) (hhi : x ≤ s.t (s.knotX.length - 1)) (k : Nat) :
    ∀ (i : Nat), 1 ≤ k → k ≤ s.order → i < s.numKnots - k →
      Spline.B s k i x = .ok (Dbl.fin (Bq s.t k i x)) := by
  induction k using Nat.strong_induction_on with
  | _ k ih =>
    intro i hk1 hk2 hi
    have hpos : 0 < s.knotX.length := by omega
    rcases k with _ | _ | k
    · omega
    · rw [B_unfold, s.front_eq hpos, s.back_eq hpos, s.knot_eq i (by omega),
        s.knot_eq (i + 1) (by omega)]
      simp only [hk1, hk2, hi, hlo, hhi, and_self, not_true_eq_false, if_false, bind,
        Except.bind]
      simp only [Bq, pure, Except.pure, Nat.zero_add]
      split_ifs <;> rfl
    · rw [B_unfold, s.front_eq hpos, s.back_eq hpos, s.knot_eq i (by omega),
        s.knot_eq (i + (k + 2)) (by omega)]
      simp only [hk1, hk2, hi, hlo, hhi, and_self, not_true_eq_false, if_false, bind,
        Except.bind]
      by_cases hout : x < s.t i ∨ x > s.t (i + (k + 2))
      · simp only [hout, if_true, Bq, pure, Except.pure]
      · rw [ih (k + 1) (by omega) i (by omega) (by omega) (by omega),
          ih (k + 1) (by omega) (i + 1) (by omega) (by omega) (by omega),
          s.knot_eq (k + 2 + i - 1) (by omega), s.knot_eq (i + 1) (by omega)]
        have d1 : s.t (k + 2 + i - 1) - s.t i ≠ 0 :=
          sub_ne_zero.2 (ne_of_gt (hs.lt _ _ (by omega) (by omega)))
        have d2 : s.t (i + (k + 2)) - s.t (i + 1) ≠ 0 :=
          sub_ne_zero.2 (ne_of_gt (hs.lt _ _ (by omega) (by omega)))
        simp only [hout, if_false, Bq, pure, Except.pure, Dbl.fin_sub, Dbl.fin_div _ _ d1,
          Dbl.fin_div _ _ d2, Dbl.fin_mul, Dbl.fin_add]


/-! ## The basis functions as rational functions: support, blend, partition of unity -/

theorem Bq_zero_left (t : Nat → ℚ) (k i : Nat) (x : ℚ) (hx : x < t i) : Bq t k i x = 0 := by
  rcases k with _ | _ | k
  · rfl
  · simp [Bq, hx]
  · simp [Bq, hx]

theorem Bq_zero_right (t : Nat → ℚ) (n : Nat) (hmono : ∀ i j, i < j → j < n → t i < t j)
    (x : ℚ) (k : Nat) : ∀ (i : Nat), i + k < n → t (i + k) ≤ x → Bq t k i x = 0 := by
  induction k using Nat.strong_induction_on with
  | _ k ih =>
    intro i hik hx
    rcases k with _ | _ | k
    · rfl
    · simp only [Bq]
      split_ifs with h1 h2
      · rfl
      · exact absurd hx (not_le.2 h2.2)
      · rfl
    · simp only [Bq]
      split_ifs with h1
      · rfl
      · have hxe : x = t (i + (k + 2)) := le_antisymm (not_lt.1 (fun h => h1 (Or.inr h))) hx
        have h0 : Bq t (k + 1) i x = 0 :=
          ih (k + 1) (by omega) i (by omega)
            (le_trans (le_of_lt (hmono _ _ (by omega) hik)) hx)
        rw [h0, ← hxe]
        simp

/-- The blend equation of the Cox-de Boor recursion holds at every `x`, also where the
evaluator returns `0` early. -/
theorem Bq_blend (t : Nat → ℚ) (n : Nat) (hmono : ∀ i j, i < j → j < n → t i < t j)
    (k i : Nat) (x : ℚ) (hik : i + (k + 2) < n) :
    Bq t (k + 2) i x =
      Bq t (k + 1) i x * ((x - t i) / (t (k + 2 + i - 1) - t i))
      + Bq t (k + 1) (i + 1) x * ((t (i + (k + 2)) - x) / (t (i + (k + 2)) - t (i + 1))) := by
  by_cases hout : x < t i ∨ x > t (i + (k + 2))
  · have e : Bq t (k + 2) i x = 0 := by simp [Bq, hout]
    rw [e]
    rcases hout with h | h
    · rw [Bq_zero_left t (k + 1) i x h,
        Bq_zero_left t (k + 1) (i + 1) x (lt_trans h (hmono _ _ (by omega) (by omega)))]
      simp
    · rw [Bq_zero_right t n hmono x (k + 1) i (by omega)
          (le_of_lt (lt_trans (hmono _ _ (by omega) hik) h)),
        Bq_zero_right t n hmono x (k + 1) (i + 1) (by omega) (by
          have e2 : i + 1 + (k + 1) = i + (k + 2) := by omega
          rw [e2]; exact le_of_lt h)]
      simp
  · simp [Bq, hout]

/-- The order-1 basis functions are the indicators of the knot intervals. -/
theorem Bq_one (t : Nat → ℚ) (i : Nat) (x : ℚ) :
    Bq t 1 i x = if t i ≤ x ∧ x < t (i + 1) then 1 else 0 := by
  simp only [Bq]
  split_ifs with h1 h2 h3 <;> first | rfl | skip
  · rcases h1 with h | h
    · exact absurd h2.1 (not_le.2 h)
    · exact absurd h2.2 (not_lt.2 (le_of_lt h))

theorem Bq_one_sum (t : Nat → ℚ) (x : ℚ) (h0 : t 0 ≤ x) (m : Nat) :
    (∀ j, j < m → t j ≤ t (j + 1)) →
    ∑ i in Finset.range m, Bq t 1 i x = if x < t m then 1 else 0 := by
  induction m with
  | zero => intro _; simp [not_lt.2 h0]
  | succ m ih =>
    intro hm
    rw [Finset.sum_range_succ, ih (fun j hj => hm j (by omega)), Bq_one]
    have hmm := hm m (by omega)
    by_cases h1 : x < t m
    · have h2 : x < t (m + 1) := lt_of_lt_of_le h1 hmm
      simp [h1, h2, not_le.2 h1]
    · by_cases h2 : x < t (m + 1)
      · simp [h1, h2, not_lt.1 h1]
      · simp [h1, h2]

/-- Partition of unity: the order-`k` basis functions sum to `1` on `[t (k-1), t (n-k))`. -/
theorem Bq_partition (t : Nat → ℚ) (n : Nat) (hmono : ∀ i j, i < j → j < n → t i < t j)
    (x : ℚ) (k : Nat) : 1 ≤ k → k < n → t (k - 1) ≤ x → x < t (n - k) →
    ∑ i in Finset.range (n - k), Bq t k i x = 1 := by
  induction k with
  | zero => intro h; omega
  | succ k ih =>
    intro _ hkn hlo hhi
    rcases k with _ | k
    · rw [Bq_one_sum t x hlo (n - 1) (fun j hj => le_of_lt (hmono _ _ (by omega) (by omega)))]
      simp at hhi ⊢
      exact hhi
    · have hlo' : t (k + 1) ≤ x := hlo
      have hkk : k + 1 < n - (k + 2) := by
        by_contra hc
        have : t (n - (k + 2)) ≤ t (k + 1) := by
          rcases Nat.lt_or_eq_of_le (not_lt.1 hc) with h | h
          · exact le_of_lt (hmono _ _ h (by omega))
          · rw [h]
        exact absurd (lt_of_lt_of_le hhi this) (not_lt.2 hlo')
      have IH := ih (by omega) (by omega)
        (le_trans (le_of_lt (hmono k (k + 1) (by omega) (by omega))) hlo')
        (lt_trans hhi (hmono _ _ (by omega) (by omega)))
      have e1 : n - (k + 1) = (n - (k + 2)) + 1 := by omega
      rw [e1, Finset.sum_range_succ'] at IH
      have f0 : Bq t (k + 1) 0 x = 0 :=
        Bq_zero_right t n hmono x (k + 1) 0 (by omega) (by simpa using hlo')
      have fm : Bq t (k + 1) (n - (k + 2)) x = 0 := Bq_zero_left t _ _ x hhi
      rw [f0, add_zero] at IH
      have hsum : ∀ i ∈ Finset.range (n - (k + 2)), Bq t (k + 2) i x =
          (Bq t (k + 1) i x * ((x - t i) / (t (i + (k + 1)) - t i))
            - Bq t (k + 1) (i + 1) x * ((x - t (i + 1)) / (t (i + 1 + (k + 1)) - t (i + 1))))
          + Bq t (k + 1) (i + 1) x := by
        intro i hi
        rw [Finset.mem_range] at hi
        rw [Bq_blend t n hmono k i x (by omega)]
        have e2 : k + 2 + i - 1 = i + (k + 1) := by omega
        have e3 : i + 1 + (k + 1) = i + (k + 2) := by omega
        rw [e2, e3]
        have d2 : t (i + (k + 2)) - t (i + 1) ≠ 0 :=
          sub_ne_zero.2 (ne_of_gt (hmono _ _ (by omega) (by omega)))
        field_simp
        ring
      rw [Finset.sum_congr rfl hsum, Finset.sum_add_distrib, IH,
        Finset.sum_range_sub' (fun i => Bq t (k + 1) i x * ((x - t i) / (t (i + (k + 1)) - t i)))]
      rw [f0, fm]
      simp


/-! ## The example engines -/

theorem demoEngine_constructed :
    Spline.construct 3 demoKnots demoK demoInverse = .ok demoEngine := by decide!

theorem clampedEngine_constructed :
    Spline.construct 3 clampedKnots demoK demoInverse = .ok clampedEngine := by decide!

theorem demoEngine_knotX : demoEngine.knotX = demoKnots := by decide!

theorem clampedEngine_knotX : clampedEngine.knotX = clampedKnots := by decide!

theorem demoEngine_strict : demoEngine.StrictKnots := by
  intro j hj
  have h8 : demoEngine.knotX.length = 8 := by rw [demoEngine_knotX]; rfl
  rw [h8] at hj
  have hj' : j < 7 := by omega
  unfold Spline.t
  rw [demoEngine_knotX]
  clear hj h8
  interval_cases j <;> decide!

theorem clampedEngine_nondecreasing : clampedEngine.NondecreasingKnots := by
  intro j hj
  have h8 : clampedEngine.knotX.length = 8 := by rw [clampedEngine_knotX]; rfl
  rw [h8] at hj
  have hj' : j < 7 := by omega
  unfold Spline.t
  rw [clampedEngine_knotX]
  clear hj h8
  interval_cases j <;> decide!


/-! ## Claims C3, C4 and C5: the Cox-de Boor recursion, local support, partition of unity -/

theorem Spline.StrictKnots.mono {s : Spline} (h : s.StrictKnots) :
    ∀ i j, i < j → j < s.knotX.length → s.t i < s.t j := fun i j hij hj => h.lt j i hij hj

/-- Claim C3, amended to strictly increasing knots and exact arithmetic.  In exact
arithmetic, for every `k` in `1 .. order`, every `i < numKnots - k` and every `x` in the knot
span, `B(1,i,x)` is the step function of `[knot[i], knot[i+1])` and, for `k ≥ 2`, `B(k,i,x)`
is the blend of `B(k-1,i,x)` and `B(k-1,i+1,x)`; the blend equation also holds where the
evaluator returns `0` early. -/
theorem C3_cox_de_boor (s : Spline) (hn : s.numKnots = s.knotX.length) (hs : s.StrictKnots)
    (k i : Nat) (x : ℚ) (hk1 : 1 ≤ k) (hk2 : k ≤ s.order) (hi : i < s.numKnots - k)
    (hlo : s.t 0 ≤ x) (hhi : x ≤ s.t (s.knotX.length - 1)) : s.CoxDeBoor k i x := by
  constructor
  · intro h1
    subst h1
    rw [B_eq_Bq s hn hs x hlo hhi 1 i (le_refl _) hk2 hi, Bq_one]
    split_ifs <;> rfl
  · intro h2
    obtain ⟨k, rfl⟩ : ∃ k', k = k' + 2 := ⟨k - 2, by omega⟩
    refine ⟨_, _, _, B_eq_Bq s hn hs x hlo hhi (k + 2) i hk1 hk2 hi,
      B_eq_Bq s hn hs x hlo hhi (k + 1) i (by omega) (by omega) (by omega),
      B_eq_Bq s hn hs x hlo hhi (k + 1) (i + 1) (by omega) (by omega) (by omega), ?_⟩
    have d1 : s.t (k + 2 + i - 1) - s.t i ≠ 0 :=
      sub_ne_zero.2 (ne_of_gt (hs.lt _ _ (by omega) (by omega)))
    have d2 : s.t (k + 2 + i) - s.t (i + 1) ≠ 0 :=
      sub_ne_zero.2 (ne_of_gt (hs.lt _ _ (by omega) (by omega)))
    rw [Bq_blend s.t s.knotX.length hs.mono k i x (by omega)]
    have e : i + (k + 2) = k + 2 + i := by omega
    simp only [Dbl.fin_sub, Dbl.fin_div _ _ d1, Dbl.fin_div _ _ d2, Dbl.fin_mul, Dbl.fin_add,
      e]
    congr 1
    ring

/-- Witness of C3 on the engine of `main.cpp`, where the evaluator returns `0` early: at
`x = 5/2`, right of the support `[0, 2]` of `B(2,0,·)`, the blend equation of `B(2,0,·)`
holds; both of its terms are `0`. -/
theorem C3_cox_de_boor_witness :
    demoEngine.t (0 + 2) < 5 / 2 ∧ demoEngine.B 2 0 (5 / 2) = .ok (Dbl.fin 0) ∧
    demoEngine.CoxDeBoor 2 0 (5 / 2) :=
  ⟨by decide!, by decide!,
    C3_cox_de_boor demoEngine (by decide!) demoEngine_strict 2 0 (5 / 2) (by decide)
      (by decide!) (by decide!) (by decide!) (by decide!)⟩

/-- Claim C3 as stated fails on nondecreasing knots.  On the knots `0,0,1,2,3,4,5,6`,
`B(2,0,5/2)` returns `0` early, while the blend divides by `knot[1] - knot[0] = 0` and is
`NaN`. -/
theorem C3_counterexample :
    clampedEngine.NondecreasingKnots ∧ 2 ≤ clampedEngine.order ∧
    0 < clampedEngine.numKnots - 2 ∧ clampedEngine.t 0 ≤ 5 / 2 ∧
    5 / 2 ≤ clampedEngine.t (clampedEngine.knotX.length - 1) ∧
    ¬ clampedEngine.CoxDeBoor 2 0 (5 / 2) := by
  refine ⟨clampedEngine_nondecreasing, by decide!, by decide!, by decide!, by decide!, ?_⟩
  rintro ⟨-, h⟩
  obtain ⟨b, b1, b2, hb, hb1, hb2, he⟩ := h (le_refl _)
  have e0 : clampedEngine.B 2 0 (5 / 2) = .ok (Dbl.fin 0) := by decide!
  have e1 : clampedEngine.B (2 - 1) 0 (5 / 2) = .ok (Dbl.fin 0) := by decide!
  have e2 : clampedEngine.B (2 - 1) (0 + 1) (5 / 2) = .ok (Dbl.fin 0) := by decide!
  rw [e0] at hb
  rw [e1] at hb1
  rw [e2] at hb2
  cases hb
  cases hb1
  cases hb2
  revert he
  decide!

/-- Claim C4, amended to exact arithmetic and, in its second part, to strictly increasing
knots.  In exact arithmetic, for valid `k`, `i` and `x` in the knot span, `B(k,i,x)` is `0`
whenever `x < knot[i]` or `x > knot[i+k]`, on any knots; on strictly increasing knots
`B(k,i,x)` is a finite value that is nonzero only when `knot[i] ≤ x < knot[i+k]`, so it is
`0` at `x = knot[i+k]` too. -/
theorem C4_local_support (s : Spline) (hn : s.numKnots = s.knotX.length)
    (k i : Nat) (x : ℚ) (hk1 : 1 ≤ k) (hk2 : k ≤ s.order) (hi : i < s.numKnots - k)
    (hlo : s.t 0 ≤ x) (hhi : x ≤ s.t (s.knotX.length - 1)) :
    ((x < s.t i ∨ x > s.t (i + k)) → s.B k i x = .ok (Dbl.fin 0)) ∧
    (s.StrictKnots → ∃ v, s.B k i x = .ok (Dbl.fin v) ∧
      (v ≠ 0 → s.t i ≤ x ∧ x < s.t (i + k)) ∧ (x = s.t (i + k) → v = 0)) := by
  have hpos : 0 < s.knotX.length := by omega
  constructor
  · intro hout
    rcases k with _ | _ | k
    · omega
    · rw [B_unfold, s.front_eq hpos, s.back_eq hpos, s.knot_eq i (by omega),
        s.knot_eq (i + 1) (by omega)]
      simp only [hk1, hk2, hi, hlo, hhi, and_self, not_true_eq_false, if_false, bind,
        Except.bind, hout, if_true, pure, Except.pure]
    · rw [B_unfold, s.front_eq hpos, s.back_eq hpos, s.knot_eq i (by omega),
        s.knot_eq (i + (k + 2)) (by omega)]
      simp only [hk1, hk2, hi, hlo, hhi, and_self, not_true_eq_false, if_false, bind,
        Except.bind, hout, if_true, pure, Except.pure]
  · intro hs
    refine ⟨_, B_eq_Bq s hn hs x hlo hhi k i hk1 hk2 hi, ?_, ?_⟩
    · intro hv
      constructor
      · by_contra hc
        exact hv (Bq_zero_left s.t k i x (not_le.1 hc))
      · by_contra hc
        exact hv (Bq_zero_right s.t s.knotX.length hs.mono x k i (by omega) (not_lt.1 hc))
    · intro hx
      exact Bq_zero_right s.t s.knotX.length hs.mono x k i (by omega) (le_of_eq hx.symm)

/-- Witness of C4: `B(3,1,·)` on the engine of `main.cpp` at the right end `x = 4` of its
support. -/
theorem C4_local_support_witness :
    ((4 : ℚ) < demoEngine.t 1 ∨ (4 : ℚ) > demoEngine.t (1 + 3) →
      demoEngine.B 3 1 4 = .ok (Dbl.fin 0)) ∧
    (demoEngine.StrictKnots → ∃ v, demoEngine.B 3 1 4 = .ok (Dbl.fin v) ∧
      (v ≠ 0 → demoEngine.t 1 ≤ 4 ∧ (4 : ℚ) < demoEngine.t (1 + 3)) ∧
      ((4 : ℚ) = demoEngine.t (1 + 3) → v = 0)) :=
  C4_local_support demoEngine (by decide!) 3 1 4 (by decide) (by decide!) (by decide!)
    (by decide!) (by decide!)

/-- Claim C4 as stated fails on nondecreasing knots.  On the knots `0,0,1,2,3,4,5,6`, at
the right end `x = knot[2] = 1` of the support of `B(2,0)`, the evaluator divides by
`knot[1] - knot[0] = 0` and returns `NaN`, not `0`. -/
theorem C4_counterexample :
    clampedEngine.NondecreasingKnots ∧ 2 ≤ clampedEngine.order ∧
    0 < clampedEngine.numKnots - 2 ∧ clampedEngine.t 0 ≤ 1 ∧
    1 ≤ clampedEngine.t (clampedEngine.knotX.length - 1) ∧
    (1 : ℚ) = clampedEngine.t (0 + 2) ∧
    clampedEngine.B 2 0 1 = .ok Dbl.nan ∧ clampedEngine.B 2 0 1 ≠ .ok (Dbl.fin 0) :=
  ⟨clampedEngine_nondecreasing, by decide!⟩


/-- A summation loop over finite values returns their sum. -/
theorem sumLoop_fin (f : Nat → Except Violation Dbl) (g : Nat → ℚ) (n : Nat) :
    ∀ (i : Nat) (a : ℚ), (∀ j, j < n → f (i + j) = .ok (Dbl.fin (g (i + j)))) →
      sumLoop f i n (Dbl.fin a) = .ok (Dbl.fin (a + ∑ j in Finset.range n, g (i + j))) := by
  induction n with
  | zero => intro i a _; simp [sumLoop]
  | succ n ih =>
    intro i a h
    have h0 := h 0 (by omega)
    simp only [Nat.add_zero] at h0
    rw [sumLoop, h0]
    simp only [bind, Except.bind, Dbl.fin_add]
    rw [ih (i + 1) (a + g i) (fun j hj => by
      have := h (j + 1) (by omega)
      have e : i + (j + 1) = i + 1 + j := by omega
      rwa [e] at this)]
    rw [Finset.sum_range_succ']
    have e : ∀ j, i + 1 + j = i + (j + 1) := fun j => by omega
    simp only [e, Nat.add_zero]
    congr 2
    ring

/-- On strictly increasing knots the order-`k` basis functions sum to `1` at every `x`
with `knot[k-1] ≤ x < knot[numKnots-k]`. -/
theorem basisSum_eq_one (s : Spline) (hn : s.numKnots = s.knotX.length)
    (h2 : 2 * s.order ≤ s.numKnots) (hs : s.StrictKnots) (k : Nat) (x : ℚ)
    (hk1 : 1 ≤ k) (hk2 : k ≤ s.order) (hlo : s.t (k - 1) ≤ x)
    (hhi : x < s.t (s.numKnots - k)) : s.basisSum k x = .ok (Dbl.fin 1) := by
  have h0 : s.t 0 ≤ x := le_trans (hs.le_of_le 0 (k - 1) (by omega) (by omega)) hlo
  have h1 : x ≤ s.t (s.knotX.length - 1) :=
    le_trans (le_of_lt hhi) (hs.le_of_le _ _ (by omega) (by omega))
  unfold Spline.basisSum
  rw [sumLoop_fin _ (fun i => Bq s.t k i x) _ 0 0 (fun j hj => by
    rw [Nat.zero_add]
    exact B_eq_Bq s hn hs x h0 h1 k j hk1 hk2 hj)]
  simp only [Nat.zero_add, zero_add]
  rw [hn, Bq_partition s.t s.knotX.length hs.mono x k hk1 (by omega) hlo (by rwa [hn] at hhi)]

/-- Claim C5, amended.  On strictly increasing knots, for every `k` in `1 .. order` and
every `x` strictly inside the sub-span `knot[k-1] < x < knot[numKnots-k]` (the whole open
knot span when `k = 1`), the sum over all valid `i` of `B(k,i,x)` is `1`. -/
theorem C5_partition_of_unity_inner (s : Spline) (hn : s.numKnots = s.knotX.length)
    (h2 : 2 * s.order ≤ s.numKnots) (hs : s.StrictKnots) (k : Nat) (x : ℚ)
    (hk1 : 1 ≤ k) (hk2 : k ≤ s.order) (hlo : s.t (k - 1) < x)
    (hhi : x < s.t (s.numKnots - k)) : s.basisSum k x = .ok (Dbl.fin 1) :=
  basisSum_eq_one s hn h2 hs k x hk1 hk2 (le_of_lt hlo) hhi

/-- Witness of C5: the order-2 basis functions of the engine of `main.cpp` sum to `1` at
`x = 3/2`, strictly between `knot[1]` and `knot[6]`. -/
theorem C5_partition_of_unity_inner_witness : demoEngine.basisSum 2 (3 / 2) = .ok (Dbl.fin 1) :=
  C5_partition_of_unity_inner demoEngine (by decide!) (by decide!) demoEngine_strict 2 (3 / 2)
    (by decide) (by decide!) (by decide!) (by decide!)

/-- Claim C5 as stated fails.  On the engine of `main.cpp` (strictly increasing knots
`0, ..., 7`), at order level `k = 2` and `x = 1/2` strictly inside the knot span, the sum
over all valid `i` of `B(2,i,x)` is `1/2`. -/
theorem C5_counterexample :
    demoEngine.StrictKnots ∧ 2 ≤ demoEngine.order ∧ demoEngine.t 0 < 1 / 2 ∧
    1 / 2 < demoEngine.t (demoEngine.knotX.length - 1) ∧
    demoEngine.basisSum 2 (1 / 2) = .ok (Dbl.fin (1 / 2)) ∧
    demoEngine.basisSum 2 (1 / 2) ≠ .ok (Dbl.fin 1) :=
  ⟨demoEngine_strict, by decide!, by decide!, by decide!, by decide!, by decide!⟩


/-! ## Claim C2: the collocation points -/

theorem collocationPoint_ok_iff (knotX : List ℚ) (i : Nat) (h : i + 1 < knotX.length) (a : ℚ) :
    Spline.collocationPoint knotX i = .ok a ↔
      knotX.getD i 0 < knotX.getD (i + 1) 0 ∧ a = (knotX.getD i 0 + knotX.getD (i + 1) 0) / 2 := by
  by_cases hlt : knotX.getD i 0 < knotX.getD (i + 1) 0
  · rw [collocationPoint_ok knotX i h hlt]
    constructor
    · intro e; cases e; exact ⟨hlt, rfl⟩
    · rintro ⟨-, rfl⟩; rfl
  · rw [collocationPoint_assertion knotX i h (not_lt.1 hlt)]
    constructor
    · intro e; cases e
    · rintro ⟨h', -⟩; exact absurd h' hlt

/-- The collocation points of an accepted input are the midpoints of the consecutive
physical knots, which are strictly increasing. -/
theorem construct_collocation (order : Nat) (knotX : List ℚ) (K : List (List Int))
    (inverse : List (List Dbl) → List (List Dbl)) (s : Spline)
    (h : Spline.construct order knotX K inverse = .ok s) (j : Nat) (hj : j < s.N) :
    s.t (s.order - 1 + j) < s.t (s.order + j) ∧
    s.collocationX[j]? = some ((s.t (s.order - 1 + j) + s.t (s.order + j)) / 2) := by
  obtain ⟨-, h3, -, h4, -, ho, hk, -, -, -, -, hN, -, hcoll⟩ :=
    construct_fields order knotX K inverse s h
  obtain ⟨-, hget⟩ := (tabulate_ok_iff _ _ _ _).1 hcoll
  obtain ⟨a, ha, hp⟩ := hget j (by omega)
  rw [collocationPoint_ok_iff knotX _ (by omega)] at hp
  have e : order - 1 + j + 1 = order + j := by omega
  rw [e] at hp
  unfold Spline.t
  rw [ho, hk, ha, hp.2]
  exact ⟨hp.1, rfl⟩

/-- Claim C2.  For every input the constructor accepts, the number of collocation points
is `N = numKnots - 2 * order + 1 ≥ 1`, and the `j`-th collocation point, `j < N`, is the
midpoint `(knot[order-1+j] + knot[order+j]) / 2`. -/
theorem C2_collocation_points (order : Nat) (knotX : List ℚ) (K : List (List Int))
    (inverse : List (List Dbl) → List (List Dbl)) (s : Spline)
    (h : Spline.construct order knotX K inverse = .ok s) :
    s.N = s.numKnots - 2 * s.order + 1 ∧ 1 ≤ s.N ∧ s.collocationX.length = s.N ∧
    ∀ j, j < s.N →
      s.collocationX[j]? = some ((s.t (s.order - 1 + j) + s.t (s.order + j)) / 2) := by
  obtain ⟨-, -, -, -, -, ho, -, hnum, -, -, -, hN, hlen, -⟩ :=
    construct_fields order knotX K inverse s h
  refine ⟨by rw [hN, hnum, ho], by omega, hlen, fun j hj => ?_⟩
  exact (construct_collocation order knotX K inverse s h j hj).2

/-- Witness of C2: order 3 with knots `0, 1, ..., 7` gives `N = 3` and the collocation
points `5/2, 7/2, 9/2`. -/
theorem C2_collocation_points_witness :
    demoEngine.N = 3 ∧ demoEngine.collocationX = [5 / 2, 7 / 2, 9 / 2] ∧
    (demoEngine.N = demoEngine.numKnots - 2 * demoEngine.order + 1 ∧ 1 ≤ demoEngine.N ∧
      demoEngine.collocationX.length = demoEngine.N ∧
      ∀ j, j < demoEngine.N → demoEngine.collocationX[j]? =
        some ((demoEngine.t (demoEngine.order - 1 + j) + demoEngine.t (demoEngine.order + j))
          / 2)) :=
  ⟨by decide!, by decide!,
    C2_collocation_points 3 demoKnots demoK demoInverse demoEngine demoEngine_constructed⟩


/-! ## The memoization table -/

theorem cacheGet_ok_iff (tbl : List (List (List Dbl))) (k i a : Nat) (v : Dbl) :
    cacheGet tbl k i a = .ok v ↔
      ∃ ck cki, tbl[k]? = some ck ∧ ck[i]? = some cki ∧ cki[a]? = some v := by
  unfold cacheGet
  simp only [bind_ok_iff, vecGet_ok_iff]
  constructor
  · rintro ⟨ck, h1, cki, h2, h3⟩
    exact ⟨ck, cki, h1, h2, h3⟩
  · rintro ⟨ck, cki, h1, h2, h3⟩
    exact ⟨ck, h1, cki, h2, h3⟩

theorem cacheGet_cacheSet_same (tbl : List (List (List Dbl))) (k i a : Nat) (w v : Dbl)
    (h : cacheGet tbl k i a = .ok w) : cacheGet (cacheSet tbl k i a v) k i a = .ok v := by
  rw [cacheGet_ok_iff] at h ⊢
  obtain ⟨ck, cki, h1, h2, h3⟩ := h
  refine ⟨List.modify (fun cki => cki.set a v) i ck, cki.set a v, ?_, ?_, ?_⟩
  · simp [cacheSet, h1]
  · simp [h2]
  · rw [List.getElem?_set_self']
    simp [h3]

theorem cacheGet_cacheSet_ne (tbl : List (List (List Dbl))) (k i a k' i' a' : Nat) (v : Dbl)
    (h : ¬ (k' = k ∧ i' = i ∧ a' = a)) :
    cacheGet (cacheSet tbl k i a v) k' i' a' = cacheGet tbl k' i' a' := by
  unfold cacheGet cacheSet vecGet
  by_cases hk : k = k'
  swap
  · rw [List.getElem?_modify_ne _ _ hk]
  subst hk
  rw [List.getElem?_modify_eq]
  cases hck : tbl[k]? with
  | none => rfl
  | some ck =>
    simp only [Option.map_eq_map, Option.map_some', bind, Except.bind]
    by_cases hi : i = i'
    swap
    · rw [List.getElem?_modify_ne _ _ hi]
    subst hi
    rw [List.getElem?_modify_eq]
    cases hcki : ck[i]? with
    | none => rfl
    | some cki =>
      simp only [Option.map_eq_map, Option.map_some']
      have ha : a ≠ a' := fun e => h ⟨rfl, rfl, e.symm⟩
      rw [List.getElem?_set_ne ha]

theorem allocCache_get (order N k i a : Nat) (hk1 : 1 ≤ k) (hk2 : k ≤ order)
    (hi : i < N + 2 * order - k - 1) (ha : a < N) :
    cacheGet (Spline.allocCache order N) k i a = .ok Dbl.nan := by
  rw [cacheGet_ok_iff]
  obtain ⟨j, rfl⟩ : ∃ j, k = j + 1 := ⟨k - 1, by omega⟩
  refine ⟨List.replicate (N + 2 * order - (j + 1) - 1) (List.replicate N Dbl.nan),
    List.replicate N Dbl.nan, ?_, ?_, ?_⟩
  · simp only [Spline.allocCache, List.getElem?_cons_succ, List.getElem?_map]
    rw [List.getElem?_range (by omega)]
    rfl
  · rw [List.getElem?_replicate]
    simp [hi]
  · rw [List.getElem?_replicate]
    simp [ha]

theorem allocCache_nan (order N k i a : Nat) (v : Dbl)
    (h : cacheGet (Spline.allocCache order N) k i a = .ok v) : v = Dbl.nan := by
  rw [cacheGet_ok_iff] at h
  obtain ⟨ck, cki, h1, h2, h3⟩ := h
  rcases k with _ | j
  · simp only [Spline.allocCache, List.getElem?_cons_zero, Option.some.injEq] at h1
    subst h1
    simp at h2
  · simp only [Spline.allocCache, List.getElem?_cons_succ, List.getElem?_map] at h1
    cases hr : (List.range order)[j]? with
    | none => rw [hr] at h1; simp at h1
    | some j' =>
      rw [hr] at h1
      simp only [Option.map_some', Option.some.injEq] at h1
      subst h1
      rw [List.getElem?_replicate] at h2
      split_ifs at h2
      simp only [Option.some.injEq] at h2
      subst h2
      rw [List.getElem?_replicate] at h3
      split_ifs at h3
      simp only [Option.some.injEq] at h3
      exact h3.symm


/-! ## The memoized evaluator computes `Bm` and keeps the engine ready -/

theorem Spline.SameData.ready_fields {s s' : Spline} (h : s.SameData s') :
    s'.order = s.order ∧ s'.knotX = s.knotX ∧ s'.numKnots = s.numKnots ∧
    s'.collocationX = s.collocationX ∧ s'.N = s.N ∧ s'.t = s.t := by
  obtain ⟨tbl, rfl⟩ := h
  exact ⟨rfl, rfl, rfl, rfl, rfl, rfl⟩

/-- At order 1 the evaluator at a real `x` returns the step value, on any knots. -/
theorem B_one_eq_Bm (s : Spline) (hn : s.numKnots = s.knotX.length) (ho : 1 ≤ s.order)
    (i : Nat) (x : ℚ) (hi : i < s.numKnots - 1) (hlo : s.t 0 ≤ x)
    (hhi : x ≤ s.t (s.knotX.length - 1)) : s.B 1 i x = .ok (Bm s.t x 1 i) := by
  have hpos : 0 < s.knotX.length := by omega
  rw [B_unfold, s.front_eq hpos, s.back_eq hpos, s.knot_eq i (by omega),
    s.knot_eq (i + 1) (by omega)]
  simp only [ho, hi, hlo, hhi, le_refl, and_self, not_true_eq_false, if_false, bind,
    Except.bind, Bm, pure, Except.pure]
  split_ifs <;> rfl

theorem Spline.Ready.after_store {s : Spline} (h : s.Ready) (k i a : Nat) (x : ℚ)
    (hk1 : 1 ≤ k) (hk2 : k ≤ s.order) (hi : i < s.numKnots - k) (ha : a < s.N)
    (hx : s.collocationX[a]? = some x) : (s.store k i a (Bm s.t x k i)).Ready := by
  obtain ⟨w, hw⟩ := h.slot_exists k i a hk1 hk2 hi ha
  refine ⟨h.numKnots_eq, h.order_pos, h.size, h.coll_length, h.coll_span, ?_, ?_⟩
  · intro k' i' a' h1 h2 h3 h4
    by_cases e : k' = k ∧ i' = i ∧ a' = a
    · obtain ⟨rfl, rfl, rfl⟩ := e
      exact ⟨_, cacheGet_cacheSet_same _ _ _ _ w _ hw⟩
    · show ∃ v, cacheGet (cacheSet s.B_k_i_alpha k i a _) k' i' a' = .ok v
      rw [cacheGet_cacheSet_ne _ _ _ _ _ _ _ _ e]
      exact h.slot_exists k' i' a' h1 h2 h3 h4
  · intro k' i' a' v x' hget hnan hx'
    by_cases e : k' = k ∧ i' = i ∧ a' = a
    · obtain ⟨rfl, rfl, rfl⟩ := e
      have hget' : cacheGet (cacheSet s.B_k_i_alpha k' i' a' (Bm s.t x k' i')) k' i' a'
          = .ok v := hget
      rw [cacheGet_cacheSet_same _ _ _ _ w _ hw] at hget'
      have hxx : x' = x := by
        have hx'' : s.collocationX[a']? = some x' := hx'
        rw [hx] at hx''
        exact (Option.some.inj hx'').symm
      cases hget'
      rw [hxx]
      rfl
    · have hget' : cacheGet (cacheSet s.B_k_i_alpha k i a (Bm s.t x k i)) k' i' a'
          = .ok v := hget
      rw [cacheGet_cacheSet_ne _ _ _ _ _ _ _ _ e] at hget'
      exact h.slot_value k' i' a' v x' hget' hnan hx'

/-- A filled slot is returned as it is, and the engine is left unchanged. -/
theorem B_alpha_cached (s : Spline) (k i a : Nat) (slot : Dbl) (hk1 : 1 ≤ k)
    (hk2 : k ≤ s.order) (hi : i < s.numKnots - k) (ha : a < s.N)
    (hslot : cacheGet s.B_k_i_alpha k i a = .ok slot) (hnan : slot.isNaN = false) :
    s.B_alpha k i a = .ok (slot, s) := by
  rcases k with _ | _ | k
  · omega
  · rw [B_alpha_unfold, hslot]
    simp only [hk1, hk2, hi, ha, and_self, not_true_eq_false, if_false, bind, Except.bind,
      hnan, pure, Except.pure, not_false_eq_true, if_true, Bool.false_eq_true]
  · rw [B_alpha_unfold, hslot]
    simp only [hk1, hk2, hi, ha, and_self, not_true_eq_false, if_false, bind, Except.bind,
      hnan, pure, Except.pure, not_false_eq_true, if_true, Bool.false_eq_true]

/-- On a ready engine and valid arguments the memoized evaluator returns the value `Bm`
of its key, whether the slot was filled before or is filled by the call, and leaves a
ready engine that differs at most in the table. -/
theorem B_alpha_correct (k : Nat) : ∀ (s : Spline) (i a : Nat) (x : ℚ), s.Ready →
    1 ≤ k → k ≤ s.order → i < s.numKnots - k → a < s.N → s.collocationX[a]? = some x →
    ∃ s', s.B_alpha k i a = .ok (Bm s.t x k i, s') ∧ s'.Ready ∧ s.SameData s' := by
  induction k using Nat.strong_induction_on with
  | _ k ih =>
    intro s i a x h hk1 hk2 hi ha hx
    obtain ⟨slot, hslot⟩ := h.slot_exists k i a hk1 hk2 hi ha
    have hxv : vecGet s.collocationX a = .ok x := (vecGet_ok_iff _ _ _).2 hx
    have hspan := h.coll_span a x hx
    by_cases hnan : slot.isNaN = true
    swap
    · have hnan' : slot.isNaN = false := by simpa using hnan
      have hv := h.slot_value k i a slot x hslot hnan' hx
      refine ⟨s, ?_, h, Spline.SameData.refl s⟩
      rw [B_alpha_cached s k i a slot hk1 hk2 hi ha hslot hnan', hv]
    rcases k with _ | _ | k
    · omega
    · refine ⟨s.store 1 i a (Bm s.t x 1 i), ?_, h.after_store 1 i a x hk1 hk2 hi ha hx,
        Spline.SameData.of_store _ _ _ _ _⟩
      rw [B_alpha_unfold, hslot, hxv]
      simp only [hk1, hk2, hi, ha, and_self, not_true_eq_false, if_false, bind, Except.bind,
        hnan, pure, Except.pure]
      rw [B_one_eq_Bm s h.numKnots_eq h.order_pos i x hi hspan.1 hspan.2]
    · obtain ⟨s1, e1, r1, d1⟩ := ih (k + 1) (by omega) s i a x h (by omega) (by omega)
        (by omega) ha hx
      obtain ⟨o1, k1, n1, c1, N1, t1⟩ := d1.ready_fields
      obtain ⟨s2, e2, r2, d2⟩ := ih (k + 1) (by omega) s1 (i + 1) a x r1 (by omega)
        (by omega) (by omega) (by omega) (by rw [c1]; exact hx)
      obtain ⟨o2, k2, n2, c2, N2, t2⟩ := d2.ready_fields
      have hlen : s2.knotX.length = s.knotX.length := by rw [k2, k1]
      have hnk := h.numKnots_eq
      have ts : s2.t = s.t := by rw [t2, t1]
      have hr := r2.after_store (k + 2) i a x (by omega) (by omega) (by omega) (by omega)
        (by rw [c2, c1]; exact hx)
      refine ⟨s2.store (k + 2) i a (Bm s.t x (k + 2) i), ?_, ?_,
        (d1.trans d2).trans (Spline.SameData.of_store _ _ _ _ _)⟩
      · rw [B_alpha_unfold, hslot, hxv]
        simp only [hk1, hk2, hi, ha, and_self, not_true_eq_false, if_false, bind,
          Except.bind, hnan, pure, Except.pure]
        rw [e1]
        simp only []
        rw [e2]
        simp only []
        rw [s2.knot_eq i (by omega), s2.knot_eq (k + 2 + i - 1) (by omega),
          s2.knot_eq (k + 2 + i) (by omega), s2.knot_eq (i + 1) (by omega)]
        simp only [ts, t1, Bm]
      · rw [ts] at hr
        exact hr


/-- On strictly increasing knots the memoized value `Bm` is the finite value `Bq` of the
evaluator at a real `x`. -/
theorem Bm_eq_Bq (t : Nat → ℚ) (n : Nat) (hmono : ∀ i j, i < j → j < n → t i < t j) (x : ℚ)
    (k : Nat) : ∀ (i : Nat), 1 ≤ k → i + k < n → Bm t x k i = Dbl.fin (Bq t k i x) := by
  induction k using Nat.strong_induction_on with
  | _ k ih =>
    intro i hk hik
    rcases k with _ | _ | k
    · omega
    · simp only [Bm, Bq]
      split_ifs <;> rfl
    · have d1 : t (k + 2 + i - 1) - t i ≠ 0 :=
        sub_ne_zero.2 (ne_of_gt (hmono _ _ (by omega) (by omega)))
      have d2 : t (k + 2 + i) - t (i + 1) ≠ 0 :=
        sub_ne_zero.2 (ne_of_gt (hmono _ _ (by omega) (by omega)))
      rw [Bq_blend t n hmono k i x hik]
      have e : i + (k + 2) = k + 2 + i := by omega
      simp only [Bm, ih (k + 1) (by omega) i (by omega) (by omega),
        ih (k + 1) (by omega) (i + 1) (by omega) (by omega), Dbl.fin_sub, Dbl.fin_div _ _ d1,
        Dbl.fin_div _ _ d2, Dbl.fin_mul, Dbl.fin_add, e]

/-- The fill of one row of `B_matrix` on a ready engine: the row holds the values `Bm` of
order `order` at the collocation point of the row. -/
theorem fill_row_correct (s0 st st' : Spline) (alpha m : Nat) (x : ℚ) (row : List Dbl)
    (hr : st.Ready) (hd : s0.SameData st) (ha : alpha < s0.N)
    (hx : s0.collocationX[alpha]? = some x) (hm : m ≤ s0.numKnots - s0.order)
    (h : tabulateS (fun st1 i => st1.B_alpha st1.order i alpha) st 0 m = .ok (row, st')) :
    (st'.Ready ∧ s0.SameData st') ∧ row.length = m ∧
      ∀ i, i < m → row[i]? = some (Bm s0.t x s0.order i) := by
  have := tabulateS_invariant (fun st1 i => st1.B_alpha st1.order i alpha)
    (fun st1 => st1.Ready ∧ s0.SameData st1) (fun i v => v = Bm s0.t x s0.order i) m 0 st row st'
    (fun st1 j v st2 hP _ hj hf => by
      obtain ⟨o1, k1, n1, c1, N1, t1⟩ := hP.2.ready_fields
      obtain ⟨s', e, r', d'⟩ := B_alpha_correct st1.order st1 j alpha x hP.1 hP.1.order_pos
        (le_refl _) (by rw [n1, o1]; omega) (by rw [N1]; exact ha) (by rw [c1]; exact hx)
      have hf' : st1.B_alpha st1.order j alpha = .ok (v, st2) := hf
      rw [e] at hf'
      simp only [Except.ok.injEq, Prod.mk.injEq] at hf'
      obtain ⟨rfl, rfl⟩ := hf'
      exact ⟨⟨r', hP.2.trans d'⟩, by rw [t1, o1]⟩)
    ⟨hr, hd⟩ h
  refine ⟨this.1, this.2.1, fun i hi => ?_⟩
  obtain ⟨v, hv, hq⟩ := this.2.2 i hi
  rw [Nat.zero_add] at hq
  rw [hv, hq]

/-- The fill of `B_matrix` on a ready engine: row `alpha` holds the values `Bm` of order
`order` at the collocation point `alpha`. -/
theorem fill_correct (s0 s1 : Spline) (m : Nat) (rows : List (List Dbl)) (hr : s0.Ready)
    (hm : m ≤ s0.numKnots - s0.order)
    (h : tabulateS (fun st alpha => tabulateS (fun st1 i => st1.B_alpha st1.order i alpha) st
      0 m) s0 0 s0.N = .ok (rows, s1)) :
    (s1.Ready ∧ s0.SameData s1) ∧ rows.length = s0.N ∧
      ∀ alpha, alpha < s0.N → ∃ row x, rows[alpha]? = some row ∧
        s0.collocationX[alpha]? = some x ∧ row.length = m ∧
        ∀ i, i < m → row[i]? = some (Bm s0.t x s0.order i) := by
  have := tabulateS_invariant
    (fun st alpha => tabulateS (fun st1 i => st1.B_alpha st1.order i alpha) st 0 m)
    (fun st1 => st1.Ready ∧ s0.SameData st1)
    (fun alpha row => ∃ x, s0.collocationX[alpha]? = some x ∧ row.length = m ∧
        ∀ i, i < m → row[i]? = some (Bm s0.t x s0.order i)) s0.N 0 s0 rows s1
    (fun st1 j row st2 hP _ hj hf => by
      have hjl : j < s0.collocationX.length := by rw [hr.coll_length]; omega
      have hx : s0.collocationX[j]? = some (s0.collocationX.get ⟨j, hjl⟩) :=
        List.getElem?_eq_getElem hjl
      obtain ⟨h1, h2, h3⟩ := fill_row_correct s0 st1 st2 j m _ row hP.1 hP.2 (by omega) hx
        hm hf
      exact ⟨h1, _, hx, h2, h3⟩)
    ⟨hr, Spline.SameData.refl s0⟩ h
  refine ⟨this.1, this.2.1, fun alpha ha => ?_⟩
  obtain ⟨row, hrow, x, hx, hlen, hval⟩ := this.2.2 alpha ha
  rw [Nat.zero_add] at hx
  exact ⟨row, x, hrow, hx, hlen, hval⟩


/-! ## The engine after construction -/

theorem Spline.StrictKnots.nondecreasing {s : Spline} (h : s.StrictKnots) :
    s.NondecreasingKnots := fun j hj => le_of_lt (h j hj)

/-- An engine with a freshly allocated table is ready. -/
theorem ready_of_alloc (s0 : Spline) (hn : s0.numKnots = s0.knotX.length)
    (ho : 1 ≤ s0.order) (hsize : s0.numKnots = s0.N + 2 * s0.order - 1)
    (hc : s0.collocationX.length = s0.N)
    (hspan : ∀ (a : Nat) (x : ℚ), s0.collocationX[a]? = some x →
      s0.t 0 ≤ x ∧ x ≤ s0.t (s0.knotX.length - 1))
    (htbl : s0.B_k_i_alpha = Spline.allocCache s0.order s0.N) : s0.Ready := by
  refine ⟨hn, ho, hsize, hc, hspan, ?_, ?_⟩
  · intro k i a h1 h2 h3 h4
    rw [htbl]
    exact ⟨_, allocCache_get _ _ k i a h1 h2 (by omega) h4⟩
  · intro k i a v x hget hnan _
    rw [htbl] at hget
    rw [allocCache_nan _ _ _ _ _ _ hget] at hnan
    cases hnan

/-! ## The derivative evaluator -/

theorem D_B_unfold (s : Spline) (p k i : Nat) (x : ℚ) :
    Spline.D_B s p k i x =
      (if ¬ (p < s.order) then .error .assertion
      else if ¬ (p + 1 ≤ k ∧ k ≤ s.order) then .error .assertion
      else if ¬ (i < s.numKnots - k) then .error .assertion
      else do
        let lo ← s.front
        let hi ← s.back
        if ¬ (lo ≤ x ∧ x ≤ hi) then .error .assertion
        else
          match k with
          | k' + 1 =>
            if k' + 1 ≥ p + 2 then do
              let ti ← s.knot i
              let tk1 ← s.knot (k' + 1 + i - 1)
              let firstTermRatio := (Dbl.fin x - Dbl.fin ti) / (Dbl.fin tk1 - Dbl.fin ti)
              let tk ← s.knot (k' + 1 + i)
              let ti1 ← s.knot (i + 1)
              let secondTermRatio := (Dbl.fin tk - Dbl.fin x) / (Dbl.fin tk - Dbl.fin ti1)
              let firstTermDeriv ← Spline.D_B s p k' i x
              let secondTermDeriv ← Spline.D_B s p k' (i + 1) x
              pure ((Dbl.ofNat (k' + 1 - 1) / Dbl.ofNat (k' + 1 - p - 1))
                * ((firstTermRatio * firstTermDeriv) + (secondTermRatio * secondTermDeriv)))
            else if ¬ (k' + 1 = p + 1) then .error .assertion
            else Spline.C s (k' + 1) i x
          | 0 => .error .assertion) := by
  rcases k with _ | k <;> rfl

theorem C_unfold (s : Spline) (k i : Nat) (x : ℚ) :
    Spline.C s k i x =
      (if ¬ (k ≥ 1) then .error .assertion
      else
        match k with
        | k' + 2 => do
          let c1 ← Spline.C s (k' + 1) i x
          let tk1 ← s.knot (k' + 2 + i - 1)
          let ti ← s.knot i
          let firstTerm := c1 / (Dbl.fin tk1 - Dbl.fin ti)
          let c2 ← Spline.C s (k' + 1) (i + 1) x
          let tk ← s.knot (k' + 2 + i)
          let ti1 ← s.knot (i + 1)
          let secondTerm := c2 / (Dbl.fin tk - Dbl.fin ti1)
          pure (Dbl.ofNat (k' + 2 - 1) * (firstTerm - secondTerm))
        | _ => Spline.B s 1 i x) := by
  rcases k with _ | _ | k <;> rfl

/-- A successful call of `D_B` passed its assertions. -/
theorem D_B_ok_args (s : Spline) (p k i : Nat) (x : ℚ) (v : Dbl)
    (h : s.D_B p k i x = .ok v) :
    p < s.order ∧ p + 1 ≤ k ∧ k ≤ s.order ∧ i < s.numKnots - k ∧
    ∃ lo hi, s.front = .ok lo ∧ s.back = .ok hi ∧ lo ≤ x ∧ x ≤ hi := by
  rw [D_B_unfold] at h
  split_ifs at h with h1 h2 h3
  rw [bind_ok_iff] at h
  obtain ⟨lo, hlo, h⟩ := h
  rw [bind_ok_iff] at h
  obtain ⟨hi, hhi, h⟩ := h
  split_ifs at h with h4
  exact ⟨h1, h2.1, h2.2, h3, lo, hi, hlo, hhi, h4.1, h4.2⟩

/-- The summation loop, when it returns: every term was evaluated, and the result is the
sum of the terms accumulated from the left. -/
theorem sumLoop_ok (f : Nat → Except Violation Dbl) (n : Nat) :
    ∀ (i : Nat) (acc v : Dbl), sumLoop f i n acc = .ok v →
      ∃ g : Nat → Dbl, (∀ j, j < n → f (i + j) = .ok (g (i + j))) ∧
        v = ((List.range n).map (fun j => g (i + j))).foldl (fun a b => a + b) acc := by
  induction n with
  | zero =>
    intro i acc v h
    simp only [sumLoop, Except.ok.injEq] at h
    exact ⟨fun _ => Dbl.nan, fun j hj => by omega, by simp [h]⟩
  | succ n ih =>
    intro i acc v h
    rw [sumLoop, bind_ok_iff] at h
    obtain ⟨w, hw, h⟩ := h
    obtain ⟨g, hg, hv⟩ := ih (i + 1) (acc + w) v h
    refine ⟨fun j => if j = i then w else g j, ?_, ?_⟩
    · intro j hj
      by_cases e : j = 0
      · subst e; simpa using hw
      · have := hg (j - 1) (by omega)
        have e2 : i + 1 + (j - 1) = i + j := by omega
        rw [e2] at this
        rw [this]
        have : i + j ≠ i := by omega
        simp [this]
    · rw [hv, List.range_succ_eq_map, List.map_cons, List.foldl_cons, List.map_map]
      simp only [Nat.add_zero, if_true]
      congr 1
      apply List.map_congr_left
      intro j _
      have e2 : i + 1 + j = i + (j + 1) := by omega
      have : i + (j + 1) ≠ i := by omega
      simp [e2, this]

/-- The summation loop returns when every term can be evaluated. -/
theorem sumLoop_total (f : Nat → Except Violation Dbl) (n : Nat) :
    ∀ (i : Nat) (acc : Dbl), (∀ j, j < n → ∃ w, f (i + j) = .ok w) →
      ∃ v, sumLoop f i n acc = .ok v := by
  induction n with
  | zero => intro i acc _; exact ⟨acc, rfl⟩
  | succ n ih =>
    intro i acc h
    obtain ⟨w, hw⟩ := h 0 (by omega)
    simp only [Nat.add_zero] at hw
    obtain ⟨v, hv⟩ := ih (i + 1) (acc + w) (fun j hj => by
      have := h (j + 1) (by omega)
      have e : i + (j + 1) = i + 1 + j := by omega
      rwa [e] at this)
    refine ⟨v, ?_⟩
    rw [sumLoop, hw]
    exact hv


/-! ## The evaluators at a real `x` read only the order and the knots -/

theorem B_congr (s s' : Spline) (ho : s'.order = s.order) (hk : s'.knotX = s.knotX)
    (hn : s'.numKnots = s.numKnots) (k : Nat) :
    ∀ (i : Nat) (x : ℚ), s'.B k i x = s.B k i x := by
  induction k using Nat.strong_induction_on with
  | _ k ih =>
    intro i x
    rcases k with _ | _ | k
    · rw [B_unfold s', B_unfold s]
      simp only [Spline.front, Spline.back, Spline.knot, ho, hk, hn]
    · rw [B_unfold s', B_unfold s]
      simp only [Spline.front, Spline.back, Spline.knot, ho, hk, hn]
    · rw [B_unfold s', B_unfold s]
      simp only [Spline.front, Spline.back, Spline.knot, ho, hk, hn,
        ih (k + 1) (by omega)]

theorem C_congr (s s' : Spline) (ho : s'.order = s.order) (hk : s'.knotX = s.knotX)
    (hn : s'.numKnots = s.numKnots) (k : Nat) :
    ∀ (i : Nat) (x : ℚ), s'.C k i x = s.C k i x := by
  induction k using Nat.strong_induction_on with
  | _ k ih =>
    intro i x
    rcases k with _ | _ | k
    · rw [C_unfold s', C_unfold s]
      simp only [B_congr s s' ho hk hn]
    · rw [C_unfold s', C_unfold s]
      simp only [B_congr s s' ho hk hn]
    · rw [C_unfold s', C_unfold s]
      simp only [Spline.knot, hk, ih (k + 1) (by omega)]

theorem D_B_congr (s s' : Spline) (ho : s'.order = s.order) (hk : s'.knotX = s.knotX)
    (hn : s'.numKnots = s.numKnots) (p k : Nat) :
    ∀ (i : Nat) (x : ℚ), s'.D_B p k i x = s.D_B p k i x := by
  induction k with
  | zero =>
    intro i x
    rw [D_B_unfold s', D_B_unfold s]
    simp only [Spline.front, Spline.back, Spline.knot, ho, hk, hn]
  | succ k ih =>
    intro i x
    rw [D_B_unfold s', D_B_unfold s]
    simp only [Spline.front, Spline.back, Spline.knot, ho, hk, hn, ih,
      C_congr s s' ho hk hn]

/-! ## The constraint rows after construction -/

theorem matGet_ok_iff {α : Type} (m : List (List α)) (r j : Nat) (a : α) :
    matGet m r j = .ok a ↔ ∃ row, m[r]? = some row ∧ row[j]? = some a := by
  unfold matGet
  cases h : m[r]? with
  | none => simp
  | some row =>
    cases h' : row[j]? <;> simp [h']

theorem betaEntry_congr (s s' : Spline) (ho : s'.order = s.order) (hk : s'.knotX = s.knotX)
    (hn : s'.numKnots = s.numKnots) (hK : s'.K_matrix = s.K_matrix) (r i : Nat) (x : ℚ) :
    s'.betaEntry r i x = s.betaEntry r i x := by
  unfold Spline.betaEntry
  simp only [D_B_congr s s' ho hk hn, hK, ho]

/-- The entries of `beta_matrix` of an accepted input are the results of `betaEntry` on the
returned engine. -/
theorem construct_beta (order : Nat) (knotX : List ℚ) (K : List (List Int))
    (inverse : List (List Dbl) → List (List Dbl)) (s : Spline)
    (h : Spline.construct order knotX K inverse = .ok s) :
    s.beta_matrix.length = s.order - 1 ∧
    ∀ r, r < s.order - 1 → ∃ row, s.beta_matrix[r]? = some row ∧
      row.length = s.order + s.N - 1 ∧
      ∀ i, i < s.order + s.N - 1 → ∃ v, row[i]? = some v ∧
        s.betaEntry r i (if r < s.order / 2 then s.xMin else s.xMax) = .ok v := by
  obtain ⟨h1, h3, h3', h4, h5, coll, rows, s1, beta, hcoll, hlen, hrows, hbeta, rfl⟩ :=
    construct_ok order knotX K inverse s h
  obtain ⟨tbl, rfl⟩ := fill_sameData _ _ _ _ _ hrows
  obtain ⟨hbl, hbr⟩ := (tabulate_ok_iff _ _ _ _).1 hbeta
  refine ⟨hbl, fun r hr => ?_⟩
  obtain ⟨row, hrow, hrowv⟩ := hbr r hr
  rw [Nat.zero_add] at hrowv
  unfold Spline.betaRow at hrowv
  obtain ⟨hrl, hre⟩ := (tabulate_ok_iff _ _ _ _).1 hrowv
  refine ⟨row, hrow, hrl, fun i hi => ?_⟩
  obtain ⟨v, hv, he⟩ := hre i hi
  rw [Nat.zero_add] at he
  refine ⟨v, hv, ?_⟩
  rw [← he]
  refine betaEntry_congr _ _ ?_ ?_ ?_ ?_ r i _ <;> rfl

/-- An accepted input has its physical boundaries inside the knot span: the fill of
`beta_matrix` evaluated `D_B` at `xMin` and at `xMax`. -/
theorem construct_span (order : Nat) (knotX : List ℚ) (K : List (List Int))
    (inverse : List (List Dbl) → List (List Dbl)) (s : Spline)
    (h : Spline.construct order knotX K inverse = .ok s) :
    s.t 0 ≤ s.xMin ∧ s.xMax ≤ s.t (s.knotX.length - 1) := by
  obtain ⟨h1, h3, -, h4, -, ho, hk, hnum, -, -, -, hN, -, -⟩ :=
    construct_fields order knotX K inverse s h
  obtain ⟨-, hb⟩ := construct_beta order knotX K inverse s h
  have hpos : 0 < s.knotX.length := by rw [hk]; omega
  have key : ∀ r, r < s.order - 1 →
      s.t 0 ≤ (if r < s.order / 2 then s.xMin else s.xMax) ∧
      (if r < s.order / 2 then s.xMin else s.xMax) ≤ s.t (s.knotX.length - 1) := by
    intro r hr
    obtain ⟨row, -, -, hrow⟩ := hb r hr
    obtain ⟨v, -, hv⟩ := hrow 0 (by omega)
    unfold Spline.betaEntry at hv
    obtain ⟨g, hg, -⟩ := sumLoop_ok _ _ _ _ _ hv
    have h0 := hg 0 (by omega)
    simp only [Nat.add_zero, bind_ok_iff] at h0
    obtain ⟨kv, -, d, hd, -⟩ := h0
    obtain ⟨-, -, -, -, lo, hi, hlo, hhi, l1, l2⟩ := D_B_ok_args _ _ _ _ _ _ hd
    rw [s.front_eq hpos] at hlo
    rw [s.back_eq hpos] at hhi
    cases hlo
    cases hhi
    exact ⟨l1, l2⟩
  have k0 := key 0 (by omega)
  have k1 := key (s.order - 2) (by omega)
  have e0 : 0 < s.order / 2 := by omega
  have e1 : ¬ (s.order - 2 < s.order / 2) := by omega
  rw [if_pos e0] at k0
  rw [if_neg e1] at k1
  exact ⟨k0.1, k1.2⟩

/-- The collocation points of an accepted input lie between the physical boundaries. -/
theorem construct_coll_between (order : Nat) (knotX : List ℚ) (K : List (List Int))
    (inverse : List (List Dbl) → List (List Dbl)) (s : Spline)
    (h : Spline.construct order knotX K inverse = .ok s) (a : Nat) (x : ℚ)
    (hx : s.collocationX[a]? = some x) : s.xMin < x ∧ x < s.xMax := by
  obtain ⟨-, h3, -, h4, -, ho, hk, hnum, -, hmin, hmax, hN, hlen, -⟩ :=
    construct_fields order knotX K inverse s h
  have ha : a < s.N := by
    rw [← hlen]
    exact (List.getElem?_eq_some_iff.1 hx).1
  have hmin' : s.xMin = s.t (s.order - 1) := by rw [hmin, ho]; unfold Spline.t; rw [hk]
  have hmax' : s.xMax = s.t (s.order + (s.N - 1)) := by
    rw [hmax, ho, hN]; unfold Spline.t; rw [hk]
    congr 1
    omega
  have step : ∀ j, j < s.N → s.t (s.order - 1 + j) < s.t (s.order + j) := fun j hj =>
    (construct_collocation order knotX K inverse s h j hj).1
  have up : ∀ j, j < s.N → s.t (s.order - 1) ≤ s.t (s.order - 1 + j) := by
    intro j
    induction j with
    | zero => intro _; exact le_refl _
    | succ j ih =>
      intro hj
      have e : s.order - 1 + (j + 1) = s.order + j := by omega
      rw [e]
      exact le_trans (ih (by omega)) (le_of_lt (step j (by omega)))
  have down : ∀ d, d < s.N → s.t (s.order + (s.N - 1 - d)) ≤ s.t (s.order + (s.N - 1)) := by
    intro d
    induction d with
    | zero => intro _; exact le_refl _
    | succ d ih =>
      intro hd
      have e : s.order + (s.N - 1 - (d + 1)) = s.order - 1 + (s.N - 1 - d) := by omega
      rw [e]
      exact le_trans (le_of_lt (step (s.N - 1 - d) (by omega))) (ih (by omega))
  obtain ⟨hlt, hmid⟩ := construct_collocation order knotX K inverse s h a ha
  rw [hx] at hmid
  have hx' := Option.some.inj hmid
  have l1 := up a ha
  have l2 := down (s.N - 1 - a) (by omega)
  have e2 : s.order + (s.N - 1 - (s.N - 1 - a)) = s.order + a := by omega
  rw [e2] at l2
  rw [hmin', hmax', hx']
  constructor
  · linarith
  · linarith

/-- The engine the constructor returns: it is ready, it is ready again with a freshly
allocated table, and row `alpha` of `B_matrix` holds the memoized values of order `order`
at the collocation point `alpha`. -/
theorem construct_ready (order : Nat) (knotX : List ℚ) (K : List (List Int))
    (inverse : List (List Dbl) → List (List Dbl)) (s : Spline)
    (h : Spline.construct order knotX K inverse = .ok s) :
    s.Ready ∧ ({ s with B_k_i_alpha := Spline.allocCache s.order s.N } : Spline).Ready ∧
    s.B_matrix.length = s.N ∧
    ∀ alpha, alpha < s.N → ∃ row x, s.B_matrix[alpha]? = some row ∧
      s.collocationX[alpha]? = some x ∧ row.length = s.N + s.order - 1 ∧
      ∀ i, i < s.N + s.order - 1 → row[i]? = some (Bm s.t x s.order i) := by
  have hspan : ∀ (a : Nat) (x : ℚ), s.collocationX[a]? = some x →
      s.t 0 ≤ x ∧ x ≤ s.t (s.knotX.length - 1) := by
    intro a x hx
    obtain ⟨l1, l2⟩ := construct_span order knotX K inverse s h
    obtain ⟨l3, l4⟩ := construct_coll_between order knotX K inverse s h a x hx
    exact ⟨le_of_lt (lt_of_le_of_lt l1 l3), le_of_lt (lt_of_lt_of_le l4 l2)⟩
  obtain ⟨h1, h3, h3', h4, h5, coll, rows, s1, beta, hcoll, hlen, hrows, hbeta, rfl⟩ :=
    construct_ok order knotX K inverse s h
  have hr0 : Spline.Ready
      { order := order, knotX := knotX, numKnots := knotX.length, collocationX := coll,
        N := coll.length, B_matrix := [], K_matrix := K, beta_matrix := [],
        B_tilde_matrix := [], C_tilde_matrix := [], xMin := knotX.getD (order - 1) 0,
        xMax := knotX.getD (knotX.length - order) 0,
        B_k_i_alpha := Spline.allocCache order coll.length } := by
    obtain ⟨tbl, rfl⟩ := fill_sameData _ _ _ _ _ hrows
    exact ready_of_alloc _ rfl (by show 1 ≤ order; omega)
      (by show knotX.length = coll.length + 2 * order - 1; omega) rfl hspan rfl
  obtain ⟨⟨r1, d1⟩, hrl, hrowsv⟩ := fill_correct _ s1 _ rows hr0
    (by show coll.length + order - 1 ≤ knotX.length - order; omega) hrows
  obtain ⟨tbl, rfl⟩ := d1
  refine ⟨⟨r1.numKnots_eq, r1.order_pos, r1.size, r1.coll_length, r1.coll_span,
    r1.slot_exists, r1.slot_value⟩, ?_, hrl, hrowsv⟩
  exact ready_of_alloc _ rfl r1.order_pos r1.size rfl r1.coll_span rfl

/-! ## Claims C6 and C7: partition of unity on the engine, memoized against direct -/

theorem Dbl.foldl_fin (g : Nat → ℚ) : ∀ (l : List Dbl) (a : ℚ) (j : Nat),
    (∀ i, i < l.length → l[i]? = some (Dbl.fin (g (j + i)))) →
    l.foldl (fun acc v => acc + v) (Dbl.fin a)
      = Dbl.fin (a + ∑ i in Finset.range l.length, g (j + i)) := by
  intro l
  induction l with
  | nil => intro a j _; simp
  | cons v rest ih =>
    intro a j h
    have h0 := h 0 (by simp)
    simp only [List.getElem?_cons_zero, Option.some.injEq, Nat.add_zero] at h0
    subst h0
    rw [List.foldl_cons, Dbl.fin_add, ih (a + g j) (j + 1) (fun i hi => by
      have := h (i + 1) (by simpa using hi)
      simp only [List.getElem?_cons_succ] at this
      have e : j + 1 + i = j + (i + 1) := by omega
      rw [e]; exact this)]
    rw [List.length_cons, Finset.sum_range_succ']
    have e : ∀ i, j + 1 + i = j + (i + 1) := fun i => by omega
    simp only [e, Nat.add_zero]
    congr 1
    ring

theorem Dbl.sum_fin (l : List Dbl) (g : Nat → ℚ)
    (h : ∀ i, i < l.length → l[i]? = some (Dbl.fin (g i))) :
    Dbl.sum l = Dbl.fin (∑ i in Finset.range l.length, g i) := by
  unfold Dbl.sum
  rw [Dbl.foldl_fin g l 0 0 (fun i hi => by rw [Nat.zero_add]; exact h i hi)]
  simp

/-- Claim C7, for strictly increasing knots.  The engine the constructor returns is ready
(every filled slot of its table holds the value of its key), and so is the same engine
with a freshly allocated table; on every ready state `s` of the engine, filled or not, and
all valid `k`, `i`, `alpha`, the memoized `B(k,i,alpha)` returns the value that
`B(k,i,collocationX[alpha])` returns, and leaves a ready state. -/
theorem C7_cache_consistency (order : Nat) (knotX : List ℚ) (K : List (List Int))
    (inverse : List (List Dbl) → List (List Dbl)) (e : Spline)
    (hc : Spline.construct order knotX K inverse = .ok e) (hs : e.StrictKnots) :
    e.Ready ∧ ({ e with B_k_i_alpha := Spline.allocCache e.order e.N } : Spline).Ready ∧
    ∀ (s : Spline), e.SameData s → s.Ready → ∀ (k i alpha : Nat),
      1 ≤ k → k ≤ s.order → i < s.numKnots - k → alpha < s.N →
      ∃ x v s', s.collocationX[alpha]? = some x ∧ s.B_alpha k i alpha = .ok (v, s') ∧
        s.B k i x = .ok v ∧ s'.Ready ∧ s.SameData s' := by
  obtain ⟨hr, hfresh, -, -⟩ := construct_ready order knotX K inverse e hc
  refine ⟨hr, hfresh, ?_⟩
  intro s hd hrs k i alpha hk1 hk2 hi ha
  obtain ⟨o1, k1, n1, c1, N1, t1⟩ := hd.ready_fields
  have hss : s.StrictKnots := by
    intro j hj
    rw [t1]
    rw [k1] at hj
    exact hs j hj
  have hal : alpha < s.collocationX.length := by rw [hrs.coll_length]; exact ha
  have hx : s.collocationX[alpha]? = some (s.collocationX.get ⟨alpha, hal⟩) :=
    List.getElem?_eq_getElem hal
  obtain ⟨s', hb, hr', hd'⟩ := B_alpha_correct k s i alpha _ hrs hk1 hk2 hi ha hx
  have hspan := hrs.coll_span alpha _ hx
  have hn := hrs.numKnots_eq
  refine ⟨_, _, s', hx, hb, ?_, hr', hd'⟩
  rw [B_eq_Bq s hn hss _ hspan.1 hspan.2 k i hk1 hk2 hi,
    Bm_eq_Bq s.t s.knotX.length hss.mono _ k i hk1 (by omega)]

/-- Witness of C7: the engine of `main.cpp`. -/
theorem C7_cache_consistency_witness :
    demoEngine.Ready ∧
    ({ demoEngine with B_k_i_alpha := Spline.allocCache demoEngine.order demoEngine.N }
      : Spline).Ready ∧
    ∀ (s : Spline), demoEngine.SameData s → s.Ready → ∀ (k i alpha : Nat),
      1 ≤ k → k ≤ s.order → i < s.numKnots - k → alpha < s.N →
      ∃ x v s', s.collocationX[alpha]? = some x ∧ s.B_alpha k i alpha = .ok (v, s') ∧
        s.B k i x = .ok v ∧ s'.Ready ∧ s.SameData s' :=
  C7_cache_consistency 3 demoKnots demoK demoInverse demoEngine demoEngine_constructed
    demoEngine_strict

/-- Claim C7 as stated fails on nondecreasing knots.  The constructor accepts order 3 with
the knots `0,0,1,2,3,4,5,6`; at `k = 2`, `i = 0` and the collocation point `alpha = 0`,
`x = 3/2`, the memoized evaluator divides by `knot[1] - knot[0] = 0` and returns `NaN`,
while the evaluator at `x` returns `0` early. -/
theorem C7_counterexample :
    Spline.construct 3 clampedKnots demoK demoInverse = .ok clampedEngine ∧
    clampedEngine.NondecreasingKnots ∧ 2 ≤ clampedEngine.order ∧
    0 < clampedEngine.numKnots - 2 ∧ 0 < clampedEngine.N ∧
    clampedEngine.collocationX[0]? = some (3 / 2) ∧
    (clampedEngine.B_alpha 2 0 0).map Prod.fst = .ok Dbl.nan ∧
    clampedEngine.B 2 0 (3 / 2) = .ok (Dbl.fin 0) :=
  ⟨clampedEngine_constructed, clampedEngine_nondecreasing, by decide!, by decide!,
    by decide!, by decide!, by decide!, by decide!⟩

/-- Claim C6, amended to exact arithmetic.  On an engine constructed in exact arithmetic
from strictly increasing knots, for every `k` in `1 .. order` and every `x` with
`knot[k-1] ≤ x < knot[numKnots-k]`, the sum over `i = 0 .. numKnots-k-1` of `B(k,i,x)` is
`1`; for `k = order` this covers every `x` in `[xMin, xMax)`, every collocation point lies
there, and every row of `B_matrix` sums to `1`. -/
theorem C6_partition_of_unity (order : Nat) (knotX : List ℚ) (K : List (List Int))
    (inverse : List (List Dbl) → List (List Dbl)) (s : Spline)
    (hc : Spline.construct order knotX K inverse = .ok s) (hs : s.StrictKnots) :
    (∀ (k : Nat) (x : ℚ), 1 ≤ k → k ≤ s.order → s.t (k - 1) ≤ x → x < s.t (s.numKnots - k) →
      s.basisSum k x = .ok (Dbl.fin 1)) ∧
    (∀ (x : ℚ), s.xMin ≤ x → x < s.xMax → s.basisSum s.order x = .ok (Dbl.fin 1)) ∧
    (∀ (alpha : Nat), alpha < s.N → ∃ x row, s.collocationX[alpha]? = some x ∧
      s.xMin ≤ x ∧ x < s.xMax ∧ s.B_matrix[alpha]? = some row ∧
      row.length = s.numKnots - s.order ∧ Dbl.sum row = Dbl.fin 1) := by
  obtain ⟨-, h3, -, h4, -, ho, hk, hnum, -, hmin, hmax, hN, hlen, -⟩ :=
    construct_fields order knotX K inverse s hc
  have hn : s.numKnots = s.knotX.length := by rw [hnum, hk]
  have h2 : 2 * s.order ≤ s.numKnots := by rw [ho, hnum]; exact h4
  have hmin' : s.xMin = s.t (s.order - 1) := by rw [hmin, ho]; unfold Spline.t; rw [hk]
  have hmax' : s.xMax = s.t (s.numKnots - s.order) := by
    rw [hmax, ho, hnum]; unfold Spline.t; rw [hk]
  have part1 := fun (k : Nat) (x : ℚ) (hk1 : 1 ≤ k) (hk2 : k ≤ s.order)
      (hlo : s.t (k - 1) ≤ x) (hhi : x < s.t (s.numKnots - k)) =>
    basisSum_eq_one s hn h2 hs k x hk1 hk2 hlo hhi
  have part2 : ∀ (x : ℚ), s.xMin ≤ x → x < s.xMax → s.basisSum s.order x = .ok (Dbl.fin 1) := by
    intro x hlo hhi
    rw [hmin'] at hlo
    rw [hmax'] at hhi
    exact part1 s.order x (by omega) (le_refl _) hlo hhi
  refine ⟨part1, part2, ?_⟩
  intro alpha ha
  obtain ⟨-, -, -, hrows⟩ := construct_ready order knotX K inverse s hc
  obtain ⟨row, x, hrow, hx, hrl, hval⟩ := hrows alpha ha
  obtain ⟨hlt, hmid⟩ := construct_collocation order knotX K inverse s hc alpha ha
  rw [hx] at hmid
  have hx' := Option.some.inj hmid
  have l1 : s.t (s.order - 1) ≤ s.t (s.order - 1 + alpha) :=
    hs.le_of_le _ _ (by omega) (by omega)
  have l2 : s.t (s.order + alpha) ≤ s.t (s.numKnots - s.order) :=
    hs.le_of_le _ _ (by omega) (by omega)
  have hxlo : s.xMin ≤ x := by rw [hmin', hx']; linarith
  have hxhi : x < s.xMax := by rw [hmax', hx']; linarith
  have hcount : s.N + s.order - 1 = s.numKnots - s.order := by omega
  refine ⟨x, row, hx, hxlo, hxhi, hrow, by rw [hrl, hcount], ?_⟩
  rw [Dbl.sum_fin row (fun i => Bq s.t s.order i x) (fun i hi => by
    rw [hval i (by rw [← hrl]; exact hi),
      Bm_eq_Bq s.t s.knotX.length hs.mono x s.order i (by omega) (by omega)])]
  rw [hrl, hcount, hn]
  rw [hmin'] at hxlo
  rw [hmax', hn] at hxhi
  rw [Bq_partition s.t s.knotX.length hs.mono x s.order (by omega) (by omega) hxlo hxhi]

/-- Witness of C6: the engine of `main.cpp`. -/
theorem C6_partition_of_unity_witness :
    demoEngine.B_matrix =
      [[.fin (1 / 8), .fin (3 / 4), .fin (1 / 8), .fin 0, .fin 0],
       [.fin 0, .fin (1 / 8), .fin (3 / 4), .fin (1 / 8), .fin 0],
       [.fin 0, .fin 0, .fin (1 / 8), .fin (3 / 4), .fin (1 / 8)]] ∧
    ∀ (alpha : Nat), alpha < demoEngine.N → ∃ x row, demoEngine.collocationX[alpha]? = some x ∧
      demoEngine.xMin ≤ x ∧ x < demoEngine.xMax ∧ demoEngine.B_matrix[alpha]? = some row ∧
      row.length = demoEngine.numKnots - demoEngine.order ∧ Dbl.sum row = Dbl.fin 1 :=
  ⟨by decide!, (C6_partition_of_unity 3 demoKnots demoK demoInverse demoEngine
    demoEngine_constructed demoEngine_strict).2.2⟩


/-! ## Claim C9: the constraint rows -/

/-- Claim C9.  For every accepted input, `xMin = knot[order-1]`, `xMax =
knot[numKnots-order]`, `beta_matrix` has `order - 1` rows, an even number, and for every
row `r` and every column `i < N + order - 1` the entry `beta(r,i)` is the sum over
`p = 0 .. order-1` of `K[r][p] * D_B(p, order, i, loc)`, where `loc` is `xMin` for the
first `(order-1)/2` rows and `xMax` for the other `(order-1)/2` rows. -/
theorem C9_constraint_rows (order : Nat) (knotX : List ℚ) (K : List (List Int))
    (inverse : List (List Dbl) → List (List Dbl)) (s : Spline)
    (hc : Spline.construct order knotX K inverse = .ok s) :
    s.xMin = s.t (s.order - 1) ∧ s.xMax = s.t (s.numKnots - s.order) ∧
    s.beta_matrix.length = s.order - 1 ∧ s.order - 1 = 2 * ((s.order - 1) / 2) ∧
    ∀ (r i : Nat), r < s.order - 1 → i < s.N + s.order - 1 →
      ∃ (kv : Nat → Int) (d : Nat → Dbl),
        (∀ p, p < s.order → matGet s.K_matrix r p = .ok (kv p) ∧
          s.D_B p s.order i (if r < (s.order - 1) / 2 then s.xMin else s.xMax) = .ok (d p)) ∧
        matGet s.beta_matrix r i
          = .ok (Dbl.sum ((List.range s.order).map (fun p => Dbl.ofInt (kv p) * d p))) := by
  obtain ⟨h1, h3, -, h4, -, ho, hk, hnum, -, hmin, hmax, hN, -, -⟩ :=
    construct_fields order knotX K inverse s hc
  obtain ⟨hbl, hb⟩ := construct_beta order knotX K inverse s hc
  have hmin' : s.xMin = s.t (s.order - 1) := by rw [hmin, ho]; unfold Spline.t; rw [hk]
  have hmax' : s.xMax = s.t (s.numKnots - s.order) := by
    rw [hmax, ho, hnum]; unfold Spline.t; rw [hk]
  refine ⟨hmin', hmax', hbl, by omega, fun r i hr hi => ?_⟩
  obtain ⟨row, hrow, -, hrowv⟩ := hb r hr
  obtain ⟨v, hv, he⟩ := hrowv i (by omega)
  have ehalf : s.order / 2 = (s.order - 1) / 2 := by omega
  rw [ehalf] at he
  unfold Spline.betaEntry at he
  obtain ⟨g, hg, hsum⟩ := sumLoop_ok _ _ _ _ _ he
  refine ⟨fun p => match matGet s.K_matrix r p with | .ok w => w | .error _ => 0,
    fun p => match s.D_B p s.order i (if r < (s.order - 1) / 2 then s.xMin else s.xMax) with
      | .ok w => w
      | .error _ => Dbl.nan, ?_, ?_⟩
  · intro p hp
    have := hg p hp
    simp only [Nat.zero_add, bind_ok_iff] at this
    obtain ⟨kv, hkv, d, hd, -⟩ := this
    dsimp only
    rw [hkv, hd]
    exact ⟨rfl, rfl⟩
  · rw [matGet_ok_iff]
    refine ⟨row, hrow, ?_⟩
    rw [hv, hsum]
    unfold Dbl.sum
    congr 2
    apply List.map_congr_left
    intro p hp
    have := hg p (List.mem_range.1 hp)
    simp only [Nat.zero_add, bind_ok_iff] at this
    obtain ⟨kv, hkv, d, hd, hpure⟩ := this
    dsimp only
    rw [hkv, hd]
    simp only [pure, Except.pure, Except.ok.injEq] at hpure
    simp only [Nat.zero_add]
    exact hpure.symm

/-- Witness of C9: the constraint rows of the engine of `main.cpp`. -/
theorem C9_constraint_rows_witness :
    demoEngine.beta_matrix =
      [[.fin (1 / 2), .fin (1 / 2), .fin 0, .fin 0, .fin 0],
       [.fin 0, .fin 0, .fin 0, .fin (-1), .fin 1]] ∧
    ∀ (r i : Nat), r < demoEngine.order - 1 → i < demoEngine.N + demoEngine.order - 1 →
      ∃ (kv : Nat → Int) (d : Nat → Dbl),
        (∀ p, p < demoEngine.order → matGet demoEngine.K_matrix r p = .ok (kv p) ∧
          demoEngine.D_B p demoEngine.order i
            (if r < (demoEngine.order - 1) / 2 then demoEngine.xMin else demoEngine.xMax)
            = .ok (d p)) ∧
        matGet demoEngine.beta_matrix r i
          = .ok (Dbl.sum ((List.range demoEngine.order).map
              (fun p => Dbl.ofInt (kv p) * d p))) :=
  ⟨by decide!, (C9_constraint_rows 3 demoKnots demoK demoInverse demoEngine
    demoEngine_constructed).2.2.2.2⟩


/-! ## The evaluators at a real `x` return on valid arguments -/

theorem B_total (s : Spline) (hn : s.numKnots = s.knotX.length) (x : ℚ)
    (hlo : s.t 0 ≤ x) (hhi : x ≤ s.t (s.knotX.length - 1)) (k : Nat) :
    ∀ (i : Nat), 1 ≤ k → k ≤ s.order → i < s.numKnots - k → ∃ v, s.B k i x = .ok v := by
  induction k using Nat.strong_induction_on with
  | _ k ih =>
    intro i hk1 hk2 hi
    have hpos : 0 < s.knotX.length := by omega
    rcases k with _ | _ | k
    · omega
    · exact ⟨_, B_one_eq_Bm s hn hk2 i x hi hlo hhi⟩
    · obtain ⟨b1, hb1⟩ := ih (k + 1) (by omega) i (by omega) (by omega) (by omega)
      obtain ⟨b2, hb2⟩ := ih (k + 1) (by omega) (i + 1) (by omega) (by omega) (by omega)
      rw [B_unfold, s.front_eq hpos, s.back_eq hpos, s.knot_eq i (by omega),
        s.knot_eq (i + (k + 2)) (by omega)]
      simp only [hk1, hk2, hi, hlo, hhi, and_self, not_true_eq_false, if_false, bind,
        Except.bind]
      by_cases hout : x < s.t i ∨ x > s.t (i + (k + 2))
      · simp only [hout, if_true, pure, Except.pure]
        exact ⟨_, rfl⟩
      · rw [hb1, hb2, s.knot_eq (k + 2 + i - 1) (by omega), s.knot_eq (i + 1) (by omega)]
        simp only [hout, if_false, pure, Except.pure]
        exact ⟨_, rfl⟩

theorem C_total (s : Spline) (hn : s.numKnots = s.knotX.length) (ho : 1 ≤ s.order) (x : ℚ)
    (hlo : s.t 0 ≤ x) (hhi : x ≤ s.t (s.knotX.length - 1)) (k : Nat) :
    ∀ (i : Nat), 1 ≤ k → i < s.numKnots - k → ∃ v, s.C k i x = .ok v := by
  induction k using Nat.strong_induction_on with
  | _ k ih =>
    intro i hk1 hi
    rcases k with _ | _ | k
    · omega
    · rw [C_unfold]
      simp only [ge_iff_le, le_refl, not_true_eq_false, if_false, Nat.zero_add]
      exact B_total s hn x hlo hhi 1 i (le_refl _) ho hi
    · obtain ⟨c1, hc1⟩ := ih (k + 1) (by omega) i (by omega) (by omega)
      obtain ⟨c2, hc2⟩ := ih (k + 1) (by omega) (i + 1) (by omega) (by omega)
      rw [C_unfold]
      simp only [ge_iff_le, hk1, not_true_eq_false, if_false, bind, Except.bind]
      rw [hc1, hc2, s.knot_eq (k + 2 + i - 1) (by omega), s.knot_eq i (by omega),
        s.knot_eq (k + 2 + i) (by omega), s.knot_eq (i + 1) (by omega)]
      exact ⟨_, rfl⟩

/-- On arguments that pass its assertions `D_B` returns a value: no assertion fails and no
knot index leaves the vector in its recursive calls. -/
theorem D_B_total (s : Spline) (hn : s.numKnots = s.knotX.length) (x : ℚ)
    (hlo : s.t 0 ≤ x) (hhi : x ≤ s.t (s.knotX.length - 1)) (p k : Nat) :
    ∀ (i : Nat), p < s.order → p + 1 ≤ k → k ≤ s.order → i < s.numKnots - k →
      ∃ v, s.D_B p k i x = .ok v := by
  induction k with
  | zero => intro i _ h; omega
  | succ k ih =>
    intro i hp hk1 hk2 hi
    have hpos : 0 < s.knotX.length := by omega
    rw [D_B_unfold, s.front_eq hpos, s.back_eq hpos]
    simp only [hp, hk1, hk2, hi, hlo, hhi, and_self, not_true_eq_false, if_false, bind,
      Except.bind]
    by_cases hge : k + 1 ≥ p + 2
    · obtain ⟨d1, hd1⟩ := ih i hp (by omega) (by omega) (by omega)
      obtain ⟨d2, hd2⟩ := ih (i + 1) hp (by omega) (by omega) (by omega)
      simp only [hge, if_true]
      rw [hd1, hd2, s.knot_eq i (by omega), s.knot_eq (k + 1 + i - 1) (by omega),
        s.knot_eq (k + 1 + i) (by omega), s.knot_eq (i + 1) (by omega)]
      exact ⟨_, rfl⟩
    · have e : k + 1 = p + 1 := by omega
      rw [if_neg hge, if_neg (not_not.2 e)]
      exact C_total s hn (by omega) x hlo hhi (k + 1) i (by omega) hi


/-! ## Claim C10: the operator matrix -/

theorem construct_matrices (order : Nat) (knotX : List ℚ) (K : List (List Int))
    (inverse : List (List Dbl) → List (List Dbl)) (s : Spline)
    (h : Spline.construct order knotX K inverse = .ok s) :
    s.B_tilde_matrix = s.B_matrix ++ s.beta_matrix ∧
    s.C_tilde_matrix = inverse s.B_tilde_matrix := by
  obtain ⟨-, -, -, -, -, coll, rows, s1, beta, -, -, -, -, rfl⟩ :=
    construct_ok order knotX K inverse s h
  exact ⟨rfl, rfl⟩

/-- With a shape-preserving inversion, `C_tilde` has an entry at every `(i, j)` with
`i, j < N + order - 1`. -/
theorem construct_Ctilde_entry (order : Nat) (knotX : List ℚ) (K : List (List Int))
    (inverse : List (List Dbl) → List (List Dbl)) (s : Spline)
    (h : Spline.construct order knotX K inverse = .ok s) (hinv : ShapePreserving inverse)
    (i j : Nat) (hi : i < s.N + s.order - 1) (hj : j < s.N + s.order - 1) :
    ∃ v, matGet s.C_tilde_matrix i j = .ok v := by
  obtain ⟨-, h3, -, -, -, ho, -, -, -, -, -, hN, -, -⟩ :=
    construct_fields order knotX K inverse s h
  obtain ⟨hbt, hct⟩ := construct_matrices order knotX K inverse s h
  obtain ⟨-, -, hBl, hB⟩ := construct_ready order knotX K inverse s h
  obtain ⟨hbl, hb⟩ := construct_beta order knotX K inverse s h
  have hrowB : ∃ row, s.B_tilde_matrix[i]? = some row ∧ row.length = s.N + s.order - 1 := by
    rw [hbt]
    by_cases hlt : i < s.N
    · obtain ⟨row, x, hrow, -, hrl, -⟩ := hB i hlt
      refine ⟨row, ?_, hrl⟩
      rw [List.getElem?_append_left (by rw [hBl]; exact hlt)]
      exact hrow
    · obtain ⟨row, hrow, hrl, -⟩ := hb (i - s.N) (by omega)
      refine ⟨row, ?_, by rw [hrl]; omega⟩
      rw [List.getElem?_append_right (by rw [hBl]; omega), hBl]
      exact hrow
  obtain ⟨rowB, hrowB, hlenB⟩ := hrowB
  have hshape := hinv s.B_tilde_matrix
  rw [← hct] at hshape
  have : (s.C_tilde_matrix.map List.length)[i]? = some (s.N + s.order - 1) := by
    rw [hshape, List.getElem?_map, hrowB]
    simp [hlenB]
  rw [List.getElem?_map] at this
  cases hc : s.C_tilde_matrix[i]? with
  | none => rw [hc] at this; simp at this
  | some rowC =>
    rw [hc] at this
    simp only [Option.map_some', Option.some.injEq] at this
    have hjl : j < rowC.length := by rw [this]; exact hj
    exact ⟨rowC.get ⟨j, hjl⟩, (matGet_ok_iff _ _ _ _).2
      ⟨rowC, hc, List.getElem?_eq_getElem hjl⟩⟩

/-- The entries of the matrix `operatorMatrix` returns, on an engine constructed with a
shape-preserving inversion and for a derivative order below `order`. -/
theorem operatorMatrix_entries (order : Nat) (knotX : List ℚ) (K : List (List Int))
    (inverse : List (List Dbl) → List (List Dbl)) (s : Spline)
    (hc : Spline.construct order knotX K inverse = .ok s) (hinv : ShapePreserving inverse)
    (derivativeOrder : Nat) (hd : derivativeOrder < s.order) :
    ∃ O, s.operatorMatrix derivativeOrder = .ok O ∧ O.length = s.N ∧
      ∀ alpha, alpha < s.N → ∃ x row, s.collocationX[alpha]? = some x ∧
        O[alpha]? = some row ∧ row.length = s.N ∧
        ∀ beta, beta < s.N → ∃ (cv dv : Nat → Dbl),
          (∀ i, i < s.N + s.order - 1 → matGet s.C_tilde_matrix i beta = .ok (cv i) ∧
            s.D_B derivativeOrder s.order i x = .ok (dv i)) ∧
          row[beta]? = some
            (Dbl.sum ((List.range (s.N + s.order - 1)).map (fun i => cv i * dv i))) := by
  obtain ⟨hr, -, -, -⟩ := construct_ready order knotX K inverse s hc
  have hn := hr.numKnots_eq
  have hsz := hr.size
  have hop := hr.order_pos
  have hcount : s.order + s.N - 1 = s.N + s.order - 1 := by omega
  -- every term of every sum can be evaluated
  have hterm : ∀ alpha beta i, alpha < s.N → beta < s.N → i < s.N + s.order - 1 →
      ∃ x c d, s.collocationX[alpha]? = some x ∧ matGet s.C_tilde_matrix i beta = .ok c ∧
        s.D_B derivativeOrder s.order i x = .ok d ∧
        (do
          let c ← matGet s.C_tilde_matrix i beta
          let x ← vecGet s.collocationX alpha
          let d ← s.D_B derivativeOrder s.order i x
          pure (c * d)) = Except.ok (c * d) := by
    intro alpha beta i ha hb hi
    have hal : alpha < s.collocationX.length := by rw [hr.coll_length]; exact ha
    have hx : s.collocationX[alpha]? = some (s.collocationX.get ⟨alpha, hal⟩) :=
      List.getElem?_eq_getElem hal
    obtain ⟨l1, l2⟩ := hr.coll_span alpha _ hx
    obtain ⟨c, hcv⟩ := construct_Ctilde_entry order knotX K inverse s hc hinv i beta hi
      (by omega)
    obtain ⟨d, hdv⟩ := D_B_total s hn _ l1 l2 derivativeOrder s.order i hd (by omega)
      (le_refl _) (by omega)
    refine ⟨_, c, d, hx, hcv, hdv, ?_⟩
    rw [hcv, (vecGet_ok_iff _ _ _).2 hx]
    simp only [bind, Except.bind]
    rw [hdv]
    rfl
  have hentry : ∀ alpha beta, alpha < s.N → beta < s.N → ∃ v,
      sumLoop (fun i => do
        let c ← matGet s.C_tilde_matrix i beta
        let x ← vecGet s.collocationX alpha
        let d ← s.D_B derivativeOrder s.order i x
        pure (c * d)) 0 (s.order + s.N - 1) (Dbl.fin 0) = .ok v := by
    intro alpha beta ha hb
    apply sumLoop_total
    intro j hj
    obtain ⟨x, c, d, -, -, -, e⟩ := hterm alpha beta (0 + j) ha hb (by omega)
    exact ⟨_, e⟩
  have hrowt : ∀ alpha, alpha < s.N → ∃ row, tabulate (fun beta =>
      sumLoop (fun i => do
        let c ← matGet s.C_tilde_matrix i beta
        let x ← vecGet s.collocationX alpha
        let d ← s.D_B derivativeOrder s.order i x
        pure (c * d)) 0 (s.order + s.N - 1) (Dbl.fin 0)) 0 s.N = .ok row := by
    intro alpha ha
    apply tabulate_total
    intro j hj
    exact hentry alpha (0 + j) ha (by omega)
  obtain ⟨O, hO⟩ : ∃ O, s.operatorMatrix derivativeOrder = .ok O := by
    unfold Spline.operatorMatrix
    apply tabulate_total
    intro j hj
    exact hrowt (0 + j) (by omega)
  refine ⟨O, hO, ?_⟩
  unfold Spline.operatorMatrix at hO
  obtain ⟨hOl, hOr⟩ := (tabulate_ok_iff _ _ _ _).1 hO
  refine ⟨hOl, fun alpha ha => ?_⟩
  obtain ⟨row, hrow, hrowv⟩ := hOr alpha ha
  rw [Nat.zero_add] at hrowv
  obtain ⟨hrl, hre⟩ := (tabulate_ok_iff _ _ _ _).1 hrowv
  obtain ⟨x, -, -, hx, -, -, -⟩ := hterm alpha 0 0 ha (by omega) (by omega)
  refine ⟨x, row, hx, hrow, hrl, fun beta hb => ?_⟩
  obtain ⟨v, hv, he⟩ := hre beta hb
  rw [Nat.zero_add] at he
  obtain ⟨g, hg, hsum⟩ := sumLoop_ok _ _ _ _ _ he
  refine ⟨fun i => match matGet s.C_tilde_matrix i beta with | .ok w => w | .error _ => Dbl.nan,
    fun i => match s.D_B derivativeOrder s.order i x with | .ok w => w | .error _ => Dbl.nan,
    ?_, ?_⟩
  · intro i hi
    obtain ⟨x', c, d, hx', hcv, hdv, -⟩ := hterm alpha beta i ha hb hi
    rw [hx] at hx'
    cases hx'
    dsimp only
    rw [hcv, hdv]
    exact ⟨rfl, rfl⟩
  · rw [hv, hsum, hcount]
    unfold Dbl.sum
    congr 2
    apply List.map_congr_left
    intro i hi
    obtain ⟨x', c, d, hx', hcv, hdv, e⟩ := hterm alpha beta i ha hb (List.mem_range.1 hi)
    rw [hx] at hx'
    cases hx'
    have := hg i (by rw [hcount]; exact List.mem_range.1 hi)
    rw [Nat.zero_add, e] at this
    dsimp only
    rw [hcv, hdv, Nat.zero_add]
    exact (Except.ok.inj this).symm


theorem demoInverse_shape : ShapePreserving demoInverse := by
  intro m
  unfold demoInverse
  split_ifs with h
  · rw [h]
    rfl
  · simp [List.map_map, Function.comp_def]

/-- Claim C10.  On an engine constructed with a shape-preserving inversion and for
`derivativeOrder < order`, `operatorMatrix(derivativeOrder)` returns a matrix `O` of `N`
rows of `N` entries with `O[alpha][beta]` the sum over `i = 0 .. N+order-2` of
`C_tilde[i][beta] * D_B(derivativeOrder, order, i, collocationX[alpha])`; only the columns
`beta < N` of `C_tilde` are read. -/
theorem C10_operator_matrix (order : Nat) (knotX : List ℚ) (K : List (List Int))
    (inverse : List (List Dbl) → List (List Dbl)) (s : Spline)
    (hc : Spline.construct order knotX K inverse = .ok s) (hinv : ShapePreserving inverse)
    (derivativeOrder : Nat) (hd : derivativeOrder < s.order) :
    ∃ O, s.operatorMatrix derivativeOrder = .ok O ∧ O.length = s.N ∧
      ∀ alpha, alpha < s.N → ∃ x row, s.collocationX[alpha]? = some x ∧
        O[alpha]? = some row ∧ row.length = s.N ∧
        ∀ beta, beta < s.N → ∃ (cv dv : Nat → Dbl),
          (∀ i, i < s.N + s.order - 1 → matGet s.C_tilde_matrix i beta = .ok (cv i) ∧
            s.D_B derivativeOrder s.order i x = .ok (dv i)) ∧
          row[beta]? = some
            (Dbl.sum ((List.range (s.N + s.order - 1)).map (fun i => cv i * dv i))) :=
  operatorMatrix_entries order knotX K inverse s hc hinv derivativeOrder hd

/-- Witness of C10: on the engine of `main.cpp`, `operatorMatrix(2)` returns the `3 × 3`
matrix of the second derivative. -/
theorem C10_operator_matrix_witness :
    demoEngine.operatorMatrix 2 = .ok
      [[.fin (-520 / 99), .fin (224 / 99), .fin (-32 / 99)],
       [.fin (224 / 99), .fin (-328 / 99), .fin (160 / 99)],
       [.fin (-32 / 99), .fin (160 / 99), .fin (-136 / 99)]] ∧
    ∃ O, demoEngine.operatorMatrix 2 = .ok O ∧ O.length = demoEngine.N ∧
      ∀ alpha, alpha < demoEngine.N → ∃ x row, demoEngine.collocationX[alpha]? = some x ∧
        O[alpha]? = some row ∧ row.length = demoEngine.N ∧
        ∀ beta, beta < demoEngine.N → ∃ (cv dv : Nat → Dbl),
          (∀ i, i < demoEngine.N + demoEngine.order - 1 →
            matGet demoEngine.C_tilde_matrix i beta = .ok (cv i) ∧
            demoEngine.D_B 2 demoEngine.order i x = .ok (dv i)) ∧
          row[beta]? = some (Dbl.sum
            ((List.range (demoEngine.N + demoEngine.order - 1)).map (fun i => cv i * dv i))) :=
  ⟨by decide!, C10_operator_matrix 3 demoKnots demoK demoInverse demoEngine
    demoEngine_constructed demoInverse_shape 2 (by decide!)⟩


/-! ## Claim C8: `D_B` is the derivative of `B` -/

/-- Between two consecutive knots the basis function is its polynomial piece. -/
theorem Bq_eq_BI (t : Nat → ℚ) (n : Nat) (hmono : ∀ i j, i < j → j < n → t i < t j)
    (j : Nat) (hj : j + 1 < n) (y : ℚ) (hy1 : t j < y) (hy2 : y < t (j + 1)) (k : Nat) :
    ∀ (i : Nat), i + k < n → Bq t k i y = BI t j k i y := by
  induction k using Nat.strong_induction_on with
  | _ k ih =>
    intro i hik
    rcases k with _ | _ | k
    · rfl
    · rw [Bq_one]
      simp only [BI]
      by_cases hij : i = j
      · subst hij
        simp [le_of_lt hy1, hy2]
      · rw [if_neg hij, if_neg]
        rintro ⟨h1, h2⟩
        rcases Nat.lt_or_gt_of_ne hij with h | h
        · have : t (i + 1) ≤ t j := by
            rcases Nat.lt_or_eq_of_le (Nat.succ_le_of_lt h) with h' | h'
            · exact le_of_lt (hmono _ _ h' (by omega))
            · rw [← h']
          exact absurd (lt_of_lt_of_le h2 this) (not_lt.2 (le_of_lt hy1))
        · have : t (j + 1) ≤ t i := by
            rcases Nat.lt_or_eq_of_le (Nat.succ_le_of_lt h) with h' | h'
            · exact le_of_lt (hmono _ _ h' (by omega))
            · rw [← h']
          exact absurd (lt_of_lt_of_le hy2 this) (not_lt.2 h1)
    · rw [Bq_blend t n hmono k i y hik]
      simp only [BI]
      rw [ih (k + 1) (by omega) i (by omega), ih (k + 1) (by omega) (i + 1) (by omega)]

theorem GI_succ (t : Nat → ℚ) (j p k i : Nat) (y : ℚ) :
    GI t j (p + 1) k i y = ((k - 1 : Nat) : ℚ) * (GI t j p (k - 1) i y / (t (k + i - 1) - t i)
      - GI t j p (k - 1) (i + 1) y / (t (k + i) - t (i + 1))) := rfl

theorem GI_blend_key (y t0 t1 A B d3 d4 d5 X0 X1 X2 : ℚ) (h1 : A - t0 ≠ 0)
    (h2 : B - t1 ≠ 0) (h3 : d3 ≠ 0) (h4 : d4 ≠ 0) (h5 : d5 ≠ 0) :
    ((y - t0) / d3 * X0 + (A - y) / d4 * X1) / (A - t0)
      - ((y - t1) / d4 * X1 + (B - y) / d5 * X2) / (B - t1)
    = (y - t0) / (A - t0) * (X0 / d3 - X1 / d4) + (B - y) / (B - t1) * (X1 / d4 - X2 / d5) := by
  field_simp
  ring

/-- The recursion of Umar's Equation (4) for the derivatives of the pieces. -/
theorem GI_blend (t : Nat → ℚ) (n : Nat) (hmono : ∀ i j, i < j → j < n → t i < t j)
    (j : Nat) (y : ℚ) (p : Nat) : ∀ (k i : Nat), p + 2 ≤ k → i + k < n →
    ((k : ℚ) - p - 1) * GI t j p k i y =
      ((k : ℚ) - 1) * ((y - t i) / (t (k + i - 1) - t i) * GI t j p (k - 1) i y
        + (t (k + i) - y) / (t (k + i) - t (i + 1)) * GI t j p (k - 1) (i + 1) y) := by
  induction p with
  | zero =>
    intro k i hk hik
    obtain ⟨k, rfl⟩ : ∃ k', k = k' + 2 := ⟨k - 2, by omega⟩
    have e1 : i + (k + 2) = k + 2 + i := by omega
    have e2 : k + 2 - 1 = k + 1 := by omega
    simp only [GI, BI, e1, e2]
    push_cast
    ring
  | succ p ih =>
    intro k i hk hik
    obtain ⟨k, rfl⟩ : ∃ k', k = k' + 3 := ⟨k - 3, by omega⟩
    have h1 := ih (k + 2) i (by omega) (by omega)
    have h2 := ih (k + 2) (i + 1) (by omega) (by omega)
    have e1 : k + 3 - 1 = k + 2 := by omega
    have e2 : k + 2 - 1 = k + 1 := by omega
    have e3 : k + 2 + (i + 1) - 1 = k + 2 + i := by omega
    have e4 : k + 2 + (i + 1) = k + 3 + i := by omega
    have e5 : k + 3 + i - 1 = k + 2 + i := by omega
    have e6 : i + 1 + 1 = i + 2 := by omega
    rw [e2, e3, e4, e6] at h2
    rw [e2] at h1
    rw [GI_succ t j p (k + 3) i, e1, GI_succ t j p (k + 2) i, GI_succ t j p (k + 2) (i + 1)]
    rw [e2, e3, e4, e5, e6]
    have d1 : t (k + 2 + i) - t i ≠ 0 :=
      sub_ne_zero.2 (ne_of_gt (hmono _ _ (by omega) (by omega)))
    have d2 : t (k + 3 + i) - t (i + 1) ≠ 0 :=
      sub_ne_zero.2 (ne_of_gt (hmono _ _ (by omega) (by omega)))
    have d3 : t (k + 2 + i - 1) - t i ≠ 0 :=
      sub_ne_zero.2 (ne_of_gt (hmono _ _ (by omega) (by omega)))
    have d4 : t (k + 2 + i) - t (i + 1) ≠ 0 :=
      sub_ne_zero.2 (ne_of_gt (hmono _ _ (by omega) (by omega)))
    have d5 : t (k + 3 + i) - t (i + 2) ≠ 0 :=
      sub_ne_zero.2 (ne_of_gt (hmono _ _ (by omega) (by omega)))
    have key := GI_blend_key y (t i) (t (i + 1)) (t (k + 2 + i)) (t (k + 3 + i))
      (t (k + 2 + i - 1) - t i) (t (k + 2 + i) - t (i + 1)) (t (k + 3 + i) - t (i + 2))
      (GI t j p (k + 1) i y) (GI t j p (k + 1) (i + 1) y) (GI t j p (k + 1) (i + 2) y)
      d1 d2 d3 d4 d5
    have hm3 : ((k + 3 : Nat) : ℚ) = ((k + 2 : Nat) : ℚ) + 1 := by push_cast; ring
    have hm1 : ((k + 1 : Nat) : ℚ) = ((k + 2 : Nat) : ℚ) - 1 := by push_cast; ring
    have hp1 : ((p + 1 : Nat) : ℚ) = (p : ℚ) + 1 := by push_cast; ring
    rw [hm3, hm1, hp1]
    calc (((k + 2 : Nat) : ℚ) + 1 - ((p : ℚ) + 1) - 1)
          * (((k + 2 : Nat) : ℚ) * (GI t j p (k + 2) i y / (t (k + 2 + i) - t i)
            - GI t j p (k + 2) (i + 1) y / (t (k + 3 + i) - t (i + 1))))
        = ((k + 2 : Nat) : ℚ)
          * (((((k + 2 : Nat) : ℚ) - p - 1) * GI t j p (k + 2) i y) / (t (k + 2 + i) - t i)
            - ((((k + 2 : Nat) : ℚ) - p - 1) * GI t j p (k + 2) (i + 1) y)
              / (t (k + 3 + i) - t (i + 1))) := by ring
      _ = ((k + 2 : Nat) : ℚ) * ((((k + 2 : Nat) : ℚ) - 1)
          * (((y - t i) / (t (k + 2 + i - 1) - t i) * GI t j p (k + 1) i y
              + (t (k + 2 + i) - y) / (t (k + 2 + i) - t (i + 1)) * GI t j p (k + 1) (i + 1) y)
              / (t (k + 2 + i) - t i)
            - ((y - t (i + 1)) / (t (k + 2 + i) - t (i + 1)) * GI t j p (k + 1) (i + 1) y
              + (t (k + 3 + i) - y) / (t (k + 3 + i) - t (i + 2)) * GI t j p (k + 1) (i + 2) y)
              / (t (k + 3 + i) - t (i + 1)))) := by rw [h1, h2]; ring
      _ = _ := by rw [key]; ring


theorem GI_level_zero (t : Nat → ℚ) (j : Nat) (p i : Nat) (y : ℚ) : GI t j p 0 i y = 0 := by
  cases p with
  | zero => rfl
  | succ p => rw [GI_succ]; simp

theorem GI_zero (t : Nat → ℚ) (j k i : Nat) (y : ℚ) : GI t j 0 k i y = BI t j k i y := rfl

/-- The derivative of a piece is given by the differentiation formula. -/
theorem BI_hasDerivAt (t : Nat → ℚ) (n : Nat) (hmono : ∀ i j, i < j → j < n → t i < t j)
    (j : Nat) (y : ℚ) (k : Nat) : ∀ (i : Nat), i + k < n →
    HasDerivAt (BI t j k i) (GI t j 1 k i y) y := by
  induction k using Nat.strong_induction_on with
  | _ k ih =>
    intro i hik
    rcases k with _ | _ | k
    · have e : GI t j 1 0 i y = 0 := GI_level_zero t j 1 i y
      rw [e]
      exact hasDerivAt_const y (0 : ℚ)
    · have e : GI t j 1 1 i y = 0 := by rw [GI_succ]; simp
      rw [e]
      exact hasDerivAt_const y (if i = j then (1 : ℚ) else 0)
    · have f1 := ih (k + 1) (by omega) i (by omega)
      have f2 := ih (k + 1) (by omega) (i + 1) (by omega)
      have w1 : HasDerivAt (fun y => (y - t i) / (t (k + 2 + i - 1) - t i))
          (1 / (t (k + 2 + i - 1) - t i)) y :=
        ((hasDerivAt_id y).sub_const (t i)).div_const _
      have w2 : HasDerivAt (fun y => (t (i + (k + 2)) - y) / (t (i + (k + 2)) - t (i + 1)))
          (-1 / (t (i + (k + 2)) - t (i + 1))) y :=
        ((hasDerivAt_id y).const_sub (t (i + (k + 2)))).div_const _
      have hsum := (f1.mul w1).add (f2.mul w2)
      refine HasDerivAt.congr_deriv hsum ?_
      have e1 : i + (k + 2) = k + 2 + i := by omega
      have e2 : k + 2 - 1 = k + 1 := by omega
      rw [GI_succ t j 0 (k + 2) i, e1, e2]
      simp only [GI_zero]
      have d1 : t (k + 2 + i - 1) - t i ≠ 0 :=
        sub_ne_zero.2 (ne_of_gt (hmono _ _ (by omega) (by omega)))
      have d2 : t (k + 2 + i) - t (i + 1) ≠ 0 :=
        sub_ne_zero.2 (ne_of_gt (hmono _ _ (by omega) (by omega)))
      -- the blend of the first derivatives of order `k + 1`
      have hblend : (y - t i) / (t (k + 2 + i - 1) - t i) * GI t j 1 (k + 1) i y
          + (t (k + 2 + i) - y) / (t (k + 2 + i) - t (i + 1)) * GI t j 1 (k + 1) (i + 1) y
          = (k : ℚ) * (BI t j (k + 1) i y / (t (k + 2 + i - 1) - t i)
            - BI t j (k + 1) (i + 1) y / (t (k + 2 + i) - t (i + 1))) := by
        rcases k with _ | k
        · have z1 : GI t j 1 1 i y = 0 := by rw [GI_succ]; simp
          have z2 : GI t j 1 1 (i + 1) y = 0 := by rw [GI_succ]; simp
          simp [z1, z2]
        · have hb := GI_blend t n hmono j y 1 (k + 1 + 2) i (by omega) (by omega)
          rw [GI_succ t j 0 (k + 1 + 2) i] at hb
          have e3 : k + 1 + 2 - 1 = k + 1 + 1 := by omega
          rw [e3] at hb
          simp only [GI_zero] at hb
          have c0 : ((k + 1 + 1 : Nat) : ℚ) ≠ 0 := by positivity
          have hb' : ((k + 1 + 1 : Nat) : ℚ) * (((k + 1 : Nat) : ℚ)
              * (BI t j (k + 1 + 1) i y / (t (k + 1 + 2 + i - 1) - t i)
                - BI t j (k + 1 + 1) (i + 1) y / (t (k + 1 + 2 + i) - t (i + 1))))
              = ((k + 1 + 1 : Nat) : ℚ)
                * ((y - t i) / (t (k + 1 + 2 + i - 1) - t i) * GI t j 1 (k + 1 + 1) i y
                  + (t (k + 1 + 2 + i) - y) / (t (k + 1 + 2 + i) - t (i + 1))
                    * GI t j 1 (k + 1 + 1) (i + 1) y) := by
            have hcast : ((k + 1 + 2 : Nat) : ℚ) - 1 = ((k + 1 + 1 : Nat) : ℚ) := by
              push_cast; ring
            rw [hcast] at hb
            rw [← hb]
            push_cast
            ring
          exact (mul_left_cancel₀ c0 hb').symm
      have hgoal : GI t j 1 (k + 1) i y * ((y - t i) / (t (k + 2 + i - 1) - t i))
            + BI t j (k + 1) i y * (1 / (t (k + 2 + i - 1) - t i))
            + (GI t j 1 (k + 1) (i + 1) y
                * ((t (k + 2 + i) - y) / (t (k + 2 + i) - t (i + 1)))
              + BI t j (k + 1) (i + 1) y * (-1 / (t (k + 2 + i) - t (i + 1))))
          = ((y - t i) / (t (k + 2 + i - 1) - t i) * GI t j 1 (k + 1) i y
              + (t (k + 2 + i) - y) / (t (k + 2 + i) - t (i + 1)) * GI t j 1 (k + 1) (i + 1) y)
            + (BI t j (k + 1) i y / (t (k + 2 + i - 1) - t i)
              - BI t j (k + 1) (i + 1) y / (t (k + 2 + i) - t (i + 1))) := by ring
      rw [hgoal, hblend]
      push_cast
      ring

theorem GI_hasDerivAt (t : Nat → ℚ) (n : Nat) (hmono : ∀ i j, i < j → j < n → t i < t j)
    (j : Nat) (y : ℚ) (p : Nat) : ∀ (k i : Nat), i + k < n →
    HasDerivAt (GI t j p k i) (GI t j (p + 1) k i y) y := by
  induction p with
  | zero => intro k i hik; exact BI_hasDerivAt t n hmono j y k i hik
  | succ p ih =>
    intro k i hik
    rcases k with _ | k
    · have e : GI t j (p + 1) 0 i = fun _ => (0 : ℚ) := by
        funext z; exact GI_level_zero t j (p + 1) i z
      rw [e, GI_level_zero]
      exact hasDerivAt_const y (0 : ℚ)
    · have f1 := ih k i (by omega)
      have f2 := ih k (i + 1) (by omega)
      exact ((f1.div_const (t (k + 1 + i - 1) - t i)).sub
        (f2.div_const (t (k + 1 + i) - t (i + 1)))).const_mul (((k + 1 - 1 : Nat) : ℚ))

/-- The iterated derivatives of a piece. -/
theorem iteratedDeriv_BI (t : Nat → ℚ) (n : Nat) (hmono : ∀ i j, i < j → j < n → t i < t j)
    (j k i : Nat) (hik : i + k < n) (p : Nat) :
    iteratedDeriv p (BI t j k i) = GI t j p k i := by
  induction p with
  | zero => rw [iteratedDeriv_zero]; rfl
  | succ p ih =>
    funext y
    rw [iteratedDeriv_succ, ih]
    exact (GI_hasDerivAt t n hmono j y p k i hik).deriv


/-- Between two consecutive knots `C(k,i,x)` is the derivative of order `k - 1` of the
piece of `B(k,i)`. -/
theorem C_eq_GI (s : Spline) (hn : s.numKnots = s.knotX.length) (hs : s.StrictKnots)
    (ho : 1 ≤ s.order) (j : Nat) (hj : j + 1 < s.knotX.length) (x : ℚ)
    (hx1 : s.t j < x) (hx2 : x < s.t (j + 1)) (k : Nat) :
    ∀ (i : Nat), 1 ≤ k → i < s.numKnots - k →
      s.C k i x = .ok (Dbl.fin (GI s.t j (k - 1) k i x)) := by
  have hlo : s.t 0 ≤ x := le_trans (hs.le_of_le 0 j (by omega) (by omega)) (le_of_lt hx1)
  have hhi : x ≤ s.t (s.knotX.length - 1) :=
    le_trans (le_of_lt hx2) (hs.le_of_le _ _ (by omega) (by omega))
  induction k using Nat.strong_induction_on with
  | _ k ih =>
    intro i hk1 hi
    rcases k with _ | _ | k
    · omega
    · rw [C_unfold]
      simp only [ge_iff_le, le_refl, not_true_eq_false, if_false, Nat.zero_add]
      rw [B_eq_Bq s hn hs x hlo hhi 1 i (le_refl _) ho hi,
        Bq_eq_BI s.t s.knotX.length hs.mono j hj x hx1 hx2 1 i (by omega)]
      rfl
    · have d1 : s.t (k + 2 + i - 1) - s.t i ≠ 0 :=
        sub_ne_zero.2 (ne_of_gt (hs.lt _ _ (by omega) (by omega)))
      have d2 : s.t (k + 2 + i) - s.t (i + 1) ≠ 0 :=
        sub_ne_zero.2 (ne_of_gt (hs.lt _ _ (by omega) (by omega)))
      rw [C_unfold]
      simp only [ge_iff_le, hk1, not_true_eq_false, if_false, bind, Except.bind]
      rw [ih (k + 1) (by omega) i (by omega) (by omega),
        ih (k + 1) (by omega) (i + 1) (by omega) (by omega),
        s.knot_eq (k + 2 + i - 1) (by omega), s.knot_eq i (by omega),
        s.knot_eq (k + 2 + i) (by omega), s.knot_eq (i + 1) (by omega)]
      simp only [pure, Except.pure, Dbl.ofNat, Dbl.fin_sub, Dbl.fin_div _ _ d1,
        Dbl.fin_div _ _ d2, Dbl.fin_mul]
      rfl

/-- Between two consecutive knots `D_B(p,k,i,x)` is the derivative of order `p` of the
piece of `B(k,i)`. -/
theorem D_B_eq_GI (s : Spline) (hn : s.numKnots = s.knotX.length) (hs : s.StrictKnots)
    (j : Nat) (hj : j + 1 < s.knotX.length) (x : ℚ)
    (hx1 : s.t j < x) (hx2 : x < s.t (j + 1)) (p k : Nat) :
    ∀ (i : Nat), p < s.order → p + 1 ≤ k → k ≤ s.order → i < s.numKnots - k →
      s.D_B p k i x = .ok (Dbl.fin (GI s.t j p k i x)) := by
  have hlo : s.t 0 ≤ x := le_trans (hs.le_of_le 0 j (by omega) (by omega)) (le_of_lt hx1)
  have hhi : x ≤ s.t (s.knotX.length - 1) :=
    le_trans (le_of_lt hx2) (hs.le_of_le _ _ (by omega) (by omega))
  induction k with
  | zero => intro i _ h; omega
  | succ k ih =>
    intro i hp hk1 hk2 hi
    have hpos : 0 < s.knotX.length := by omega
    rw [D_B_unfold, s.front_eq hpos, s.back_eq hpos]
    simp only [hp, hk1, hk2, hi, hlo, hhi, and_self, not_true_eq_false, if_false, bind,
      Except.bind]
    by_cases hge : k + 1 ≥ p + 2
    · have d1 : s.t (k + 1 + i - 1) - s.t i ≠ 0 :=
        sub_ne_zero.2 (ne_of_gt (hs.lt _ _ (by omega) (by omega)))
      have d2 : s.t (k + 1 + i) - s.t (i + 1) ≠ 0 :=
        sub_ne_zero.2 (ne_of_gt (hs.lt _ _ (by omega) (by omega)))
      have c1 : ((k + 1 - p - 1 : Nat) : ℚ) ≠ 0 := by
        have : 0 < k + 1 - p - 1 := by omega
        exact_mod_cast (ne_of_gt this)
      rw [if_pos hge, ih i hp (by omega) (by omega) (by omega),
        ih (i + 1) hp (by omega) (by omega) (by omega), s.knot_eq i (by omega),
        s.knot_eq (k + 1 + i - 1) (by omega), s.knot_eq (k + 1 + i) (by omega),
        s.knot_eq (i + 1) (by omega)]
      simp only [pure, Except.pure, Dbl.ofNat, Dbl.fin_sub, Dbl.fin_div _ _ d1,
        Dbl.fin_div _ _ d2, Dbl.fin_div _ _ c1, Dbl.fin_mul, Dbl.fin_add]
      have hb := GI_blend s.t s.knotX.length hs.mono j x p (k + 1) i (by omega) (by omega)
      have e1 : k + 1 - 1 = k := by omega
      rw [e1] at hb ⊢
      have hc1 : ((k + 1 - p - 1 : Nat) : ℚ) = ((k + 1 : Nat) : ℚ) - p - 1 := by
        have h1 : p + 1 ≤ k + 1 := by omega
        have e : k + 1 - p - 1 = k + 1 - (p + 1) := by omega
        rw [e, Nat.cast_sub h1]
        push_cast
        ring
      have hk : (k : ℚ) = ((k + 1 : Nat) : ℚ) - 1 := by push_cast; ring
      rw [hc1] at c1 ⊢
      congr 2
      rw [div_mul_eq_mul_div, div_eq_iff c1, mul_comm (GI s.t j p (k + 1) i x), hb, hk]
    · have e : k + 1 = p + 1 := by omega
      rw [if_neg hge, if_neg (not_not.2 e)]
      have e2 : p = k + 1 - 1 := by omega
      rw [C_eq_GI s hn hs (by omega) j hj x hx1 hx2 (k + 1) i (by omega) hi, ← e2]

/-- Claim C8, amended to exact arithmetic.  In exact arithmetic, on strictly increasing
knots, for `0 ≤ p < order`, `p + 1 ≤ k ≤ order`, `i < numKnots - k` and `x` strictly between
the consecutive knots `knot[j]` and `knot[j+1]`, `D_B(p,k,i,x)` returns a finite value, and
this value is the `p`-th derivative at `y = x` of the function `y ↦ B(k,i,y)`. -/
theorem C8_derivative (s : Spline) (hn : s.numKnots = s.knotX.length) (hs : s.StrictKnots)
    (p k i j : Nat) (x : ℚ) (hp : p < s.order) (hk1 : p + 1 ≤ k) (hk2 : k ≤ s.order)
    (hi : i < s.numKnots - k) (hj : j + 1 < s.knotX.length)
    (hx1 : s.t j < x) (hx2 : x < s.t (j + 1)) :
    ∃ d : ℚ, s.D_B p k i x = .ok (Dbl.fin d) ∧
      d = iteratedDeriv p (fun y => resultValue (s.B k i y)) x := by
  refine ⟨_, D_B_eq_GI s hn hs j hj x hx1 hx2 p k i hp hk1 hk2 hi, ?_⟩
  rw [← iteratedDeriv_BI s.t s.knotX.length hs.mono j k i (by omega) p]
  apply Filter.EventuallyEq.iteratedDeriv_eq
  apply Filter.eventuallyEq_of_mem (Ioo_mem_nhds hx1 hx2)
  intro y hy
  have hlo : s.t 0 ≤ y := le_trans (hs.le_of_le 0 j (by omega) (by omega)) (le_of_lt hy.1)
  have hhi : y ≤ s.t (s.knotX.length - 1) :=
    le_trans (le_of_lt hy.2) (hs.le_of_le _ _ (by omega) (by omega))
  show BI s.t j k i y = resultValue (s.B k i y)
  rw [B_eq_Bq s hn hs y hlo hhi k i (by omega) hk2 hi,
    Bq_eq_BI s.t s.knotX.length hs.mono j hj y hy.1 hy.2 k i (by omega)]
  rfl

/-- Witness of C8: on the engine of `main.cpp`, `D_B(2,3,1,5/2) = -2` is the second
derivative of `B(3,1,·)` at `5/2`, between `knot[2] = 2` and `knot[3] = 3`. -/
theorem C8_derivative_witness :
    demoEngine.D_B 2 3 1 (5 / 2) = .ok (Dbl.fin (-2)) ∧
    ∃ d : ℚ, demoEngine.D_B 2 3 1 (5 / 2) = .ok (Dbl.fin d) ∧
      d = iteratedDeriv 2 (fun y => resultValue (demoEngine.B 3 1 y)) (5 / 2) :=
  ⟨by decide!, C8_derivative demoEngine (by decide!) demoEngine_strict 2 3 1 2 (5 / 2)
    (by decide!) (by decide) (by decide!) (by decide!) (by decide!) (by decide!)
    (by decide!)⟩


/-! ## Claim C11: shapes and stacking of the assembled matrices -/

/-- The rows of the matrices of an accepted input all have `N + order - 1` entries. -/
theorem construct_row_lengths (order : Nat) (knotX : List ℚ) (K : List (List Int))
    (inverse : List (List Dbl) → List (List Dbl)) (s : Spline)
    (hc : Spline.construct order knotX K inverse = .ok s) :
    s.B_matrix.length = s.N ∧ (∀ row ∈ s.B_matrix, row.length = s.N + s.order - 1) ∧
    s.beta_matrix.length = s.order - 1 ∧
    (∀ row ∈ s.beta_matrix, row.length = s.N + s.order - 1) := by
  obtain ⟨-, -, hBl, hB⟩ := construct_ready order knotX K inverse s hc
  obtain ⟨hbl, hb⟩ := construct_beta order knotX K inverse s hc
  refine ⟨hBl, ?_, hbl, ?_⟩
  · intro row hrow
    obtain ⟨a, ha, hget⟩ := List.getElem_of_mem hrow
    obtain ⟨row', x, hrow', -, hlen, -⟩ := hB a (by rw [← hBl]; exact ha)
    rw [List.getElem?_eq_getElem ha, hget] at hrow'
    cases hrow'
    exact hlen
  · intro row hrow
    obtain ⟨r, hr, hget⟩ := List.getElem_of_mem hrow
    obtain ⟨row', hrow', hlen, -⟩ := hb r (by rw [← hbl]; exact hr)
    rw [List.getElem?_eq_getElem hr, hget] at hrow'
    cases hrow'
    rw [hlen]
    omega

/-- Claim C11.  For every accepted input, `B_matrix` has `N` rows of `N + order - 1`
entries and its entry `(alpha, i)` is the value the memoized `B(order, i, alpha)` returns
on the engine; `beta_matrix` has `order - 1` rows of `N + order - 1` entries; `B_tilde` is
`B_matrix` stacked above `beta_matrix`, square of size `N + order - 1`, with the rows of
`B_matrix` at `0 .. N-1` and the rows of `beta_matrix` at `N .. N+order-2`. -/
theorem C11_shapes_and_stacking (order : Nat) (knotX : List ℚ) (K : List (List Int))
    (inverse : List (List Dbl) → List (List Dbl)) (s : Spline)
    (hc : Spline.construct order knotX K inverse = .ok s) :
    s.B_matrix.length = s.N ∧ (∀ row ∈ s.B_matrix, row.length = s.N + s.order - 1) ∧
    (∀ (alpha i : Nat), alpha < s.N → i < s.N + s.order - 1 →
      ∃ v s', s.B_alpha s.order i alpha = .ok (v, s') ∧ matGet s.B_matrix alpha i = .ok v) ∧
    s.beta_matrix.length = s.order - 1 ∧
    (∀ row ∈ s.beta_matrix, row.length = s.N + s.order - 1) ∧
    s.B_tilde_matrix = s.B_matrix ++ s.beta_matrix ∧
    s.B_tilde_matrix.length = s.N + s.order - 1 ∧
    (∀ row ∈ s.B_tilde_matrix, row.length = s.N + s.order - 1) ∧
    (∀ r, r < s.N → s.B_tilde_matrix[r]? = s.B_matrix[r]?) ∧
    (∀ r, r < s.order - 1 → s.B_tilde_matrix[s.N + r]? = s.beta_matrix[r]?) := by
  obtain ⟨hBl, hBr, hbl, hbr⟩ := construct_row_lengths order knotX K inverse s hc
  obtain ⟨hr, -, -, hB⟩ := construct_ready order knotX K inverse s hc
  obtain ⟨hbt, -⟩ := construct_matrices order knotX K inverse s hc
  have hop := hr.order_pos
  have hsz := hr.size
  refine ⟨hBl, hBr, ?_, hbl, hbr, hbt, ?_, ?_, ?_, ?_⟩
  · intro alpha i ha hi
    obtain ⟨row, x, hrow, hx, -, hval⟩ := hB alpha ha
    obtain ⟨s', hb, -, -⟩ := B_alpha_correct s.order s i alpha x hr hop (le_refl _)
      (by omega) ha hx
    exact ⟨_, s', hb, (matGet_ok_iff _ _ _ _).2 ⟨row, hrow, hval i hi⟩⟩
  · rw [hbt, List.length_append, hBl, hbl]
    omega
  · intro row hrow
    rw [hbt, List.mem_append] at hrow
    rcases hrow with h | h
    · exact hBr row h
    · exact hbr row h
  · intro r hr'
    rw [hbt, List.getElem?_append_left (by rw [hBl]; exact hr')]
  · intro r _
    rw [hbt, List.getElem?_append_right (by rw [hBl]; omega), hBl]
    congr 1
    omega

/-- Witness of C11: the matrices of the engine of `main.cpp`. -/
theorem C11_shapes_and_stacking_witness :
    demoEngine.B_tilde_matrix = demoBtilde ∧
    demoEngine.B_matrix.length = 3 ∧ demoEngine.beta_matrix.length = 2 ∧
    (∀ (alpha i : Nat), alpha < demoEngine.N → i < demoEngine.N + demoEngine.order - 1 →
      ∃ v s', demoEngine.B_alpha demoEngine.order i alpha = .ok (v, s') ∧
        matGet demoEngine.B_matrix alpha i = .ok v) :=
  ⟨by decide!, by decide!, by decide!,
    (C11_shapes_and_stacking 3 demoKnots demoK demoInverse demoEngine
      demoEngine_constructed).2.2.1⟩


/-! ## Claim C15: the contract of `D_B`, and the contract of `B` in exact arithmetic -/

theorem B_rejects (s : Spline) (hpos : 0 < s.knotX.length) (k i : Nat) (x : ℚ)
    (h : k = 0 ∨ s.order < k ∨ s.numKnots - k ≤ i ∨ x < s.t 0 ∨
      s.t (s.knotX.length - 1) < x) :
    s.B k i x = .error .assertion := by
  rw [B_unfold]
  by_cases h1 : 1 ≤ k ∧ k ≤ s.order
  · rw [if_neg (not_not.2 h1)]
    by_cases h2 : i < s.numKnots - k
    · have h3 : ¬ (s.t 0 ≤ x ∧ x ≤ s.t (s.knotX.length - 1)) := by
        rintro ⟨h4, h5⟩
        rcases h with h | h | h | h | h
        · omega
        · omega
        · omega
        · exact absurd h4 (not_le.2 h)
        · exact absurd h5 (not_le.2 h)
      rw [if_neg (not_not.2 h2), s.front_eq hpos, s.back_eq hpos]
      exact if_pos h3
    · rw [if_pos h2]
  · rw [if_pos h1]

theorem D_B_rejects (s : Spline) (hpos : 0 < s.knotX.length) (p k i : Nat) (x : ℚ)
    (h : s.order ≤ p ∨ k < p + 1 ∨ s.order < k ∨ s.numKnots - k ≤ i ∨ x < s.t 0 ∨
      s.t (s.knotX.length - 1) < x) :
    s.D_B p k i x = .error .assertion := by
  rw [D_B_unfold]
  by_cases h0 : p < s.order
  · rw [if_neg (not_not.2 h0)]
    by_cases h1 : p + 1 ≤ k ∧ k ≤ s.order
    · rw [if_neg (not_not.2 h1)]
      by_cases h2 : i < s.numKnots - k
      · have h3 : ¬ (s.t 0 ≤ x ∧ x ≤ s.t (s.knotX.length - 1)) := by
          rintro ⟨h4, h5⟩
          rcases h with h | h | h | h | h | h
          · omega
          · omega
          · omega
          · omega
          · exact absurd h4 (not_le.2 h)
          · exact absurd h5 (not_le.2 h)
        rw [if_neg (not_not.2 h2), s.front_eq hpos, s.back_eq hpos]
        exact if_pos h3
      · rw [if_pos h2]
    · rw [if_pos h1]
  · rw [if_pos h0]

theorem matGet_error {α : Type} (m : List (List α)) (r c : Nat) (e : Violation)
    (h : matGet m r c = .error e) : e = .assertion := by
  unfold matGet at h
  split at h
  · cases h
    rfl
  · split at h
    · cases h
    · cases h
      rfl

theorem sumLoop_error_first (f : Nat → Except Violation Dbl) (i n : Nat) (acc : Dbl)
    (e : Violation) (hf : f i = .error e) (hn : 0 < n) : sumLoop f i n acc = .error e := by
  obtain ⟨m, rfl⟩ : ∃ m, n = m + 1 := ⟨n - 1, by omega⟩
  simp only [sumLoop, hf, bind, Except.bind]

theorem tabulate_error_first {α : Type} (f : Nat → Except Violation α) (i n : Nat)
    (e : Violation) (hf : f i = .error e) (hn : 0 < n) : tabulate f i n = .error e := by
  obtain ⟨m, rfl⟩ : ∃ m, n = m + 1 := ⟨n - 1, by omega⟩
  simp only [tabulate, hf, bind, Except.bind]

theorem operatorMatrix_rejects (s : Spline) (hpos : 0 < s.knotX.length) (hN : 0 < s.N)
    (ho : 1 ≤ s.order) (hcl : s.collocationX.length = s.N) (d : Nat) (hd : s.order ≤ d) : s.operatorMatrix d = .error .assertion := by
  unfold Spline.operatorMatrix
  apply tabulate_error_first _ _ _ _ _ hN
  apply tabulate_error_first _ _ _ _ _ hN
  apply sumLoop_error_first _ _ _ _ _ _ (by omega)
  have hD : ∀ x, s.D_B d s.order 0 x = .error .assertion :=
    fun x => D_B_rejects s hpos d s.order 0 x (Or.inl hd)
  cases hm : matGet s.C_tilde_matrix 0 0 with
  | error e =>
    rw [matGet_error _ _ _ _ hm]
    rfl
  | ok c =>
    cases hx : vecGet s.collocationX 0 with
    | error e =>
      exfalso
      unfold vecGet at hx
      split at hx
      · cases hx
      · rename_i hnone
        rw [List.getElem?_eq_none_iff] at hnone
        omega
    | ok x =>
      simp only [bind, Except.bind, hD]

/-- Claim C15.  On a constructed engine `D_B(p,k,i,x)` is rejected by an assertion when
`p ≥ order`, `k < p + 1`, `k > order`, `i ≥ numKnots - k`, or `x` lies outside
`[knot.front(), knot.back()]`; when none of these holds the call returns a value, so no
violation is met in the recursive calls to `D_B`, `C` and `B`; and `operatorMatrix` is
rejected for every derivative order that is at least `order`. -/
theorem C15_D_B_contract (order : Nat) (knotX : List ℚ) (K : List (List Int))
    (inverse : List (List Dbl) → List (List Dbl)) (s : Spline)
    (hc : Spline.construct order knotX K inverse = .ok s) (p k i : Nat) (x : ℚ) :
    ((s.order ≤ p ∨ k < p + 1 ∨ s.order < k ∨ s.numKnots - k ≤ i ∨ x < s.t 0 ∨
        s.t (s.knotX.length - 1) < x) → s.D_B p k i x = .error .assertion) ∧
    (¬ (s.order ≤ p ∨ k < p + 1 ∨ s.order < k ∨ s.numKnots - k ≤ i ∨ x < s.t 0 ∨
        s.t (s.knotX.length - 1) < x) → ∃ v, s.D_B p k i x = .ok v) ∧
    (∀ derivativeOrder, s.order ≤ derivativeOrder →
      s.operatorMatrix derivativeOrder = .error .assertion) := by
  obtain ⟨-, h3, -, h2o, -, ho, hk, hn, -, -, -, hN, hcl, -⟩ :=
    construct_fields order knotX K inverse s hc
  have hpos : 0 < s.knotX.length := by rw [hk]; omega
  refine ⟨D_B_rejects s hpos p k i x, ?_, ?_⟩
  · intro h
    simp only [not_or, not_lt, not_le] at h
    obtain ⟨h0, h1, h2, h4, h5, h6⟩ := h
    exact D_B_total s (by rw [hn, hk]) x h5 h6 p k i h0 h1 h2 h4
  · intro d hd
    exact operatorMatrix_rejects s hpos (by omega) (by omega) hcl d hd

/-- Witness of C15 on the engine of `main.cpp`: the call `D_B(2, 3, 8, 10.0)` of the demo
fails the index-range check `i < numKnots - k`, and `operatorMatrix(3)` is rejected. -/
theorem C15_D_B_contract_witness :
    (2 < demoEngine.order ∧ 2 + 1 ≤ 3 ∧ 3 ≤ demoEngine.order ∧
      ¬ (8 < demoEngine.numKnots - 3)) ∧
    demoEngine.D_B 2 3 8 10 = .error .assertion ∧
    demoEngine.operatorMatrix 3 = .error .assertion :=
  ⟨by decide!,
    (C15_D_B_contract 3 demoKnots demoK demoInverse demoEngine demoEngine_constructed
      2 3 8 10).1 (by decide!),
    (C15_D_B_contract 3 demoKnots demoK demoInverse demoEngine demoEngine_constructed
      0 0 0 0).2.2 3 (by decide!)⟩


/-! ## Claim C16: the recurrences of `D_B` and `C` -/

theorem quinticEngine_constructed :
    Spline.construct 5 quinticKnots quinticK demoInverse = .ok quinticEngine := by decide!

theorem D_B_base (s : Spline) (hn : s.numKnots = s.knotX.length) (x : ℚ)
    (hlo : s.t 0 ≤ x) (hhi : x ≤ s.t (s.knotX.length - 1)) (p i : Nat)
    (hk2 : p + 1 ≤ s.order) (hi : i < s.numKnots - (p + 1)) :
    s.D_B p (p + 1) i x = s.C (p + 1) i x := by
  have hpos : 0 < s.knotX.length := by omega
  have hp : p < s.order := by omega
  rw [D_B_unfold, s.front_eq hpos, s.back_eq hpos]
  simp only [hp, hk2, hi, hlo, hhi, le_refl, and_self, not_true_eq_false, if_false, bind,
    Except.bind]
  rw [if_neg (by omega)]

theorem D_B_step (s : Spline) (hn : s.numKnots = s.knotX.length) (x : ℚ)
    (hlo : s.t 0 ≤ x) (hhi : x ≤ s.t (s.knotX.length - 1)) (p k i : Nat)
    (hk1 : p + 2 ≤ k + 1) (hk2 : k + 1 ≤ s.order) (hi : i < s.numKnots - (k + 1)) :
    ∃ d1 d2, s.D_B p k i x = .ok d1 ∧ s.D_B p k (i + 1) x = .ok d2 ∧
      s.D_B p (k + 1) i x = .ok ((Dbl.ofNat (k + 1 - 1) / Dbl.ofNat (k + 1 - p - 1))
        * (((Dbl.fin x - Dbl.fin (s.t i)) / (Dbl.fin (s.t (k + 1 + i - 1)) - Dbl.fin (s.t i))
            * d1)
          + ((Dbl.fin (s.t (k + 1 + i)) - Dbl.fin x)
              / (Dbl.fin (s.t (k + 1 + i)) - Dbl.fin (s.t (i + 1))) * d2))) := by
  have hpos : 0 < s.knotX.length := by omega
  have hp : p < s.order := by omega
  obtain ⟨d1, hd1⟩ := D_B_total s hn x hlo hhi p k i hp (by omega) (by omega) (by omega)
  obtain ⟨d2, hd2⟩ := D_B_total s hn x hlo hhi p k (i + 1) hp (by omega) (by omega) (by omega)
  refine ⟨d1, d2, hd1, hd2, ?_⟩
  have hk1' : p + 1 ≤ k + 1 := by omega
  rw [D_B_unfold, s.front_eq hpos, s.back_eq hpos]
  simp only [hp, hk1', hk2, hi, hlo, hhi, and_self, not_true_eq_false, if_false, bind,
    Except.bind]
  have hge : k + 1 ≥ p + 2 := hk1
  simp only [hge, if_true]
  rw [hd1, hd2, s.knot_eq i (by omega), s.knot_eq (k + 1 + i - 1) (by omega),
    s.knot_eq (k + 1 + i) (by omega), s.knot_eq (i + 1) (by omega)]
  rfl

theorem C_base (s : Spline) (i : Nat) (x : ℚ) : s.C 1 i x = s.B 1 i x := by
  rw [C_unfold]
  simp only [ge_iff_le, le_refl, not_true_eq_false, if_false]

theorem C_step (s : Spline) (hn : s.numKnots = s.knotX.length) (ho : 1 ≤ s.order) (x : ℚ)
    (hlo : s.t 0 ≤ x) (hhi : x ≤ s.t (s.knotX.length - 1)) (k i : Nat)
    (hi : i < s.numKnots - (k + 2)) :
    ∃ c1 c2, s.C (k + 1) i x = .ok c1 ∧ s.C (k + 1) (i + 1) x = .ok c2 ∧
      s.C (k + 2) i x = .ok (Dbl.ofNat (k + 2 - 1)
        * (c1 / (Dbl.fin (s.t (k + 2 + i - 1)) - Dbl.fin (s.t i))
          - c2 / (Dbl.fin (s.t (k + 2 + i)) - Dbl.fin (s.t (i + 1))))) := by
  obtain ⟨c1, hc1⟩ := C_total s hn ho x hlo hhi (k + 1) i (by omega) (by omega)
  obtain ⟨c2, hc2⟩ := C_total s hn ho x hlo hhi (k + 1) (i + 1) (by omega) (by omega)
  refine ⟨c1, c2, hc1, hc2, ?_⟩
  have hk1 : 1 ≤ k + 2 := by omega
  rw [C_unfold]
  simp only [ge_iff_le, hk1, not_true_eq_false, if_false, bind, Except.bind]
  rw [hc1, hc2, s.knot_eq (k + 2 + i - 1) (by omega), s.knot_eq i (by omega),
    s.knot_eq (k + 2 + i) (by omega), s.knot_eq (i + 1) (by omega)]
  rfl

theorem Dbl.ofNat_div (a b : Nat) (hb : 0 < b) :
    Dbl.ofNat a / Dbl.ofNat b = Dbl.fin ((a : ℚ) / (b : ℚ)) := by
  unfold Dbl.ofNat
  exact Dbl.fin_div _ _ (by exact_mod_cast hb.ne')

/-- Claim C16.  For arguments that pass the assertions, `D_B(p, p+1, i, x)` is `C(p+1, i, x)`,
and for `k ≥ p + 2` the value `D_B(p,k,i,x)` is the rational factor `(k-1)/(k-p-1)` times the
blend of `D_B(p,k-1,i,x)` and `D_B(p,k-1,i+1,x)` with the two knot ratios; `C(1,i,x)` is
`B(1,i,x)`, and for `k ≥ 2` the value `C(k,i,x)` is `k-1` times the difference of
`C(k-1,i,x)` and `C(k-1,i+1,x)`, each divided by its knot difference. -/
theorem C16_derivative_recurrences (s : Spline) (hn : s.numKnots = s.knotX.length)
    (p k i : Nat) (x : ℚ) (hlo : s.t 0 ≤ x) (hhi : x ≤ s.t (s.knotX.length - 1))
    (hk1 : 1 ≤ k) (hk2 : k ≤ s.order) (hi : i < s.numKnots - k) :
    (k = p + 1 → s.D_B p k i x = s.C k i x) ∧
    (p + 2 ≤ k → ∃ d1 d2, s.D_B p (k - 1) i x = .ok d1 ∧
      s.D_B p (k - 1) (i + 1) x = .ok d2 ∧
      s.D_B p k i x = .ok (Dbl.fin (((k : ℚ) - 1) / ((k : ℚ) - (p : ℚ) - 1))
        * (((Dbl.fin x - Dbl.fin (s.t i)) / (Dbl.fin (s.t (k + i - 1)) - Dbl.fin (s.t i)))
            * d1
          + ((Dbl.fin (s.t (k + i)) - Dbl.fin x)
              / (Dbl.fin (s.t (k + i)) - Dbl.fin (s.t (i + 1)))) * d2))) ∧
    s.C 1 i x = s.B 1 i x ∧
    (2 ≤ k → ∃ c1 c2, s.C (k - 1) i x = .ok c1 ∧ s.C (k - 1) (i + 1) x = .ok c2 ∧
      s.C k i x = .ok (Dbl.fin ((k : ℚ) - 1)
        * (c1 / (Dbl.fin (s.t (k + i - 1)) - Dbl.fin (s.t i))
          - c2 / (Dbl.fin (s.t (k + i)) - Dbl.fin (s.t (i + 1)))))) := by
  refine ⟨?_, ?_, C_base s i x, ?_⟩
  · rintro rfl
    exact D_B_base s hn x hlo hhi p i hk2 hi
  · intro hk
    obtain ⟨k, rfl⟩ : ∃ m, k = m + 1 := ⟨k - 1, by omega⟩
    obtain ⟨d1, d2, h1, h2, h3⟩ := D_B_step s hn x hlo hhi p k i hk hk2 hi
    refine ⟨d1, d2, h1, h2, ?_⟩
    rw [h3, Dbl.ofNat_div _ _ (by omega)]
    have e1 : ((k + 1 - 1 : Nat) : ℚ) = ((k + 1 : Nat) : ℚ) - 1 := by
      push_cast
      ring
    have e2 : ((k + 1 - p - 1 : Nat) : ℚ) = ((k + 1 : Nat) : ℚ) - (p : ℚ) - 1 := by
      have : k + 1 - p - 1 = k - p := by omega
      rw [this, Nat.cast_sub (by omega)]
      push_cast
      ring
    rw [e1, e2]
  · intro hk
    obtain ⟨k, rfl⟩ : ∃ m, k = m + 2 := ⟨k - 2, by omega⟩
    obtain ⟨c1, c2, h1, h2, h3⟩ := C_step s hn (by omega) x hlo hhi k i hi
    refine ⟨c1, c2, h1, h2, ?_⟩
    rw [h3]
    have e1 : Dbl.ofNat (k + 2 - 1) = Dbl.fin (((k + 2 : Nat) : ℚ) - 1) := by
      unfold Dbl.ofNat
      congr 1
      push_cast
      ring
    rw [e1]

/-- Witness of C16 on the engine of order 5: at `p = 1`, `k = 4` the factor is the rational
`3/2`, and `D_B(1,4,1,5/2) = 3/2 * (1/2 * 0 + 5/6 * 1/2) = 5/8`. -/
theorem C16_derivative_recurrences_witness :
    quinticEngine.D_B 1 3 1 (5 / 2) = .ok (Dbl.fin 0) ∧
    quinticEngine.D_B 1 3 2 (5 / 2) = .ok (Dbl.fin (1 / 2)) ∧
    quinticEngine.D_B 1 4 1 (5 / 2) = .ok (Dbl.fin (5 / 8)) ∧
    (1 + 2 ≤ 4 → ∃ d1 d2, quinticEngine.D_B 1 (4 - 1) 1 (5 / 2) = .ok d1 ∧
      quinticEngine.D_B 1 (4 - 1) (1 + 1) (5 / 2) = .ok d2 ∧
      quinticEngine.D_B 1 4 1 (5 / 2) = .ok (Dbl.fin ((((4 : Nat) : ℚ) - 1)
          / (((4 : Nat) : ℚ) - ((1 : Nat) : ℚ) - 1))
        * (((Dbl.fin (5 / 2) - Dbl.fin (quinticEngine.t 1))
              / (Dbl.fin (quinticEngine.t (4 + 1 - 1)) - Dbl.fin (quinticEngine.t 1))) * d1
          + ((Dbl.fin (quinticEngine.t (4 + 1)) - Dbl.fin (5 / 2))
              / (Dbl.fin (quinticEngine.t (4 + 1)) - Dbl.fin (quinticEngine.t (1 + 1))))
            * d2))) :=
  ⟨by decide!, by decide!, by decide!,
    (C16_derivative_recurrences quinticEngine (by decide!) 1 4 1 (5 / 2) (by decide!)
      (by decide!) (by decide!) (by decide!) (by decide!)).2.1⟩


/-! ## Claim C17: the zeroth derivative -/

theorem Dbl.mul_fin_one_left (v : Dbl) : Dbl.fin 1 * v = v := by
  cases v with
  | fin q => rw [Dbl.fin_mul, one_mul]
  | inf b =>
    show (if (1 : ℚ) = 0 then Dbl.nan else Dbl.inf (xor b (decide ((1 : ℚ) < 0)))) = Dbl.inf b
    have h : decide ((1 : ℚ) < 0) = false := decide_eq_false (by norm_num)
    rw [if_neg one_ne_zero, h, Bool.xor_false]
  | nan => rfl

theorem Dbl.mul_swap (a b : Dbl) : a * b = b * a := by
  cases a with
  | fin p =>
    cases b with
    | fin q => rw [Dbl.fin_mul, Dbl.fin_mul, Rat.mul_comm]
    | inf c => rfl
    | nan => rfl
  | inf c =>
    cases b with
    | fin q => rfl
    | inf d =>
      show Dbl.inf (xor c d) = Dbl.inf (xor d c)
      rw [Bool.xor_comm]
    | nan => rfl
  | nan =>
    cases b <;> rfl

/-- The zeroth derivative that `D_B` computes is the value of the memoized evaluator: the
blend without the early return, whatever the knots. -/
theorem D_B_zero_eq_Bm (s : Spline) (hn : s.numKnots = s.knotX.length) (x : ℚ)
    (hlo : s.t 0 ≤ x) (hhi : x ≤ s.t (s.knotX.length - 1)) (k : Nat) :
    ∀ (i : Nat), 1 ≤ k → k ≤ s.order → i < s.numKnots - k →
      s.D_B 0 k i x = .ok (Bm s.t x k i) := by
  induction k using Nat.strong_induction_on with
  | _ k ih =>
    intro i hk1 hk2 hi
    rcases k with _ | _ | k
    · omega
    · rw [D_B_base s hn x hlo hhi 0 i hk2 hi, C_base]
      exact B_one_eq_Bm s hn (by omega) i x hi hlo hhi
    · obtain ⟨d1, d2, h1, h2, h3⟩ :=
        D_B_step s hn x hlo hhi 0 (k + 1) i (by omega) hk2 hi
      rw [ih (k + 1) (by omega) i (by omega) (by omega) (by omega)] at h1
      rw [ih (k + 1) (by omega) (i + 1) (by omega) (by omega) (by omega)] at h2
      cases h1
      cases h2
      rw [h3, Dbl.ofNat_div _ _ (by omega)]
      have e : (((k + 1 + 1 - 1 : Nat) : ℚ) / ((k + 1 + 1 - 0 - 1 : Nat) : ℚ)) = 1 := by
        have h0 : ((k + 1 + 1 - 1 : Nat) : ℚ) ≠ 0 := by
          have : k + 1 + 1 - 1 = k + 1 := by omega
          rw [this]
          exact_mod_cast Nat.succ_ne_zero k
        exact div_self h0
      rw [e, Dbl.mul_fin_one_left, Dbl.mul_swap _ (Bm s.t x (k + 1) i),
        Dbl.mul_swap _ (Bm s.t x (k + 1) (i + 1))]
      rfl

/-- Claim C17, amended to strictly increasing knots and exact arithmetic.  In exact
arithmetic, for every `k` in `1 .. order`, every `i < numKnots - k` and every `x` in the knot
span, `D_B(0,k,i,x)` returns the value of `B(k,i,x)`, a finite number, although `D_B` never
takes the early zero return of `B`. -/
theorem C17_zeroth_derivative (s : Spline) (hn : s.numKnots = s.knotX.length)
    (hs : s.StrictKnots) (k i : Nat) (x : ℚ) (hlo : s.t 0 ≤ x)
    (hhi : x ≤ s.t (s.knotX.length - 1)) (hk1 : 1 ≤ k) (hk2 : k ≤ s.order)
    (hi : i < s.numKnots - k) :
    s.D_B 0 k i x = s.B k i x ∧ ∃ q, s.B k i x = .ok (Dbl.fin q) := by
  rw [D_B_zero_eq_Bm s hn x hlo hhi k i hk1 hk2 hi,
    B_eq_Bq s hn hs x hlo hhi k i hk1 hk2 hi,
    Bm_eq_Bq s.t s.knotX.length (fun a b hab hb => hs.lt b a hab hb) x k i hk1 (by omega)]
  exact ⟨rfl, _, rfl⟩

/-- Witness of C17 on the engine of `main.cpp`, at a point outside the support of `B(2,0)`,
where `B` returns early and `D_B` evaluates the blend. -/
theorem C17_zeroth_derivative_witness :
    demoEngine.D_B 0 2 0 (5 / 2) = demoEngine.B 2 0 (5 / 2) ∧
    ∃ q, demoEngine.B 2 0 (5 / 2) = .ok (Dbl.fin q) :=
  C17_zeroth_derivative demoEngine (by decide!) demoEngine_strict 2 0 (5 / 2) (by decide!)
    (by decide!) (by decide!) (by decide!) (by decide!)

/-- Counterexample to C17 as stated: the knots `0, 0, 1, 2, 3, 4, 5, 6` are nondecreasing and
accepted, and at `k = 2`, `i = 0`, `x = 5/2` the call `B(2,0,x)` returns `0` early while
`D_B(0,2,0,x)` evaluates `(x - 0)/(0 - 0) * 0`, which is `NaN`. -/
theorem C17_counterexample :
    Spline.construct 3 clampedKnots demoK demoInverse = .ok clampedEngine ∧
    clampedEngine.NondecreasingKnots ∧
    (1 ≤ 2 ∧ 2 ≤ clampedEngine.order ∧ 0 < clampedEngine.numKnots - 2 ∧
      clampedEngine.t 0 ≤ 5 / 2 ∧
      (5 / 2 : ℚ) ≤ clampedEngine.t (clampedEngine.knotX.length - 1)) ∧
    clampedEngine.B 2 0 (5 / 2) = .ok (Dbl.fin 0) ∧
    clampedEngine.D_B 0 2 0 (5 / 2) = .ok Dbl.nan ∧
    clampedEngine.D_B 0 2 0 (5 / 2) ≠ clampedEngine.B 2 0 (5 / 2) :=
  ⟨clampedEngine_constructed, clampedEngine_nondecreasing, by decide!, by decide!,
    by decide!, by decide!⟩


/-! ## Claim C18: construction completes on every well-formed input -/

/-- The converse of `construct_ok`: when the assertions hold and the three loops succeed,
the constructor returns the engine assembled from their results. -/
theorem construct_of_stages (order : Nat) (knotX : List ℚ) (K : List (List Int))
    (inverse : List (List Dbl) → List (List Dbl))
    (h1 : order % 2 = 1) (h2 : 3 ≤ order ∧ order ≤ 15)
    (h3 : 2 * order ≤ knotX.length ∧ knotX.length ≤ 100)
    (coll : List ℚ) (rows : List (List Dbl)) (s1 : Spline) (beta : List (List Dbl))
    (hcoll : tabulate (Spline.collocationPoint knotX) (order - 1)
        (knotX.length - order - (order - 1)) = .ok coll)
    (hlen : coll.length = knotX.length - 2 * order + 1)
    (hrows : tabulateS (fun st alpha =>
          tabulateS (fun st1 i => st1.B_alpha st1.order i alpha) st 0
          (coll.length + order - 1))
        { order := order, knotX := knotX, numKnots := knotX.length, collocationX := coll,
          N := coll.length, B_matrix := [], K_matrix := K, beta_matrix := [],
          B_tilde_matrix := [], C_tilde_matrix := [], xMin := knotX.getD (order - 1) 0,
          xMax := knotX.getD (knotX.length - order) 0,
          B_k_i_alpha := Spline.allocCache order coll.length } 0 coll.length = .ok (rows, s1))
    (hbeta : tabulate (Spline.betaRow { s1 with B_matrix := rows }) 0 (order - 1) = .ok beta) :
    Spline.construct order knotX K inverse =
      .ok { s1 with B_matrix := rows, beta_matrix := beta, B_tilde_matrix := rows ++ beta,
                    C_tilde_matrix := inverse (rows ++ beta) } := by
  unfold Spline.construct
  rw [if_neg (not_not.2 h1), if_neg (not_not.2 (by exact h2)), if_neg (not_not.2 (by exact h3))]
  dsimp only
  rw [vecGet_getD knotX (order - 1) (by omega),
    vecGet_getD knotX (knotX.length - order) (by omega)]
  simp only [bind, Except.bind, hcoll]
  rw [if_neg (not_not.2 hlen)]
  simp only [hrows, hbeta]
  rfl

theorem modify_fixed {α : Type} (f : α → α) (l : List α) (i : Nat) (x : α)
    (hx : l[i]? = some x) (hf : f x = x) : List.modify f i l = l := by
  apply List.ext_getElem?
  intro j
  by_cases hij : i = j
  · subst hij
    rw [List.getElem?_modify_eq, hx]
    simp [hf]
  · rw [List.getElem?_modify_ne _ _ hij]

/-- Assigning to a slot the value it holds leaves the table as it is. -/
theorem cacheSet_same_value (tbl : List (List (List Dbl))) (k i a : Nat) (v : Dbl)
    (h : cacheGet tbl k i a = .ok v) : cacheSet tbl k i a v = tbl := by
  rw [cacheGet_ok_iff] at h
  obtain ⟨ck, cki, h1, h2, h3⟩ := h
  unfold cacheSet
  apply modify_fixed _ _ _ ck h1
  apply modify_fixed _ _ _ cki h2
  apply List.ext_getElem?
  intro j
  by_cases haj : a = j
  · subst haj
    rw [List.getElem?_set_self', h3]
    rfl
  · rw [List.getElem?_set_ne haj]

theorem store_same_value (s : Spline) (k i a : Nat) (v : Dbl)
    (h : cacheGet s.B_k_i_alpha k i a = .ok v) : s.store k i a v = s := by
  unfold Spline.store
  rw [cacheSet_same_value _ _ _ _ _ h]

/-- The computing branch of the memoized evaluator at order 1. -/
theorem B_alpha_one_nan (s : Spline) (i a : Nat) (x : ℚ) (h : s.Ready)
    (hk2 : 1 ≤ s.order) (hi : i < s.numKnots - 1) (ha : a < s.N)
    (hx : s.collocationX[a]? = some x)
    (hslot : cacheGet s.B_k_i_alpha 1 i a = .ok Dbl.nan) :
    s.B_alpha 1 i a = .ok (Bm s.t x 1 i, s.store 1 i a (Bm s.t x 1 i)) := by
  have hxv : vecGet s.collocationX a = .ok x := (vecGet_ok_iff _ _ _).2 hx
  have hspan := h.coll_span a x hx
  rw [B_alpha_unfold, hslot, hxv]
  simp only [hk2, hi, ha, le_refl, and_self, not_true_eq_false, if_false, bind, Except.bind,
    Dbl.isNaN, pure, Except.pure]
  rw [B_one_eq_Bm s h.numKnots_eq h.order_pos i x hi hspan.1 hspan.2]

/-- The computing branch of the memoized evaluator above order 1. -/
theorem B_alpha_step_nan (s s1 s2 : Spline) (k i a : Nat) (x : ℚ) (h : s.Ready)
    (hk2 : k + 2 ≤ s.order) (hi : i < s.numKnots - (k + 2)) (ha : a < s.N)
    (hx : s.collocationX[a]? = some x)
    (hslot : cacheGet s.B_k_i_alpha (k + 2) i a = .ok Dbl.nan)
    (e1 : s.B_alpha (k + 1) i a = .ok (Bm s.t x (k + 1) i, s1))
    (e2 : s1.B_alpha (k + 1) (i + 1) a = .ok (Bm s.t x (k + 1) (i + 1), s2))
    (hd : s.SameData s2) :
    s.B_alpha (k + 2) i a
      = .ok (Bm s.t x (k + 2) i, s2.store (k + 2) i a (Bm s.t x (k + 2) i)) := by
  have hxv : vecGet s.collocationX a = .ok x := (vecGet_ok_iff _ _ _).2 hx
  obtain ⟨-, k2, -, -, -, ts⟩ := hd.ready_fields
  have hlen : s2.knotX.length = s.knotX.length := by rw [k2]
  have hnk := h.numKnots_eq
  have hk1 : 1 ≤ k + 2 := by omega
  rw [B_alpha_unfold, hslot, hxv]
  simp only [hk1, hk2, hi, ha, and_self, not_true_eq_false, if_false, bind,
    Except.bind, Dbl.isNaN, pure, Except.pure]
  rw [e1]
  simp only []
  rw [e2]
  simp only []
  rw [s2.knot_eq i (by omega), s2.knot_eq (k + 2 + i - 1) (by omega),
    s2.knot_eq (k + 2 + i) (by omega), s2.knot_eq (i + 1) (by omega)]
  simp only [ts, Bm]

theorem Hold_store (s : Spline) (k i a : Nat) (x : ℚ) (w : Dbl)
    (hw : cacheGet s.B_k_i_alpha k i a = .ok w) (hx : s.collocationX[a]? = some x) :
    (s.store k i a (Bm s.t x k i)).Hold k i a ∧
    ∀ (k' i' a' : Nat), s.Hold k' i' a' → (s.store k i a (Bm s.t x k i)).Hold k' i' a' := by
  have first : (s.store k i a (Bm s.t x k i)).Hold k i a := by
    intro x' hx'
    have hx'' : s.collocationX[a]? = some x' := hx'
    rw [hx] at hx''
    cases hx''
    show cacheGet (cacheSet s.B_k_i_alpha k i a (Bm s.t x k i)) k i a = .ok (Bm s.t x k i)
    exact cacheGet_cacheSet_same _ _ _ _ w _ hw
  refine ⟨first, ?_⟩
  intro k' i' a' hh
  by_cases e : k' = k ∧ i' = i ∧ a' = a
  · obtain ⟨rfl, rfl, rfl⟩ := e
    exact first
  · intro x' hx'
    show cacheGet (cacheSet s.B_k_i_alpha k i a (Bm s.t x k i)) k' i' a'
      = .ok (Bm s.t x' k' i')
    rw [cacheGet_cacheSet_ne _ _ _ _ _ _ _ _ e]
    exact hh x' hx'

theorem Closed_store (s : Spline) (k i a : Nat) (x : ℚ) (w : Dbl)
    (hw : cacheGet s.B_k_i_alpha k i a = .ok w) (hx : s.collocationX[a]? = some x)
    (hc : s.Closed) (hd : (s.store k i a (Bm s.t x k i)).Done k i a) :
    (s.store k i a (Bm s.t x k i)).Closed := by
  intro k' i' a' v hget hnan
  by_cases e : k' = k ∧ i' = i ∧ a' = a
  · obtain ⟨rfl, rfl, rfl⟩ := e
    exact hd
  · have hget' : cacheGet (cacheSet s.B_k_i_alpha k i a (Bm s.t x k i)) k' i' a' = .ok v :=
      hget
    rw [cacheGet_cacheSet_ne _ _ _ _ _ _ _ _ e] at hget'
    intro k'' i'' h1 h2 h3 h4
    exact (Hold_store s k i a x w hw hx).2 _ _ _ (hc k' i' a' v hget' hnan k'' i'' h1 h2 h3 h4)

/-- On a ready engine with a closed table, the memoized evaluator returns the value of its
key and leaves a ready engine with a closed table in which the slot of the key and every
slot below it hold their values, and every slot that held its value still does. -/
theorem B_alpha_fills (k : Nat) : ∀ (s : Spline) (i a : Nat) (x : ℚ), s.Ready → s.Closed →
    1 ≤ k → k ≤ s.order → i < s.numKnots - k → a < s.N → s.collocationX[a]? = some x →
    ∃ s', s.B_alpha k i a = .ok (Bm s.t x k i, s') ∧ s'.Ready ∧ s.SameData s' ∧ s'.Closed ∧
      s'.Done k i a ∧ ∀ (k' i' a' : Nat), s.Hold k' i' a' → s'.Hold k' i' a' := by
  induction k using Nat.strong_induction_on with
  | _ k ih =>
    intro s i a x h hcl hk1 hk2 hi ha hx
    obtain ⟨slot, hslot⟩ := h.slot_exists k i a hk1 hk2 hi ha
    by_cases hnan : slot.isNaN = true
    swap
    · have hnan' : slot.isNaN = false := by simpa using hnan
      have hv := h.slot_value k i a slot x hslot hnan' hx
      refine ⟨s, ?_, h, Spline.SameData.refl s, hcl, hcl k i a slot hslot hnan',
        fun _ _ _ hh => hh⟩
      rw [B_alpha_cached s k i a slot hk1 hk2 hi ha hslot hnan', hv]
    have hsn : slot = Dbl.nan := by
      cases slot with
      | nan => rfl
      | fin q => simp [Dbl.isNaN] at hnan
      | inf b => simp [Dbl.isNaN] at hnan
    subst hsn
    rcases k with _ | _ | k
    · omega
    · obtain ⟨hs1, hs2⟩ := Hold_store s 1 i a x _ hslot hx
      have hdone : (s.store 1 i a (Bm s.t x 1 i)).Done 1 i a := by
        intro k' i' h1 h2 h3 h4
        obtain rfl : k' = 1 := by omega
        obtain rfl : i' = i := by omega
        exact hs1
      exact ⟨s.store 1 i a (Bm s.t x 1 i), B_alpha_one_nan s i a x h hk2 hi ha hx hslot,
        h.after_store 1 i a x hk1 hk2 hi ha hx, Spline.SameData.of_store _ _ _ _ _,
        Closed_store s 1 i a x _ hslot hx hcl hdone, hdone, hs2⟩
    · obtain ⟨s1, e1, r1, d1, c1, dn1, p1⟩ := ih (k + 1) (by omega) s i a x h hcl (by omega)
        (by omega) (by omega) ha hx
      obtain ⟨o1, k1, n1, cl1, N1, t1⟩ := d1.ready_fields
      have hx1 : s1.collocationX[a]? = some x := by rw [cl1]; exact hx
      obtain ⟨s2, e2, r2, d2, c2, dn2, p2⟩ := ih (k + 1) (by omega) s1 (i + 1) a x r1 c1
        (by omega) (by omega) (by omega) (by omega) hx1
      obtain ⟨o2, k2, n2, cl2, N2, t2⟩ := d2.ready_fields
      have hx2 : s2.collocationX[a]? = some x := by rw [cl2]; exact hx1
      have ts : s2.t = s.t := by rw [t2, t1]
      rw [t1] at e2
      obtain ⟨w2, hw2⟩ := r2.slot_exists (k + 2) i a (by omega) (by omega) (by omega)
        (by omega)
      have hr := r2.after_store (k + 2) i a x (by omega) (by omega) (by omega) (by omega) hx2
      obtain ⟨hs1, hs2⟩ := Hold_store s2 (k + 2) i a x _ hw2 hx2
      have hdone : (s2.store (k + 2) i a (Bm s2.t x (k + 2) i)).Done (k + 2) i a := by
        intro k' i' h1 h2 h3 h4
        by_cases hk' : k' = k + 2
        · subst hk'
          obtain rfl : i' = i := by omega
          exact hs1
        · by_cases hle : i' + k' ≤ i + (k + 1)
          · exact hs2 _ _ _ (p2 _ _ _ (dn1 k' i' h1 (by omega) h3 hle))
          · exact hs2 _ _ _ (dn2 k' i' h1 (by omega) (by omega) (by omega))
      have hclosed := Closed_store s2 (k + 2) i a x _ hw2 hx2 c2 hdone
      rw [ts] at hr hdone hclosed hs2
      exact ⟨s2.store (k + 2) i a (Bm s.t x (k + 2) i),
        B_alpha_step_nan s s1 s2 k i a x h hk2 hi ha hx hslot e1 e2 (d1.trans d2), hr,
        (d1.trans d2).trans (Spline.SameData.of_store _ _ _ _ _), hclosed, hdone,
        fun k' i' a' hh => hs2 _ _ _ (p2 _ _ _ (p1 _ _ _ hh))⟩


/-- A loop whose iterations carry a property indexed by the loop counter from one value of
the counter to the next leaves the property at the final value of the counter. -/
theorem tabulateS_progress {σ α : Type} (f : σ → Nat → Except Violation (α × σ))
    (P : Nat → σ → Prop) (n : Nat) :
    ∀ (i : Nat) (st : σ) (l : List α) (st' : σ),
      (∀ st j a st1, P j st → i ≤ j → j < i + n → f st j = .ok (a, st1) → P (j + 1) st1) →
      P i st → tabulateS f st i n = .ok (l, st') → P (i + n) st' := by
  induction n with
  | zero =>
    intro i st l st' _ hP h
    simp only [tabulateS, Except.ok.injEq, Prod.mk.injEq] at h
    obtain ⟨rfl, rfl⟩ := h
    exact hP
  | succ n ih =>
    intro i st l st' hf hP h
    rw [tabulateS, bind_ok_iff] at h
    obtain ⟨⟨a, st1⟩, ha, h⟩ := h
    simp only [bind_ok_iff] at h
    obtain ⟨⟨rest, st2⟩, hr, h⟩ := h
    simp only [pure, Except.pure, Except.ok.injEq, Prod.mk.injEq] at h
    obtain ⟨rfl, rfl⟩ := h
    have hP1 := hf st i a st1 hP (le_refl _) (by omega) ha
    have := ih (i + 1) st1 rest st2
      (fun st j a st1 hp h1 h2 hfj => hf st j a st1 hp (by omega) (by omega) hfj) hP1 hr
    have e : i + (n + 1) = i + 1 + n := by omega
    rw [e]
    exact this

/-- The loop that fills one row of `B_matrix` leaves the slots of that row, and all slots
below them, holding their values. -/
theorem fill_row_filled (s0 st st' : Spline) (alpha m : Nat) (x : ℚ) (row : List Dbl)
    (hr : st.Ready) (hc : st.Closed) (hd : s0.SameData st) (ha : alpha < s0.N)
    (hx : s0.collocationX[alpha]? = some x) (hm : m ≤ s0.numKnots - s0.order)
    (h : tabulateS (fun st1 i => st1.B_alpha st1.order i alpha) st 0 m = .ok (row, st')) :
    st'.Ready ∧ st'.Closed ∧ s0.SameData st' ∧
    (∀ (k' i' a' : Nat), st.Hold k' i' a' → st'.Hold k' i' a') ∧
    ∀ j, j < m → st'.Done s0.order j alpha := by
  have key := tabulateS_progress (fun (st1 : Spline) i => st1.B_alpha st1.order i alpha)
    (fun j s => s.Ready ∧ s.Closed ∧ s0.SameData s ∧
      (∀ (k' i' a' : Nat), st.Hold k' i' a' → s.Hold k' i' a') ∧
      ∀ j', j' < j → s.Done s0.order j' alpha) m 0 st row st' ?_
    ⟨hr, hc, hd, fun _ _ _ hh => hh, fun j' hj' => by omega⟩ h
  · obtain ⟨k1, k2, k3, k4, k5⟩ := key
    exact ⟨k1, k2, k3, k4, fun j hj => k5 j (by omega)⟩
  · intro s j v s1 ⟨r1, c1, d1, p1, dn1⟩ _ hj hf
    obtain ⟨o1, -, n1, cl1, N1, -⟩ := d1.ready_fields
    have hop := r1.order_pos
    obtain ⟨s', hb, hr', hd', hc', hdn', hp'⟩ := B_alpha_fills s.order s j alpha x r1 c1 hop
      (le_refl _) (by rw [n1, o1]; omega) (by rw [N1]; exact ha) (by rw [cl1]; exact hx)
    have hf' : s.B_alpha s.order j alpha = .ok (v, s1) := hf
    rw [hb] at hf'
    cases hf'
    refine ⟨hr', hc', d1.trans hd', fun k' i' a' hh => hp' _ _ _ (p1 _ _ _ hh), ?_⟩
    intro j' hj'
    by_cases e : j' = j
    · subst e
      rw [← o1]
      exact hdn'
    · intro k' i' h1 h2 h3 h4
      exact hp' _ _ _ (dn1 j' (by omega) k' i' h1 h2 h3 h4)

/-- The fill of `B_matrix` leaves, for every collocation index, the slots of the top order
and all slots below them holding their values. -/
theorem fill_filled (s0 s1 : Spline) (m : Nat) (rows : List (List Dbl)) (hr : s0.Ready)
    (hc : s0.Closed) (hm : m ≤ s0.numKnots - s0.order)
    (h : tabulateS (fun st alpha => tabulateS (fun st1 i => st1.B_alpha st1.order i alpha) st
      0 m) s0 0 s0.N = .ok (rows, s1)) :
    s1.Ready ∧ s1.Closed ∧ s0.SameData s1 ∧
    ∀ a, a < s0.N → ∀ j, j < m → s1.Done s0.order j a := by
  have key := tabulateS_progress
    (fun (st : Spline) alpha => tabulateS (fun st1 i => st1.B_alpha st1.order i alpha) st 0 m)
    (fun alpha s => s.Ready ∧ s.Closed ∧ s0.SameData s ∧
      ∀ a, a < alpha → ∀ j, j < m → s.Done s0.order j a) s0.N 0 s0 rows s1 ?_
    ⟨hr, hc, Spline.SameData.refl _, fun a ha => by omega⟩ h
  · obtain ⟨k1, k2, k3, k4⟩ := key
    exact ⟨k1, k2, k3, fun a ha => k4 a (by omega)⟩
  · intro st alpha row st' ⟨r1, c1, d1, dn1⟩ _ ha hf
    have ha' : alpha < s0.N := by omega
    obtain ⟨x, hx⟩ : ∃ x, s0.collocationX[alpha]? = some x :=
      ⟨_, List.getElem?_eq_getElem (by rw [hr.coll_length]; exact ha')⟩
    obtain ⟨q1, q2, q3, q4, q5⟩ := fill_row_filled s0 st st' alpha m x row r1 c1 d1 ha' hx hm hf
    refine ⟨q1, q2, q3, ?_⟩
    intro a haa j hj
    by_cases e : a = alpha
    · subst e
      exact q5 j hj
    · intro k' i' h1 h2 h3 h4
      exact q4 _ _ _ (dn1 a (by omega) j hj k' i' h1 h2 h3 h4)

theorem allocCache_closed (s0 : Spline)
    (htbl : s0.B_k_i_alpha = Spline.allocCache s0.order s0.N) : s0.Closed := by
  intro k i a v hget hnan
  rw [htbl] at hget
  rw [allocCache_nan _ _ _ _ _ _ hget] at hnan
  cases hnan

/-- After the constructor every slot of a valid key holds the value of its key. -/
theorem construct_filled (order : Nat) (knotX : List ℚ) (K : List (List Int))
    (inverse : List (List Dbl) → List (List Dbl)) (s : Spline)
    (h : Spline.construct order knotX K inverse = .ok s) : s.Filled := by
  obtain ⟨-, hr0, -, -⟩ := construct_ready order knotX K inverse s h
  obtain ⟨h1, h3, h3', h4, h5, coll, rows, s1, beta, hcoll, hlen, hrows, hbeta, rfl⟩ :=
    construct_ok order knotX K inverse s h
  obtain ⟨tbl, rfl⟩ := fill_sameData _ _ _ _ _ hrows
  have hr : Spline.Ready
      { order := order, knotX := knotX, numKnots := knotX.length, collocationX := coll,
        N := coll.length, B_matrix := [], K_matrix := K, beta_matrix := [],
        B_tilde_matrix := [], C_tilde_matrix := [], xMin := knotX.getD (order - 1) 0,
        xMax := knotX.getD (knotX.length - order) 0,
        B_k_i_alpha := Spline.allocCache order coll.length } :=
    ⟨hr0.numKnots_eq, hr0.order_pos, hr0.size, hr0.coll_length, hr0.coll_span,
      hr0.slot_exists, hr0.slot_value⟩
  obtain ⟨-, -, -, hdone⟩ := fill_filled _ _ _ rows hr (allocCache_closed _ rfl)
    (by show coll.length + order - 1 ≤ knotX.length - order; omega) hrows
  intro k i a hk1 hk2 hi ha
  exact hdone a ha (i + k - order) (by
    have : i < knotX.length - k := hi
    have : k ≤ order := hk2
    omega) k i hk1 hk2 (by
    have : k ≤ order := hk2
    omega) (by show i + k ≤ i + k - order + order; omega)


/-- On a ready engine whose table is filled, the memoized evaluator returns the value of its
key and the engine exactly as it was: a slot that is not `NaN` is returned as it is, and a
slot whose value is `NaN` is computed again and assigned the value it already holds. -/
theorem B_alpha_frozen (k : Nat) : ∀ (s : Spline) (i a : Nat) (x : ℚ), s.Ready → s.Filled →
    1 ≤ k → k ≤ s.order → i < s.numKnots - k → a < s.N → s.collocationX[a]? = some x →
    s.B_alpha k i a = .ok (Bm s.t x k i, s) := by
  induction k using Nat.strong_induction_on with
  | _ k ih =>
    intro s i a x h hf hk1 hk2 hi ha hx
    have hslot := hf k i a hk1 hk2 hi ha x hx
    by_cases hnan : (Bm s.t x k i).isNaN = true
    swap
    · have hnan' : (Bm s.t x k i).isNaN = false := by simpa using hnan
      exact B_alpha_cached s k i a _ hk1 hk2 hi ha hslot hnan'
    have hsn : Bm s.t x k i = Dbl.nan := by
      cases hb : Bm s.t x k i with
      | nan => rfl
      | fin q => rw [hb] at hnan; simp [Dbl.isNaN] at hnan
      | inf b => rw [hb] at hnan; simp [Dbl.isNaN] at hnan
    have hslot' := hslot
    rw [hsn] at hslot'
    rcases k with _ | _ | k
    · omega
    · rw [B_alpha_one_nan s i a x h hk2 hi ha hx hslot', store_same_value s 1 i a _ hslot]
    · have e1 := ih (k + 1) (by omega) s i a x h hf (by omega) (by omega) (by omega) ha hx
      have e2 := ih (k + 1) (by omega) s (i + 1) a x h hf (by omega) (by omega) (by omega)
        ha hx
      rw [B_alpha_step_nan s s s k i a x h hk2 hi ha hx hslot' e1 e2
        (Spline.SameData.refl s), store_same_value s (k + 2) i a _ hslot]


/-- Claim C13, amended: the slots hold the values computed for their keys, which are
finite, hence none unset, when the knots are strictly increasing and the arithmetic is
exact.  In exact arithmetic, after construction every
slot `(k, i, alpha)` with `1 ≤ k ≤ order`, `i < numKnots - k`, `alpha < N` holds the value
the memoized evaluator computes for its key; every later call of the memoized evaluator
returns that value and the engine exactly as it was, so that repeating it returns the same
result; the evaluators `B` at a real `x`, `C`, `D_B` and `operatorMatrix` only read the
engine and return for arguments that pass their assertions. -/
theorem C13_engine_immutable (order : Nat) (knotX : List ℚ) (K : List (List Int))
    (inverse : List (List Dbl) → List (List Dbl)) (s : Spline)
    (hc : Spline.construct order knotX K inverse = .ok s) :
    s.Filled ∧
    (∀ (k i a : Nat), 1 ≤ k → k ≤ s.order → i < s.numKnots - k → a < s.N →
      ∃ v, cacheGet s.B_k_i_alpha k i a = .ok v ∧ s.B_alpha k i a = .ok (v, s)) ∧
    (s.StrictKnots → ∀ (k i a : Nat), 1 ≤ k → k ≤ s.order → i < s.numKnots - k → a < s.N →
      ∃ q, cacheGet s.B_k_i_alpha k i a = .ok (Dbl.fin q)) ∧
    (∀ (k i : Nat) (x : ℚ), 1 ≤ k → k ≤ s.order → i < s.numKnots - k → s.t 0 ≤ x →
      x ≤ s.t (s.knotX.length - 1) →
      (∃ v, s.B k i x = .ok v) ∧ (∃ v, s.C k i x = .ok v) ∧
      ∀ p, p + 1 ≤ k → ∃ v, s.D_B p k i x = .ok v) ∧
    (ShapePreserving inverse → ∀ derivativeOrder, derivativeOrder < s.order →
      ∃ O, s.operatorMatrix derivativeOrder = .ok O) := by
  obtain ⟨hr, -, -, -⟩ := construct_ready order knotX K inverse s hc
  have hf := construct_filled order knotX K inverse s hc
  have hn := hr.numKnots_eq
  have hxa : ∀ a, a < s.N → ∃ x, s.collocationX[a]? = some x := fun a ha =>
    ⟨_, List.getElem?_eq_getElem (by rw [hr.coll_length]; exact ha)⟩
  refine ⟨hf, ?_, ?_, ?_, ?_⟩
  · intro k i a hk1 hk2 hi ha
    obtain ⟨x, hx⟩ := hxa a ha
    exact ⟨_, hf k i a hk1 hk2 hi ha x hx, B_alpha_frozen k s i a x hr hf hk1 hk2 hi ha hx⟩
  · intro hs k i a hk1 hk2 hi ha
    obtain ⟨x, hx⟩ := hxa a ha
    refine ⟨Bq s.t k i x, ?_⟩
    rw [hf k i a hk1 hk2 hi ha x hx,
      Bm_eq_Bq s.t s.knotX.length (fun a b hab hb => hs.lt b a hab hb) x k i hk1 (by omega)]
  · intro k i x hk1 hk2 hi hlo hhi
    exact ⟨B_total s hn x hlo hhi k i hk1 hk2 hi,
      C_total s hn hr.order_pos x hlo hhi k i hk1 hi,
      fun p hp => D_B_total s hn x hlo hhi p k i (by omega) hp hk2 hi⟩
  · intro hinv d hd
    obtain ⟨O, hO, -⟩ := operatorMatrix_entries order knotX K inverse s hc hinv d hd
    exact ⟨O, hO⟩

/-- Witness of C13 on the engine of `main.cpp`: the slot `(3, 1, 0)` holds `3/4`, and the
memoized evaluator returns it with the engine unchanged. -/
theorem C13_engine_immutable_witness :
    cacheGet demoEngine.B_k_i_alpha 3 1 0 = .ok (Dbl.fin (3 / 4)) ∧
    ∃ v, cacheGet demoEngine.B_k_i_alpha 3 1 0 = .ok v ∧
      demoEngine.B_alpha 3 1 0 = .ok (v, demoEngine) :=
  ⟨by decide!,
    (C13_engine_immutable 3 demoKnots demoK demoInverse demoEngine
      demoEngine_constructed).2.1 3 1 0 (by decide!) (by decide!) (by decide!) (by decide!)⟩

/-- Counterexample to C13 as stated: the knots `0, 0, 1, 2, 3, 4, 5, 6` are accepted, and
after construction the slot `(2, 0, 0)`, a valid key, holds `NaN`, the marker of an unset
slot, because the value computed for it is `NaN`; a later call of `B(2, 0, alpha = 0)` finds
the slot unset and computes it again. -/
theorem C13_counterexample :
    Spline.construct 3 clampedKnots demoK demoInverse = .ok clampedEngine ∧
    (1 ≤ 2 ∧ 2 ≤ clampedEngine.order ∧ 0 < clampedEngine.numKnots - 2 ∧
      0 < clampedEngine.N) ∧
    cacheGet clampedEngine.B_k_i_alpha 2 0 0 = .ok Dbl.nan ∧
    Dbl.isNaN Dbl.nan = true :=
  ⟨clampedEngine_constructed, by decide!, by decide!, rfl⟩


/-! ## Claim C19: termination and nesting depth -/

theorem B_depth_unfold (s : Spline) (k i : Nat) (x : ℚ) :
    s.B_depth k i x =
      (if ¬ (1 ≤ k ∧ k ≤ s.order) then 1
      else if ¬ (i < s.numKnots - k) then 1
      else if ¬ (s.t 0 ≤ x ∧ x ≤ s.t (s.knotX.length - 1)) then 1
      else if x < s.t i ∨ x > s.t (i + k) then 1
      else
        match k with
        | k' + 2 => 1 + max (s.B_depth (k' + 1) i x) (s.B_depth (k' + 1) (i + 1) x)
        | _ => 1) := by
  rcases k with _ | _ | k <;> rfl

theorem C_depth_unfold (s : Spline) (k i : Nat) (x : ℚ) :
    s.C_depth k i x =
      (if ¬ (k ≥ 1) then 1
      else
        match k with
        | k' + 2 => 1 + max (s.C_depth (k' + 1) i x) (s.C_depth (k' + 1) (i + 1) x)
        | _ => 1 + s.B_depth 1 i x) := by
  rcases k with _ | _ | k <;> rfl

theorem D_B_depth_unfold (s : Spline) (p k i : Nat) (x : ℚ) :
    s.D_B_depth p k i x =
      (if ¬ (p < s.order) then 1
      else if ¬ (p + 1 ≤ k ∧ k ≤ s.order) then 1
      else if ¬ (i < s.numKnots - k) then 1
      else if ¬ (s.t 0 ≤ x ∧ x ≤ s.t (s.knotX.length - 1)) then 1
      else
        match k with
        | k' + 1 =>
          if k' + 1 ≥ p + 2 then
            1 + max (s.D_B_depth p k' i x) (s.D_B_depth p k' (i + 1) x)
          else if ¬ (k' + 1 = p + 1) then 1
          else 1 + s.C_depth (k' + 1) i x
        | 0 => 1) := by
  rcases k with _ | k <;> rfl

theorem B_alpha_depth_unfold (s : Spline) (k i alpha : Nat) :
    s.B_alpha_depth k i alpha =
      (if ¬ (1 ≤ k ∧ k ≤ s.order) then 1
      else if ¬ (i < s.numKnots - k) then 1
      else if ¬ (alpha < s.N) then 1
      else if ¬ (slotUnset (cacheGet s.B_k_i_alpha k i alpha)) then 1
      else
        match k with
        | k' + 2 =>
          1 + max (s.B_alpha_depth (k' + 1) i alpha)
            (Spline.B_alpha_depth (engineAfter s (s.B_alpha (k' + 1) i alpha)) (k' + 1)
              (i + 1) alpha)
        | _ => 1 + s.B_depth 1 i (s.collocationX.getD alpha 0)) := by
  rcases k with _ | _ | k <;> rfl

theorem B_depth_le (s : Spline) (x : ℚ) (k : Nat) :
    ∀ (i : Nat), 1 ≤ k → s.B_depth k i x ≤ k := by
  induction k using Nat.strong_induction_on with
  | _ k ih =>
    intro i hk
    rcases k with _ | _ | k
    · omega
    · rw [B_depth_unfold]
      dsimp only
      split_ifs <;> omega
    · have h1 := ih (k + 1) (by omega) i (by omega)
      have h2 := ih (k + 1) (by omega) (i + 1) (by omega)
      have := max_le h1 h2
      rw [B_depth_unfold]
      dsimp only
      split_ifs <;> omega

theorem C_depth_le (s : Spline) (x : ℚ) (k : Nat) :
    ∀ (i : Nat), s.C_depth k i x ≤ k + 1 := by
  induction k using Nat.strong_induction_on with
  | _ k ih =>
    intro i
    rcases k with _ | _ | k
    · rw [C_depth_unfold]
      simp
    · have := B_depth_le s x 1 i (le_refl _)
      rw [C_depth_unfold]
      dsimp only
      split_ifs <;> omega
    · have h1 := ih (k + 1) (by omega) i
      have h2 := ih (k + 1) (by omega) (i + 1)
      have := max_le h1 h2
      rw [C_depth_unfold]
      dsimp only
      split_ifs <;> omega

theorem D_B_depth_le (s : Spline) (x : ℚ) (p k : Nat) :
    ∀ (i : Nat), s.D_B_depth p k i x ≤ k + 2 := by
  induction k with
  | zero =>
    intro i
    rw [D_B_depth_unfold]
    dsimp only
    split_ifs <;> omega
  | succ k ih =>
    intro i
    have h1 := ih i
    have h2 := ih (i + 1)
    have h3 := max_le h1 h2
    have h4 := C_depth_le s x (k + 1) i
    rw [D_B_depth_unfold]
    dsimp only
    split_ifs <;> omega

theorem B_alpha_depth_le (k : Nat) :
    ∀ (s : Spline) (i a : Nat), s.B_alpha_depth k i a ≤ k + 1 := by
  induction k using Nat.strong_induction_on with
  | _ k ih =>
    intro s i a
    rcases k with _ | _ | k
    · rw [B_alpha_depth_unfold]
      simp
    · have := B_depth_le s (s.collocationX.getD a 0) 1 i (le_refl _)
      rw [B_alpha_depth_unfold]
      dsimp only
      split_ifs <;> omega
    · have h1 := ih (k + 1) (by omega) s i a
      have h2 := ih (k + 1) (by omega) (engineAfter s (s.B_alpha (k + 1) i a)) (i + 1) a
      have := max_le h1 h2
      rw [B_alpha_depth_unfold]
      dsimp only
      split_ifs <;> omega

theorem C_depth_eq (s : Spline) (x : ℚ) (k : Nat) :
    ∀ (i : Nat), 1 ≤ k → s.C_depth k i x = k + 1 := by
  induction k using Nat.strong_induction_on with
  | _ k ih =>
    intro i hk
    rcases k with _ | _ | k
    · omega
    · have h1 : s.B_depth 1 i x = 1 := by
        rw [B_depth_unfold]
        dsimp only
        split_ifs <;> rfl
      rw [C_depth_unfold]
      dsimp only
      rw [h1]
      split_ifs <;> omega
    · have h1 := ih (k + 1) (by omega) i (by omega)
      have h2 := ih (k + 1) (by omega) (i + 1) (by omega)
      rw [C_depth_unfold]
      dsimp only
      rw [h1, h2, max_self]
      split_ifs <;> omega

theorem D_B_depth_eq (s : Spline) (x : ℚ) (hlo : s.t 0 ≤ x)
    (hhi : x ≤ s.t (s.knotX.length - 1)) (p k : Nat) :
    ∀ (i : Nat), p + 1 ≤ k → k ≤ s.order → i < s.numKnots - k →
      s.D_B_depth p k i x = k + 2 := by
  induction k with
  | zero => intro i h; omega
  | succ k ih =>
    intro i hk1 hk2 hi
    have hp : p < s.order := by omega
    rw [D_B_depth_unfold]
    dsimp only
    rw [if_neg (not_not.2 hp), if_neg (not_not.2 ⟨hk1, hk2⟩), if_neg (not_not.2 hi),
      if_neg (not_not.2 ⟨hlo, hhi⟩)]
    by_cases hge : k + 1 ≥ p + 2
    · rw [if_pos hge, ih i (by omega) (by omega) (by omega),
        ih (i + 1) (by omega) (by omega) (by omega), max_self]
      omega
    · have e : k + 1 = p + 1 := by omega
      rw [if_neg hge, if_neg (not_not.2 e), C_depth_eq s x (k + 1) i (by omega)]
      omega

/-- Claim C19, amended in the bounds: the calls that cross from `D_B` into `C` and from `C`
or the memoized `B` into `B(1,i,x)` stay at the same order level and add to the nesting.  On
a constructed engine and for arguments that pass the assertions, every evaluator returns;
the calls of `B(k,i,x)` nest at most `k` deep, those of `C(k,i,x)` exactly `k + 1` deep, those
of `D_B(p,k,i,x)` exactly `k + 2` deep, and those of the memoized `B(k,i,alpha)` at most
`k + 1` deep on any state of the table; since `k ≤ order ≤ 15` no nesting exceeds `17`. -/
theorem C19_termination_and_depth (order : Nat) (knotX : List ℚ) (K : List (List Int))
    (inverse : List (List Dbl) → List (List Dbl)) (s : Spline)
    (hc : Spline.construct order knotX K inverse = .ok s) (k i : Nat) (x : ℚ)
    (hk1 : 1 ≤ k) (hk2 : k ≤ s.order) (hi : i < s.numKnots - k) (hlo : s.t 0 ≤ x)
    (hhi : x ≤ s.t (s.knotX.length - 1)) :
    ((∃ v, s.B k i x = .ok v) ∧ s.B_depth k i x ≤ k) ∧
    ((∃ v, s.C k i x = .ok v) ∧ s.C_depth k i x = k + 1) ∧
    (∀ p, p + 1 ≤ k → (∃ v, s.D_B p k i x = .ok v) ∧ s.D_B_depth p k i x = k + 2) ∧
    (∀ a, a < s.N → (∃ v s', s.B_alpha k i a = .ok (v, s')) ∧
      ∀ tbl, Spline.B_alpha_depth { s with B_k_i_alpha := tbl } k i a ≤ k + 1) ∧
    k + 2 ≤ 17 := by
  obtain ⟨hr, -, -, -⟩ := construct_ready order knotX K inverse s hc
  obtain ⟨-, -, h15, -, -, ho, -⟩ := construct_fields order knotX K inverse s hc
  have hn := hr.numKnots_eq
  refine ⟨⟨B_total s hn x hlo hhi k i hk1 hk2 hi, B_depth_le s x k i hk1⟩,
    ⟨C_total s hn hr.order_pos x hlo hhi k i hk1 hi, C_depth_eq s x k i hk1⟩, ?_, ?_, ?_⟩
  · intro p hp
    exact ⟨D_B_total s hn x hlo hhi p k i (by omega) hp hk2 hi,
      D_B_depth_eq s x hlo hhi p k i hp hk2 hi⟩
  · intro a ha
    obtain ⟨xa, hxa⟩ : ∃ xa, s.collocationX[a]? = some xa :=
      ⟨_, List.getElem?_eq_getElem (by rw [hr.coll_length]; exact ha)⟩
    obtain ⟨s', hb, -, -⟩ := B_alpha_correct k s i a xa hr hk1 hk2 hi ha hxa
    exact ⟨⟨_, s', hb⟩, fun tbl => B_alpha_depth_le k _ i a⟩
  · omega

/-- Witness of C19 on the engine of `main.cpp`, at `k = 3`, `i = 1`, `x = 5/2`. -/
theorem C19_termination_and_depth_witness :
    demoEngine.B_depth 3 1 (5 / 2) = 3 ∧
    ((∃ v, demoEngine.C 3 1 (5 / 2) = .ok v) ∧ demoEngine.C_depth 3 1 (5 / 2) = 3 + 1) :=
  ⟨by decide!,
    (C19_termination_and_depth 3 demoKnots demoK demoInverse demoEngine demoEngine_constructed
      3 1 (5 / 2) (by decide!) (by decide!) (by decide!) (by decide!) (by decide!)).2.1⟩

/-- Counterexample to C19 as stated: on the engine of `main.cpp` the call `D_B(2,3,1,5/2)`
passes the assertions and returns, and it nests five calls deep, `D_B(2,3)`, `C(3)`, `C(2)`,
`C(1)`, `B(1)`: four calls below the outermost one, more than `k = 3`. -/
theorem C19_counterexample :
    (2 < demoEngine.order ∧ 2 + 1 ≤ 3 ∧ 3 ≤ demoEngine.order ∧
      1 < demoEngine.numKnots - 3) ∧
    demoEngine.D_B 2 3 1 (5 / 2) = .ok (Dbl.fin (-2)) ∧
    demoEngine.D_B_depth 2 3 1 (5 / 2) = 5 ∧
    ¬ (demoEngine.D_B_depth 2 3 1 (5 / 2) - 1 ≤ 3) :=
  ⟨by decide!, by decide!, by decide!, by decide!⟩


/-! ## Claims C12 and C20: the inverse and the operator matrix of order zero -/

theorem matEntry_eq_of_get (m : List (List Dbl)) (i j : Nat) (row : List Dbl) (v : Dbl)
    (hrow : m[i]? = some row) (hv : row[j]? = some v) : matEntry m i j = v := by
  unfold matEntry
  simp only [List.getD_eq_getElem?_getD, hrow, hv, Option.getD_some]

theorem matEntry_tabulated (n : Nat) (c : Nat → Nat) (f : Nat → Nat → Dbl) (i j : Nat)
    (hi : i < n) (hj : j < c i) :
    matEntry ((List.range n).map (fun i => (List.range (c i)).map (fun j => f i j))) i j
      = f i j := by
  apply matEntry_eq_of_get _ _ _ ((List.range (c i)).map (fun j => f i j))
  · rw [List.getElem?_map, List.getElem?_range hi]
    rfl
  · rw [List.getElem?_map, List.getElem?_range hj]
    rfl

theorem matGet_eq_matEntry (m : List (List Dbl)) (i j : Nat) (v : Dbl)
    (h : matGet m i j = .ok v) : matEntry m i j = v := by
  obtain ⟨row, h1, h2⟩ := (matGet_ok_iff _ _ _ _).1 h
  exact matEntry_eq_of_get m i j row v h1 h2

/-- Two matrices of `n` rows of `n` entries with the same entries are equal. -/
theorem mat_ext (n : Nat) (A B : List (List Dbl)) (hA : A.length = n)
    (hAr : ∀ row ∈ A, row.length = n) (hB : B.length = n) (hBr : ∀ row ∈ B, row.length = n)
    (h : ∀ i j, i < n → j < n → matEntry A i j = matEntry B i j) : A = B := by
  apply List.ext_getElem (by rw [hA, hB])
  intro i hi1 hi2
  have hla : (A[i]).length = n := hAr _ (List.getElem_mem hi1)
  have hlb : (B[i]).length = n := hBr _ (List.getElem_mem hi2)
  apply List.ext_getElem (by rw [hla, hlb])
  intro j hj1 hj2
  have e := h i j (by omega) (by omega)
  rw [matEntry_eq_of_get A i j _ _ (List.getElem?_eq_getElem hi1)
      (List.getElem?_eq_getElem hj1),
    matEntry_eq_of_get B i j _ _ (List.getElem?_eq_getElem hi2)
      (List.getElem?_eq_getElem hj2)] at e
  exact e

theorem Dbl.isFinite_iff (v : Dbl) : v.isFinite = true ↔ ∃ q, v = Dbl.fin q := by
  cases v with
  | fin q => exact ⟨fun _ => ⟨q, rfl⟩, fun _ => rfl⟩
  | inf b => exact ⟨fun h => (by cases h), fun ⟨q, h⟩ => (by cases h)⟩
  | nan => exact ⟨fun h => (by cases h), fun ⟨q, h⟩ => (by cases h)⟩

/-- The entries of a finite square matrix are the entries of its rational matrix. -/
theorem FiniteSquare.entry {n : Nat} {m : List (List Dbl)} (h : FiniteSquare n m) (i j : Nat)
    (hi : i < n) (hj : j < n) :
    matEntry m i j = Dbl.fin (toMatrix n m ⟨i, hi⟩ ⟨j, hj⟩) := by
  obtain ⟨hl, hr⟩ := h
  have hi' : i < m.length := by omega
  obtain ⟨hrl, hrf⟩ := hr _ (List.getElem_mem hi')
  have hj' : j < (m[i]).length := by omega
  have e := matEntry_eq_of_get m i j _ _ (List.getElem?_eq_getElem hi')
    (List.getElem?_eq_getElem hj')
  obtain ⟨q, hq⟩ := (Dbl.isFinite_iff _).1 (hrf _ (List.getElem_mem hj'))
  show matEntry m i j = Dbl.fin (matEntry m i j).toRat
  rw [e, hq]
  rfl

theorem FiniteSquare.head_length {n : Nat} {m : List (List Dbl)} (h : FiniteSquare n m)
    (hn : 0 < n) : (m.headD []).length = n := by
  obtain ⟨hl, hr⟩ := h
  cases m with
  | nil => simp at hl; omega
  | cons row rest => exact (hr row (List.mem_cons_self _ _)).1

theorem matMul_entry (A B : List (List Dbl)) (i j : Nat) (hi : i < A.length)
    (hj : j < (B.headD []).length) :
    matEntry (matMul A B) i j
      = Dbl.sum ((List.range B.length).map (fun k => matEntry A i k * matEntry B k j)) :=
  matEntry_tabulated A.length (fun _ => (B.headD []).length)
    (fun i j => Dbl.sum ((List.range B.length).map (fun k => matEntry A i k * matEntry B k j)))
    i j hi hj

theorem matMul_length (A B : List (List Dbl)) : (matMul A B).length = A.length := by
  simp [matMul]

theorem matMul_row_length (A B : List (List Dbl)) :
    ∀ row ∈ matMul A B, row.length = (B.headD []).length := by
  intro row hrow
  simp only [matMul, List.mem_map, List.mem_range] at hrow
  obtain ⟨i, -, rfl⟩ := hrow
  simp

theorem identityMatrix_length (n : Nat) : (identityMatrix n).length = n := by
  simp [identityMatrix]

theorem identityMatrix_row_length (n : Nat) :
    ∀ row ∈ identityMatrix n, row.length = n := by
  intro row hrow
  simp only [identityMatrix, List.mem_map, List.mem_range] at hrow
  obtain ⟨i, -, rfl⟩ := hrow
  simp

theorem identityMatrix_entry (n i j : Nat) (hi : i < n) (hj : j < n) :
    matEntry (identityMatrix n) i j = if i = j then Dbl.fin 1 else Dbl.fin 0 :=
  matEntry_tabulated n (fun _ => n) (fun i j => if i = j then Dbl.fin 1 else Dbl.fin 0)
    i j hi hj

/-- The product of two finite square matrices is the product of their rational
matrices. -/
theorem matMul_entry_finite (n : Nat) (A B : List (List Dbl)) (hA : FiniteSquare n A)
    (hB : FiniteSquare n B) (i j : Nat) (hi : i < n) (hj : j < n) :
    matEntry (matMul A B) i j = Dbl.fin ((toMatrix n A * toMatrix n B) ⟨i, hi⟩ ⟨j, hj⟩) := by
  rw [matMul_entry A B i j (by rw [hA.1]; exact hi) (by rw [hB.head_length (by omega)]; exact hj),
    hB.1]
  rw [Dbl.sum_fin _ (fun k => (matEntry A i k).toRat * (matEntry B k j).toRat)]
  · rw [List.length_map, List.length_range, Matrix.mul_apply,
      ← Fin.sum_univ_eq_sum_range (fun k => (matEntry A i k).toRat * (matEntry B k j).toRat) n]
    rfl
  · intro k hk
    rw [List.length_map, List.length_range] at hk
    rw [List.getElem?_map, List.getElem?_range hk]
    simp only [Option.map_some']
    rw [hA.entry i k hi hk, hB.entry k j hk hj]
    rfl

/-- For finite square matrices, the product in double arithmetic is the identity exactly
when the product of the rational matrices is. -/
theorem matMul_eq_identity_iff (n : Nat) (A B : List (List Dbl)) (hA : FiniteSquare n A)
    (hB : FiniteSquare n B) :
    matMul A B = identityMatrix n ↔ toMatrix n A * toMatrix n B = 1 := by
  constructor
  · intro h
    ext i j
    have e := matMul_entry_finite n A B hA hB i.1 j.1 i.2 j.2
    rw [h, identityMatrix_entry n i.1 j.1 i.2 j.2] at e
    rw [Matrix.one_apply]
    by_cases hij : i = j
    · have hv : i.1 = j.1 := by rw [hij]
      rw [if_pos hv] at e
      rw [if_pos hij]
      exact (Dbl.fin.inj e).symm
    · have hv : ¬ i.1 = j.1 := fun hc => hij (Fin.ext hc)
      rw [if_neg hv] at e
      rw [if_neg hij]
      exact (Dbl.fin.inj e).symm
  · intro h
    apply mat_ext n _ _ (by rw [matMul_length, hA.1])
      (fun row hrow => by
        rw [matMul_row_length A B row hrow]
        apply hB.head_length
        have hl := matMul_length A B
        have hpos : 0 < (matMul A B).length := List.length_pos_of_mem hrow
        rw [hl, hA.1] at hpos
        exact hpos)
      (identityMatrix_length n) (identityMatrix_row_length n)
    intro i j hi hj
    rw [matMul_entry_finite n A B hA hB i j hi hj, h, identityMatrix_entry n i j hi hj,
      Matrix.one_apply]
    by_cases hij : i = j
    · subst hij
      simp
    · have : ¬ (⟨i, hi⟩ : Fin n) = ⟨j, hj⟩ := fun hc => hij (Fin.mk.inj hc)
      rw [if_neg this, if_neg hij]


theorem Dbl.add_fin_inv (a b : Dbl) (q : ℚ) (h : a + b = Dbl.fin q) :
    (∃ p, a = Dbl.fin p) ∧ ∃ r, b = Dbl.fin r := by
  cases a with
  | fin p =>
    cases b with
    | fin r => exact ⟨⟨p, rfl⟩, ⟨r, rfl⟩⟩
    | inf t => cases h
    | nan => cases h
  | inf s =>
    cases b with
    | fin r => cases h
    | inf t =>
      have h' : (if s = t then Dbl.inf s else Dbl.nan) = Dbl.fin q := h
      split_ifs at h'
    | nan => cases h
  | nan => cases b <;> cases h

theorem Dbl.mul_fin_inv (a : Dbl) (b q : ℚ) (h : a * Dbl.fin b = Dbl.fin q) :
    ∃ p, a = Dbl.fin p := by
  cases a with
  | fin p => exact ⟨p, rfl⟩
  | inf s =>
    have h' : (if b = 0 then Dbl.nan else Dbl.inf (xor s (decide (b < 0)))) = Dbl.fin q := h
    split_ifs at h'
  | nan => cases h

theorem Dbl.foldl_fin_inv : ∀ (l : List Dbl) (acc : Dbl) (q : ℚ),
    l.foldl (fun a v => a + v) acc = Dbl.fin q →
    (∃ p, acc = Dbl.fin p) ∧ ∀ v ∈ l, ∃ r, v = Dbl.fin r := by
  intro l
  induction l with
  | nil =>
    intro acc q h
    exact ⟨⟨q, h⟩, fun v hv => by cases hv⟩
  | cons w rest ih =>
    intro acc q h
    rw [List.foldl_cons] at h
    obtain ⟨⟨p, hp⟩, hrest⟩ := ih (acc + w) q h
    obtain ⟨ha, hw⟩ := Dbl.add_fin_inv acc w p hp
    refine ⟨ha, ?_⟩
    intro v hv
    rcases List.mem_cons.1 hv with rfl | hv'
    · exact hw
    · exact hrest v hv'

/-- A matrix of the shape of a finite square matrix whose product with it is the identity
has finite entries. -/
theorem finiteSquare_of_left_inverse (n : Nat) (C B : List (List Dbl))
    (hshape : C.map List.length = B.map List.length) (hB : FiniteSquare n B)
    (h : matMul C B = identityMatrix n) : FiniteSquare n C := by
  have hlen : C.length = n := by
    have := congrArg List.length hshape
    rw [List.length_map, List.length_map, hB.1] at this
    exact this
  refine ⟨hlen, ?_⟩
  intro row hrow
  obtain ⟨i, hi, rfl⟩ := List.getElem_of_mem hrow
  have hiB : i < B.length := by rw [hB.1, ← hlen]; exact hi
  have hrl : (C[i]).length = n := by
    have e : (C.map List.length)[i]? = (B.map List.length)[i]? := by rw [hshape]
    rw [List.getElem?_map, List.getElem?_map, List.getElem?_eq_getElem hi,
      List.getElem?_eq_getElem hiB] at e
    simp only [Option.map_some', Option.some.injEq] at e
    rw [e]
    exact (hB.2 _ (List.getElem_mem hiB)).1
  refine ⟨hrl, ?_⟩
  intro v hv
  obtain ⟨k, hk, rfl⟩ := List.getElem_of_mem hv
  have hk' : k < n := by omega
  have hi' : i < n := by omega
  have hn : 0 < n := by omega
  have e := matMul_entry C B i 0 hi (by rw [hB.head_length hn]; exact hn)
  rw [h, identityMatrix_entry n i 0 hi' hn, hB.1] at e
  have hfin : ∃ q, Dbl.sum ((List.range n).map
      (fun k => matEntry C i k * matEntry B k 0)) = Dbl.fin q := by
    rw [← e]
    split_ifs
    · exact ⟨1, rfl⟩
    · exact ⟨0, rfl⟩
  obtain ⟨q, hq⟩ := hfin
  obtain ⟨-, hall⟩ := Dbl.foldl_fin_inv _ _ q hq
  obtain ⟨r, hr⟩ := hall (matEntry C i k * matEntry B k 0)
    (List.mem_map.2 ⟨k, List.mem_range.2 hk', rfl⟩)
  rw [hB.entry k 0 hk' hn] at hr
  obtain ⟨p, hp⟩ := Dbl.mul_fin_inv _ _ _ hr
  rw [matEntry_eq_of_get C i k _ _ (List.getElem?_eq_getElem hi)
    (List.getElem?_eq_getElem hk)] at hp
  rw [hp]
  rfl

/-- A left inverse of a finite square matrix, of its shape, is a right inverse too. -/
theorem matMul_identity_comm (n : Nat) (C B : List (List Dbl))
    (hshape : C.map List.length = B.map List.length) (hB : FiniteSquare n B)
    (h : matMul C B = identityMatrix n) : matMul B C = identityMatrix n := by
  have hC := finiteSquare_of_left_inverse n C B hshape hB h
  rw [matMul_eq_identity_iff n C B hC hB] at h
  rw [matMul_eq_identity_iff n B C hB hC]
  exact Matrix.mul_eq_one_comm.1 h


theorem specInverse_shape : ShapePreserving specInverse := by
  intro m
  apply List.ext_getElem
  · simp [specInverse]
  · intro i h1 h2
    have hi : i < m.length := by simpa using h2
    simp only [specInverse, List.getElem_map, List.getElem_range, List.length_map,
      List.length_range]
    rw [List.getD_eq_getElem?_getD, List.getElem?_eq_getElem hi, Option.getD_some]

theorem specInverse_entry (m : List (List Dbl)) (hm : FiniteSquare m.length m) (i j : Nat)
    (hi : i < m.length) (hj : j < m.length) :
    matEntry (specInverse m) i j = Dbl.fin ((toMatrix m.length m).det⁻¹
      * (toMatrix m.length m).adjugate ⟨i, hi⟩ ⟨j, hj⟩) := by
  have hrow : (m.getD i []).length = m.length := by
    rw [List.getD_eq_getElem?_getD, List.getElem?_eq_getElem hi, Option.getD_some]
    exact (hm.2 _ (List.getElem_mem hi)).1
  unfold specInverse
  rw [matEntry_tabulated m.length (fun i => (m.getD i []).length) (fun i j => invEntry m i j)
    i j hi (by show j < (m.getD i []).length; rw [hrow]; exact hj)]
  unfold invEntry
  rw [dif_pos ⟨hi, hj⟩]

theorem specInverse_finiteSquare (m : List (List Dbl)) (hm : FiniteSquare m.length m) :
    FiniteSquare m.length (specInverse m) := by
  have hl : (specInverse m).length = m.length := by simp [specInverse]
  refine ⟨hl, ?_⟩
  intro row hrow
  obtain ⟨i, hi, rfl⟩ := List.getElem_of_mem hrow
  have hi' : i < m.length := by omega
  have hrl : ((specInverse m)[i]).length = m.length := by
    have e := congrArg (fun l => l[i]?) (specInverse_shape m)
    simp only [List.getElem?_map, List.getElem?_eq_getElem hi, List.getElem?_eq_getElem hi',
      Option.map_some', Option.some.injEq] at e
    rw [e]
    exact (hm.2 _ (List.getElem_mem hi')).1
  refine ⟨hrl, ?_⟩
  intro v hv
  obtain ⟨j, hj, rfl⟩ := List.getElem_of_mem hv
  have hj' : j < m.length := by omega
  have e := specInverse_entry m hm i j hi' hj'
  rw [matEntry_eq_of_get (specInverse m) i j _ _ (List.getElem?_eq_getElem hi)
    (List.getElem?_eq_getElem hj)] at e
  rw [e]
  rfl

/-- The routine `specInverse` is an inversion routine: on a non-singular matrix it returns a
matrix whose product with the argument is the identity. -/
theorem specInverse_routine : InversionRoutine specInverse := by
  refine ⟨specInverse_shape, ?_⟩
  intro m ⟨hm, hdet⟩
  rw [matMul_eq_identity_iff m.length _ _ (specInverse_finiteSquare m hm) hm]
  have e : toMatrix m.length (specInverse m)
      = (toMatrix m.length m).det⁻¹ • (toMatrix m.length m).adjugate := by
    ext i j
    show (matEntry (specInverse m) i.1 j.1).toRat = _
    rw [specInverse_entry m hm i.1 j.1 i.2 j.2]
    rfl
  rw [e, Matrix.smul_mul, Matrix.adjugate_mul, smul_smul, inv_mul_cancel₀ hdet, one_smul]

/-- The inversion routine decides nothing but `C_tilde`: with another routine the
constructor returns the same engine with the `C_tilde` of that routine. -/
theorem construct_with_inverse (order : Nat) (knotX : List ℚ) (K : List (List Int))
    (inverse inverse' : List (List Dbl) → List (List Dbl)) (s : Spline)
    (h : Spline.construct order knotX K inverse = .ok s) :
    Spline.construct order knotX K inverse'
      = .ok { s with C_tilde_matrix := inverse' s.B_tilde_matrix } := by
  obtain ⟨h1, h3, h3', h4, h5, coll, rows, s1, beta, hcoll, hlen, hrows, hbeta, rfl⟩ :=
    construct_ok order knotX K inverse s h
  exact construct_of_stages order knotX K inverse' h1 ⟨h3, h3'⟩ ⟨h4, h5⟩ coll rows s1 beta
    hcoll hlen hrows hbeta

theorem demoEngineExact_constructed :
    Spline.construct 3 demoKnots demoK specInverse = .ok demoEngineExact :=
  construct_with_inverse 3 demoKnots demoK demoInverse specInverse demoEngine
    demoEngine_constructed

theorem demoBtilde_finiteSquare : FiniteSquare 5 demoBtilde := by
  unfold FiniteSquare
  decide!

theorem demoCtilde_finiteSquare : FiniteSquare 5 demoCtilde := by
  unfold FiniteSquare
  decide!

theorem demoBtilde_nonsingular : Nonsingular demoBtilde := by
  refine ⟨demoBtilde_finiteSquare, ?_⟩
  have h : matMul demoCtilde demoBtilde = identityMatrix 5 := by decide!
  rw [matMul_eq_identity_iff 5 _ _ demoCtilde_finiteSquare demoBtilde_finiteSquare] at h
  exact Matrix.det_ne_zero_of_left_inverse h

theorem demoEngineExact_Btilde : demoEngineExact.B_tilde_matrix = demoBtilde := by decide!


/-- With an inversion routine and a non-singular `B_tilde`, the stored `C_tilde` is a
two-sided inverse of `B_tilde`, and both are finite square matrices of size
`N + order - 1`. -/
theorem construct_inverse_identities (order : Nat) (knotX : List ℚ) (K : List (List Int))
    (inverse : List (List Dbl) → List (List Dbl)) (s : Spline)
    (hc : Spline.construct order knotX K inverse = .ok s) (hinv : InversionRoutine inverse)
    (hns : Nonsingular s.B_tilde_matrix) :
    FiniteSquare (s.N + s.order - 1) s.B_tilde_matrix ∧
    FiniteSquare (s.N + s.order - 1) s.C_tilde_matrix ∧
    matMul s.C_tilde_matrix s.B_tilde_matrix = identityMatrix (s.N + s.order - 1) ∧
    matMul s.B_tilde_matrix s.C_tilde_matrix = identityMatrix (s.N + s.order - 1) := by
  obtain ⟨hBl, -, hbl, -⟩ := construct_row_lengths order knotX K inverse s hc
  obtain ⟨hbt, hct⟩ := construct_matrices order knotX K inverse s hc
  obtain ⟨hr, -, -, -⟩ := construct_ready order knotX K inverse s hc
  have hop := hr.order_pos
  have hlen : s.B_tilde_matrix.length = s.N + s.order - 1 := by
    rw [hbt, List.length_append, hBl, hbl]
    omega
  have h1 := hinv.2 _ hns
  rw [← hct, hlen] at h1
  have hB : FiniteSquare (s.N + s.order - 1) s.B_tilde_matrix := by
    have := hns.1
    rw [hlen] at this
    exact this
  have hshape : s.C_tilde_matrix.map List.length = s.B_tilde_matrix.map List.length := by
    rw [hct]
    exact hinv.1 _
  exact ⟨hB, finiteSquare_of_left_inverse _ _ _ hshape hB h1, h1,
    matMul_identity_comm _ _ _ hshape hB h1⟩

/-- Claim C12, amended to exact arithmetic.  For every engine constructed in exact
arithmetic, the inversion being the exact one (`specInverse`), and whose assembled `B_tilde`
is non-singular, the stored `C_tilde` satisfies `C_tilde * B_tilde = I` and
`B_tilde * C_tilde = I`, with `I` the identity of size `N + order - 1`. -/
theorem C12_inverse_property (order : Nat) (knotX : List ℚ) (K : List (List Int))
    (s : Spline) (hc : Spline.construct order knotX K specInverse = .ok s)
    (hns : Nonsingular s.B_tilde_matrix) :
    matMul s.C_tilde_matrix s.B_tilde_matrix = identityMatrix (s.N + s.order - 1) ∧
    matMul s.B_tilde_matrix s.C_tilde_matrix = identityMatrix (s.N + s.order - 1) :=
  (construct_inverse_identities order knotX K specInverse s hc specInverse_routine hns).2.2

/-- Witness of C12: the engine of `main.cpp` built in exact arithmetic with the exact
inversion, and the matrices `B_tilde` and `C_tilde` of the demo themselves. -/
theorem C12_inverse_property_witness :
    matMul demoCtilde demoBtilde = identityMatrix 5 ∧
    matMul demoEngineExact.C_tilde_matrix demoEngineExact.B_tilde_matrix
      = identityMatrix (demoEngineExact.N + demoEngineExact.order - 1) ∧
    matMul demoEngineExact.B_tilde_matrix demoEngineExact.C_tilde_matrix
      = identityMatrix (demoEngineExact.N + demoEngineExact.order - 1) :=
  ⟨by decide!,
    C12_inverse_property 3 demoKnots demoK demoEngineExact demoEngineExact_constructed
      (by rw [demoEngineExact_Btilde]; exact demoBtilde_nonsingular)⟩


/-- Claim C20, amended to exact arithmetic.  For every engine constructed in exact
arithmetic from accepted knots, nondecreasing ones included, the inversion being the exact
one (`specInverse`), and whose `B_tilde` is non-singular, so that `C_tilde` is its inverse,
`operatorMatrix(0)` returns the `N × N` identity: its entry `(alpha, beta)` is the entry
`(alpha, beta)` of `B_tilde * C_tilde`. -/
theorem C20_operator_matrix_zero (order : Nat) (knotX : List ℚ) (K : List (List Int))
    (s : Spline) (hc : Spline.construct order knotX K specInverse = .ok s)
    (hns : Nonsingular s.B_tilde_matrix) :
    s.operatorMatrix 0 = .ok (identityMatrix s.N) ∧
    ∀ alpha beta, alpha < s.N → beta < s.N →
      matEntry (identityMatrix s.N) alpha beta
        = matEntry (matMul s.B_tilde_matrix s.C_tilde_matrix) alpha beta := by
  obtain ⟨hBf, hCf, -, hBC⟩ :=
    construct_inverse_identities order knotX K specInverse s hc specInverse_routine hns
  obtain ⟨hr, -, hBl, hBrows⟩ := construct_ready order knotX K specInverse s hc
  obtain ⟨hbt, -⟩ := construct_matrices order knotX K specInverse s hc
  have hop := hr.order_pos
  have hn := hr.numKnots_eq
  have hsz := hr.size
  obtain ⟨O, hO, hOl, hrows⟩ :=
    operatorMatrix_entries order knotX K specInverse s hc specInverse_shape 0 (by omega)
  have hid : ∀ alpha beta, alpha < s.N → beta < s.N →
      matEntry (identityMatrix s.N) alpha beta
        = matEntry (matMul s.B_tilde_matrix s.C_tilde_matrix) alpha beta := by
    intro alpha beta ha hb
    rw [hBC, identityMatrix_entry _ _ _ ha hb,
      identityMatrix_entry _ _ _ (by omega) (by omega)]
  refine ⟨?_, hid⟩
  rw [hO]
  congr 1
  apply mat_ext s.N O _ hOl ?_ (identityMatrix_length _) (identityMatrix_row_length _)
  · intro alpha beta ha hb
    obtain ⟨x, row, hx, hrow, -, hent⟩ := hrows alpha ha
    obtain ⟨cv, dv, hcd, hval⟩ := hent beta hb
    obtain ⟨rowB, x', hrowB, hx', -, hBm⟩ := hBrows alpha ha
    rw [hx] at hx'
    cases hx'
    obtain ⟨hlo, hhi⟩ := hr.coll_span alpha x hx
    have hBt : ∀ i, i < s.N + s.order - 1 →
        matEntry s.B_tilde_matrix alpha i = Bm s.t x s.order i := by
      intro i hi
      apply matEntry_eq_of_get _ _ _ rowB
      · rw [hbt, List.getElem?_append_left (by rw [hBl]; exact ha)]
        exact hrowB
      · exact hBm i hi
    rw [matEntry_eq_of_get O alpha beta row _ hrow hval, hid alpha beta ha hb,
      matMul_entry _ _ alpha beta (by rw [hBf.1]; omega)
        (by rw [hCf.head_length (by omega)]; omega), hCf.1]
    congr 1
    apply List.map_congr_left
    intro i hi
    rw [List.mem_range] at hi
    obtain ⟨h1, h2⟩ := hcd i hi
    rw [D_B_zero_eq_Bm s hn x hlo hhi s.order i hop (le_refl _) (by omega)] at h2
    rw [hBt i hi, matGet_eq_matEntry _ _ _ _ h1, Dbl.mul_swap, Except.ok.inj h2]
  · intro row hrow
    obtain ⟨alpha, ha, rfl⟩ := List.getElem_of_mem hrow
    obtain ⟨x, row', -, hrow', hlen, -⟩ := hrows alpha (by omega)
    rw [List.getElem?_eq_getElem ha] at hrow'
    cases hrow'
    exact hlen

/-- Witness of C20: the engine of `main.cpp` built in exact arithmetic with the exact
inversion. -/
theorem C20_operator_matrix_zero_witness :
    demoEngine.operatorMatrix 0 = .ok (identityMatrix 3) ∧
    demoEngineExact.operatorMatrix 0 = .ok (identityMatrix demoEngineExact.N) ∧
    demoEngineExact.N = 3 :=
  ⟨by decide!, (C20_operator_matrix_zero 3 demoKnots demoK demoEngineExact
      demoEngineExact_constructed
      (by rw [demoEngineExact_Btilde]; exact demoBtilde_nonsingular)).1, by decide!⟩


/-! ## Claim C21: padding knots out of order -/

/-- Claim C21.  The constructor accepts order 3 with the knots `0, 5, 2, 3, 4, 5, 6, 7`, whose
padding knots are out of order while the physical knots `2, 3, 4, 5` are strictly increasing
and every collocation point lies in `[knot.front(), knot.back()]`; on that engine the key
`k = 2`, `i = 0`, `alpha = 0` is valid, the memoized `B(2, 0, alpha = 0)` returns `1/2` from
the cache, and the direct `B(2, 0, collocationX[0])` with `collocationX[0] = 5/2` returns
`0`. -/
theorem C21_padding_knots_unchecked :
    Spline.construct 3 shuffledKnots demoK demoInverse = .ok shuffledEngine ∧
    shuffledEngine.t 2 < shuffledEngine.t 1 ∧
    (shuffledEngine.t 2 < shuffledEngine.t 3 ∧ shuffledEngine.t 3 < shuffledEngine.t 4 ∧
      shuffledEngine.t 4 < shuffledEngine.t 5) ∧
    (∀ x ∈ shuffledEngine.collocationX,
      shuffledEngine.t 0 ≤ x ∧ x ≤ shuffledEngine.t (shuffledEngine.knotX.length - 1)) ∧
    (1 ≤ 2 ∧ 2 ≤ shuffledEngine.order ∧ 0 < shuffledEngine.numKnots - 2 ∧
      0 < shuffledEngine.N) ∧
    shuffledEngine.collocationX[0]? = some (5 / 2) ∧
    cacheGet shuffledEngine.B_k_i_alpha 2 0 0 = .ok (Dbl.fin (1 / 2)) ∧
    shuffledEngine.B_alpha 2 0 0 = .ok (Dbl.fin (1 / 2), shuffledEngine) ∧
    shuffledEngine.B 2 0 (5 / 2) = .ok (Dbl.fin 0) ∧
    (∃ k i alpha x v w s', shuffledEngine.collocationX[alpha]? = some x ∧
      shuffledEngine.B_alpha k i alpha = .ok (v, s') ∧ shuffledEngine.B k i x = .ok w ∧
      v ≠ w) := by
  refine ⟨by decide!, by decide!, by decide!, by decide!, by decide!, by decide!, by decide!,
    by decide!, by decide!, ?_⟩
  exact ⟨2, 0, 0, 5 / 2, Dbl.fin (1 / 2), Dbl.fin 0, shuffledEngine, by decide!, by decide!,
    by decide!, by decide!⟩


/-! ## Claims C22 and C23: the band of `B_matrix`, and the bounds of the basis values -/

theorem Bq_nonneg (t : Nat → ℚ) (n : Nat) (hmono : ∀ i j, i < j → j < n → t i < t j)
    (x : ℚ) (k : Nat) : ∀ (i : Nat), i + k < n → 0 ≤ Bq t k i x := by
  induction k using Nat.strong_induction_on with
  | _ k ih =>
    intro i hik
    rcases k with _ | _ | k
    · exact le_of_eq rfl
    · rw [Bq_one]
      split_ifs <;> norm_num
    · simp only [Bq]
      split_ifs with hout
      · exact le_refl _
      · simp only [not_or, not_lt] at hout
        have d1 : 0 < t (k + 2 + i - 1) - t i := sub_pos.2 (hmono _ _ (by omega) (by omega))
        have d2 : 0 < t (i + (k + 2)) - t (i + 1) :=
          sub_pos.2 (hmono _ _ (by omega) (by omega))
        have b1 := ih (k + 1) (by omega) i (by omega)
        have b2 := ih (k + 1) (by omega) (i + 1) (by omega)
        exact add_nonneg
          (mul_nonneg b1 (div_nonneg (sub_nonneg.2 hout.1) (le_of_lt d1)))
          (mul_nonneg b2 (div_nonneg (sub_nonneg.2 hout.2) (le_of_lt d2)))

/-- The first term of the blend, with its weight, is between `0` and the value it weighs. -/
theorem Bq_weighted (t : Nat → ℚ) (n : Nat) (hmono : ∀ i j, i < j → j < n → t i < t j)
    (x : ℚ) (k i : Nat) (hik : i + (k + 1) < n) :
    0 ≤ Bq t (k + 1) i x * ((x - t i) / (t (i + (k + 1)) - t i)) ∧
    Bq t (k + 1) i x * ((x - t i) / (t (i + (k + 1)) - t i)) ≤ Bq t (k + 1) i x := by
  have d : 0 < t (i + (k + 1)) - t i := sub_pos.2 (hmono _ _ (by omega) hik)
  have b := Bq_nonneg t n hmono x (k + 1) i hik
  by_cases hl : x < t i
  · rw [Bq_zero_left t (k + 1) i x hl]
    simp
  · by_cases hr : t (i + (k + 1)) ≤ x
    · rw [Bq_zero_right t n hmono x (k + 1) i hik hr]
      simp
    · have hl' : t i ≤ x := not_lt.1 hl
      have hr' : x < t (i + (k + 1)) := not_le.1 hr
      have w0 : 0 ≤ (x - t i) / (t (i + (k + 1)) - t i) :=
        div_nonneg (sub_nonneg.2 hl') (le_of_lt d)
      have w1 : (x - t i) / (t (i + (k + 1)) - t i) ≤ 1 :=
        (div_le_one d).2 (by linarith)
      exact ⟨mul_nonneg b w0, mul_le_of_le_one_right b w1⟩

theorem Bq_one_window (t : Nat → ℚ) (x : ℚ) (a m : Nat)
    (hm : ∀ j, j < m → t (a + j) ≤ t (a + j + 1)) :
    ∑ j in Finset.range m, Bq t 1 (a + j) x ≤ if x < t (a + m) then 1 else 0 := by
  induction m with
  | zero =>
    simp only [Finset.range_zero, Finset.sum_empty]
    split_ifs <;> norm_num
  | succ m ih =>
    have IH := ih (fun j hj => hm j (by omega))
    have hmm := hm m (by omega)
    rw [Finset.sum_range_succ, Bq_one]
    have e : a + (m + 1) = a + m + 1 := by omega
    rw [e]
    by_cases h1 : x < t (a + m)
    · have h2 : x < t (a + m + 1) := lt_of_lt_of_le h1 hmm
      rw [if_pos h1] at IH
      rw [if_neg (fun hc => absurd hc.1 (not_le.2 h1)), if_pos h2]
      linarith
    · rw [if_neg h1] at IH
      by_cases h2 : x < t (a + m + 1)
      · rw [if_pos ⟨not_lt.1 h1, h2⟩, if_pos h2]
        linarith
      · rw [if_neg (fun hc => h2 hc.2), if_neg h2]
        linarith

/-- On strictly increasing knots the sum of `B(k, i, x)` over any window of consecutive
indices `i` is at most `1`. -/
theorem Bq_window_le_one (t : Nat → ℚ) (n : Nat) (hmono : ∀ i j, i < j → j < n → t i < t j)
    (x : ℚ) (k : Nat) : ∀ (a m : Nat), 1 ≤ k → a + m + k ≤ n →
    ∑ j in Finset.range m, Bq t k (a + j) x ≤ 1 := by
  induction k with
  | zero => intro a m h; omega
  | succ k ih =>
    intro a m _ hn
    rcases k with _ | k
    · refine le_trans (Bq_one_window t x a m (fun j hj =>
        le_of_lt (hmono _ _ (by omega) (by omega)))) ?_
      split_ifs <;> norm_num
    · have IH := ih a (m + 1) (by omega) (by omega)
      rw [Finset.sum_range_succ'] at IH
      have hsum : ∀ j ∈ Finset.range m, Bq t (k + 2) (a + j) x =
          (Bq t (k + 1) (a + j) x * ((x - t (a + j)) / (t (a + j + (k + 1)) - t (a + j)))
            - Bq t (k + 1) (a + (j + 1)) x
              * ((x - t (a + (j + 1))) / (t (a + (j + 1) + (k + 1)) - t (a + (j + 1)))))
          + Bq t (k + 1) (a + (j + 1)) x := by
        intro j hj
        rw [Finset.mem_range] at hj
        rw [Bq_blend t n hmono k (a + j) x (by omega)]
        have e2 : k + 2 + (a + j) - 1 = a + j + (k + 1) := by omega
        have e3 : a + (j + 1) + (k + 1) = a + j + (k + 2) := by omega
        have e4 : a + (j + 1) = a + j + 1 := by omega
        rw [e2, e3, e4]
        have d2 : t (a + j + (k + 2)) - t (a + j + 1) ≠ 0 :=
          sub_ne_zero.2 (ne_of_gt (hmono _ _ (by omega) (by omega)))
        field_simp
        ring
      rw [Finset.sum_congr rfl hsum, Finset.sum_add_distrib,
        Finset.sum_range_sub' (fun j => Bq t (k + 1) (a + j) x
          * ((x - t (a + j)) / (t (a + j + (k + 1)) - t (a + j))))]
      have w0 := Bq_weighted t n hmono x k (a + 0) (by omega)
      by_cases hm0 : m = 0
      · subst hm0
        simp
      · have wm := Bq_weighted t n hmono x k (a + m) (by omega)
        linarith [w0.2, wm.1]


theorem Bq_le_one (t : Nat → ℚ) (n : Nat) (hmono : ∀ i j, i < j → j < n → t i < t j)
    (x : ℚ) (k i : Nat) (hk : 1 ≤ k) (hik : i + k < n) : Bq t k i x ≤ 1 := by
  have h := Bq_window_le_one t n hmono x k i 1 hk (by omega)
  simpa using h

/-- On strictly increasing knots the entry `(alpha, i)` of `B_matrix` is the finite value of
`B(order, i)` at the collocation point `alpha`, the midpoint of two physical knots. -/
theorem construct_B_entry (order : Nat) (knotX : List ℚ) (K : List (List Int))
    (inverse : List (List Dbl) → List (List Dbl)) (s : Spline)
    (hc : Spline.construct order knotX K inverse = .ok s) (hs : s.StrictKnots)
    (alpha i : Nat) (ha : alpha < s.N) (hi : i < s.N + s.order - 1) :
    ∃ x, s.collocationX[alpha]? = some x ∧
      s.t (s.order - 1 + alpha) < x ∧ x < s.t (s.order + alpha) ∧
      matGet s.B_matrix alpha i = .ok (Dbl.fin (Bq s.t s.order i x)) := by
  obtain ⟨hr, -, -, hB⟩ := construct_ready order knotX K inverse s hc
  obtain ⟨hlt, hx⟩ := construct_collocation order knotX K inverse s hc alpha ha
  obtain ⟨row, x, hrow, hx', -, hval⟩ := hB alpha ha
  rw [hx] at hx'
  cases hx'
  have hn := hr.numKnots_eq
  have hsz := hr.size
  have hop := hr.order_pos
  refine ⟨_, hx, by linarith, by linarith, ?_⟩
  rw [matGet_ok_iff]
  refine ⟨row, hrow, ?_⟩
  rw [hval i hi, Bm_eq_Bq s.t s.knotX.length (fun a b hab hb => hs.lt b a hab hb) _ s.order i
    hop (by omega)]

/-- Claim C22, amended to strictly increasing knots and exact arithmetic.  For every engine
built in exact arithmetic from a strictly increasing knot sequence, the entry `B(alpha, i)`
of `B_matrix` is `0` for every row
`alpha < N` and every column `i` with `i < alpha` or `i > alpha + order - 1`: the nonzero
entries of row `alpha` lie in the columns `alpha .. alpha + order - 1`. -/
theorem C22_B_matrix_banded (order : Nat) (knotX : List ℚ) (K : List (List Int))
    (inverse : List (List Dbl) → List (List Dbl)) (s : Spline)
    (hc : Spline.construct order knotX K inverse = .ok s) (hs : s.StrictKnots)
    (alpha i : Nat) (ha : alpha < s.N) (hi : i < s.N + s.order - 1)
    (hout : i < alpha ∨ alpha + s.order - 1 < i) :
    matGet s.B_matrix alpha i = .ok (Dbl.fin 0) := by
  obtain ⟨hr, -, -, -⟩ := construct_ready order knotX K inverse s hc
  have hn := hr.numKnots_eq
  have hsz := hr.size
  have hop := hr.order_pos
  obtain ⟨x, -, hlo, hhi, hget⟩ := construct_B_entry order knotX K inverse s hc hs alpha i ha hi
  rw [hget]
  congr 2
  rcases hout with h | h
  · apply Bq_zero_right s.t s.knotX.length hs.mono x s.order i (by omega)
    exact le_trans (hs.le_of_le _ _ (by omega) (by omega)) (le_of_lt hlo)
  · apply Bq_zero_left
    exact lt_of_lt_of_le hhi (hs.le_of_le _ _ (by omega) (by omega))

/-- Witness of C22: the rows of `B_matrix` of the engine of `main.cpp`, and a zero entry
outside the band. -/
theorem C22_B_matrix_banded_witness :
    demoEngine.B_matrix =
      [[Dbl.fin (1 / 8), Dbl.fin (3 / 4), Dbl.fin (1 / 8), Dbl.fin 0, Dbl.fin 0],
       [Dbl.fin 0, Dbl.fin (1 / 8), Dbl.fin (3 / 4), Dbl.fin (1 / 8), Dbl.fin 0],
       [Dbl.fin 0, Dbl.fin 0, Dbl.fin (1 / 8), Dbl.fin (3 / 4), Dbl.fin (1 / 8)]] ∧
    matGet demoEngine.B_matrix 2 1 = .ok (Dbl.fin 0) :=
  ⟨by decide!,
    C22_B_matrix_banded 3 demoKnots demoK demoInverse demoEngine demoEngine_constructed
      demoEngine_strict 2 1 (by decide!) (by decide!) (by decide!)⟩

/-- Counterexample to C22 as stated: the knots `0, 0, 1, 2, 3, 4, 5, 6` are nondecreasing and
accepted, and the entry `B(1, 0)` of `B_matrix`, in a column left of the band of row 1, is
`NaN`, the result of the blend over the zero knot difference `knot[1] - knot[0]`. -/
theorem C22_counterexample :
    Spline.construct 3 clampedKnots demoK demoInverse = .ok clampedEngine ∧
    clampedEngine.NondecreasingKnots ∧
    (1 < clampedEngine.N ∧ 0 < clampedEngine.N + clampedEngine.order - 1 ∧ 0 < 1) ∧
    matGet clampedEngine.B_matrix 1 0 = .ok Dbl.nan ∧
    matGet clampedEngine.B_matrix 1 0 ≠ .ok (Dbl.fin 0) :=
  ⟨clampedEngine_constructed, clampedEngine_nondecreasing, by decide!, by decide!,
    by decide!⟩

/-- Claim C23.  On an engine built from a strictly increasing knot sequence, for every `k`
in `1 .. order`, every `i < numKnots - k` and every `x` in `[knot.front(), knot.back()]` the
call `B(k, i, x)` returns a finite value between `0` and `1`; hence every entry of
`B_matrix` lies in `[0, 1]`. -/
theorem C23_basis_bounded (order : Nat) (knotX : List ℚ) (K : List (List Int))
    (inverse : List (List Dbl) → List (List Dbl)) (s : Spline)
    (hc : Spline.construct order knotX K inverse = .ok s) (hs : s.StrictKnots) :
    (∀ (k i : Nat) (x : ℚ), 1 ≤ k → k ≤ s.order → i < s.numKnots - k → s.t 0 ≤ x →
      x ≤ s.t (s.knotX.length - 1) →
      ∃ q, s.B k i x = .ok (Dbl.fin q) ∧ 0 ≤ q ∧ q ≤ 1) ∧
    (∀ (alpha i : Nat), alpha < s.N → i < s.N + s.order - 1 →
      ∃ q, matGet s.B_matrix alpha i = .ok (Dbl.fin q) ∧ 0 ≤ q ∧ q ≤ 1) := by
  obtain ⟨hr, -, -, -⟩ := construct_ready order knotX K inverse s hc
  have hn := hr.numKnots_eq
  have hsz := hr.size
  have hop := hr.order_pos
  constructor
  · intro k i x hk1 hk2 hi hlo hhi
    exact ⟨_, B_eq_Bq s hn hs x hlo hhi k i hk1 hk2 hi,
      Bq_nonneg s.t s.knotX.length hs.mono x k i (by omega),
      Bq_le_one s.t s.knotX.length hs.mono x k i hk1 (by omega)⟩
  · intro alpha i ha hi
    obtain ⟨x, -, -, -, hget⟩ := construct_B_entry order knotX K inverse s hc hs alpha i ha hi
    exact ⟨_, hget, Bq_nonneg s.t s.knotX.length hs.mono x s.order i (by omega),
      Bq_le_one s.t s.knotX.length hs.mono x s.order i hop (by omega)⟩

/-- Witness of C23 on the engine of `main.cpp`: `B(3, 1, 5/2) = 3/4`. -/
theorem C23_basis_bounded_witness :
    demoEngine.B 3 1 (5 / 2) = .ok (Dbl.fin (3 / 4)) ∧
    ∃ q, demoEngine.B 3 1 (5 / 2) = .ok (Dbl.fin q) ∧ 0 ≤ q ∧ q ≤ 1 :=
  ⟨by decide!,
    (C23_basis_bounded 3 demoKnots demoK demoInverse demoEngine demoEngine_constructed
      demoEngine_strict).1 3 1 (5 / 2) (by decide!) (by decide!) (by decide!) (by decide!)
      (by decide!)⟩


/-! # Binary64: where rounding and overflow separate the program from exact arithmetic -/

theorem unevenEngine64_constructed :
    Binary64.Spline.construct 3 (knots64 unevenKnots) demoK noInverse64 = .ok unevenEngine64 := by
  decide!

theorem tinyEngine64_constructed :
    Binary64.Spline.construct 3 (knots64 tinyKnots) demoK noInverse64 = .ok tinyEngine64 := by
  decide!

theorem tinyEngine_constructed :
    Spline.construct 3 tinyKnots demoK demoInverse = .ok tinyEngine := by decide!

theorem demoEngine64_constructed :
    Binary64.Spline.construct 3 (knots64 demoKnots) demoK nearestInverse64
      = .ok demoEngine64 := by decide!

/-- Counterexample to C6 as stated: in binary64, on the strictly increasing knots
`0, 1, 2, 3, 5, 6, 7, 8`, row 1 of `B_matrix` holds `0, fl(1/6), fl(2/3), fl(1/6), 0`; its
sum accumulated in doubles is `1 - 2 ^ (-53)`, and the exact sum of the stored doubles is
`1 - 2 ^ (-54)`: in no order of summation does the row sum to `1`. -/
theorem C6_counterexample :
    Binary64.Spline.construct 3 (knots64 unevenKnots) demoK noInverse64 = .ok unevenEngine64 ∧
    knots64 unevenKnots = unevenKnots.map (fun q => F64.mk (Dbl.fin q)) ∧
    unevenEngine64.collocationX[1]? = some (F64.mk (Dbl.fin 4)) ∧
    unevenEngine64.B_matrix[1]? = some
      [F64.mk (Dbl.fin 0), F64.mk (Dbl.fin (6004799503160661 / 36028797018963968)),
       F64.mk (Dbl.fin (6004799503160661 / 9007199254740992)),
       F64.mk (Dbl.fin (6004799503160661 / 36028797018963968)), F64.mk (Dbl.fin 0)] ∧
    (unevenEngine64.B_matrix.getD 1 []).foldl (fun a v => a + v) (F64.ofNat 0)
      = F64.mk (Dbl.fin (1 - 1 / 2 ^ 53)) ∧
    Dbl.sum ((unevenEngine64.B_matrix.getD 1 []).map F64.val) = Dbl.fin (1 - 1 / 2 ^ 54) :=
  ⟨unevenEngine64_constructed, by decide!, by decide!, by decide!, by decide!, by decide!⟩

/-- Counterexample to C8 as stated: in binary64, on the strictly increasing knots
`j * 2 ^ (-600)`, `j = 0 .. 7`, at `x = 2.5 * 2 ^ (-600)`, strictly between `knot[2]` and
`knot[3]`, the call `D_B(2, 3, 1, x)` returns `-inf`, while the second derivative of
`B(3, 1, ·)` at `x`, which the exact evaluation returns, is the number `-2 ^ 1201`. -/
theorem C8_counterexample :
    Binary64.Spline.construct 3 (knots64 tinyKnots) demoK noInverse64 = .ok tinyEngine64 ∧
    knots64 tinyKnots = tinyKnots.map (fun q => F64.mk (Dbl.fin q)) ∧
    F64.ofRat (5 / 2 / 2 ^ 600) = F64.mk (Dbl.fin (5 / 2 / 2 ^ 600)) ∧
    (tinyEngine.t 2 < 5 / 2 / 2 ^ 600 ∧ (5 / 2 / 2 ^ 600 : ℚ) < tinyEngine.t 3) ∧
    (2 < tinyEngine64.order ∧ 2 + 1 ≤ 3 ∧ 3 ≤ tinyEngine64.order ∧
      1 < tinyEngine64.numKnots - 3) ∧
    tinyEngine64.D_B 2 3 1 (F64.ofRat (5 / 2 / 2 ^ 600)) = .ok (F64.mk (Dbl.inf true)) ∧
    tinyEngine.D_B 2 3 1 (5 / 2 / 2 ^ 600) = .ok (Dbl.fin (-(2 ^ 1201))) :=
  ⟨tinyEngine64_constructed, by decide!, by decide!, by decide!, by decide!, by decide!,
    by decide!⟩

theorem demoCtilde_left_inverse : matMul demoCtilde demoBtilde = identityMatrix 5 := by
  decide!

/-- The exact inverse of `demoBtilde` is unique: a matrix of its shape whose product with it
is the identity has the entries of `demoCtilde`. -/
theorem demoBtilde_inverse_unique (C : List (List Dbl))
    (hshape : C.map List.length = demoBtilde.map List.length)
    (h : matMul C demoBtilde = identityMatrix 5) :
    FiniteSquare 5 C ∧ toMatrix 5 C = toMatrix 5 demoCtilde := by
  have hC := finiteSquare_of_left_inverse 5 C demoBtilde hshape demoBtilde_finiteSquare h
  refine ⟨hC, ?_⟩
  have h1 := (matMul_eq_identity_iff 5 C demoBtilde hC demoBtilde_finiteSquare).1 h
  have h2 := (matMul_eq_identity_iff 5 demoCtilde demoBtilde demoCtilde_finiteSquare
    demoBtilde_finiteSquare).1 demoCtilde_left_inverse
  have h3 := Matrix.mul_eq_one_comm.1 h2
  calc toMatrix 5 C = toMatrix 5 C * (toMatrix 5 demoBtilde * toMatrix 5 demoCtilde) := by
        rw [h3, Matrix.mul_one]
    _ = (toMatrix 5 C * toMatrix 5 demoBtilde) * toMatrix 5 demoCtilde := by
        rw [Matrix.mul_assoc]
    _ = toMatrix 5 demoCtilde := by rw [h1, Matrix.one_mul]

/-- No matrix of doubles is the inverse of the `B_tilde` of the engine of `main.cpp`: the
entry `(0, 4)` of the inverse is `1/198`, which is not a double. -/
theorem demoBtilde_no_binary64_inverse (C : List (List Dbl))
    (hshape : C.map List.length = demoBtilde.map List.length)
    (hdbl : ∀ row ∈ C, ∀ v ∈ row, v.isBinary64 = true) :
    matMul C demoBtilde ≠ identityMatrix 5 := by
  intro h
  obtain ⟨hC, heq⟩ := demoBtilde_inverse_unique C hshape h
  have e1 := hC.entry 0 4 (by omega) (by omega)
  rw [heq, ← demoCtilde_finiteSquare.entry 0 4 (by omega) (by omega)] at e1
  have hl : 0 < C.length := by rw [hC.1]; omega
  have hr : 4 < (C[0]).length := by rw [(hC.2 _ (List.getElem_mem hl)).1]; omega
  have e2 := matEntry_eq_of_get C 0 4 _ _ (List.getElem?_eq_getElem hl)
    (List.getElem?_eq_getElem hr)
  have hb := hdbl _ (List.getElem_mem hl) _ (List.getElem_mem hr)
  rw [← e2, e1] at hb
  revert hb
  decide!

/-- Counterexample to C12 as stated: the `B_tilde` of the engine of `main.cpp` holds the same
doubles in binary64 and in exact arithmetic, it is non-singular, and no matrix of doubles of
its shape satisfies `C * B_tilde = identity`: the entry `(0, 4)` of the inverse is `1/198`,
which is not a double.  Whatever the inversion routine stores, the identity fails. -/
theorem C12_counterexample :
    demoEngine64.B_tilde_matrix.map (fun row => row.map F64.val) = demoBtilde ∧
    demoEngine.B_tilde_matrix = demoBtilde ∧
    Nonsingular demoBtilde ∧
    matEntry demoCtilde 0 4 = Dbl.fin (1 / 198) ∧
    ∀ (C : List (List Dbl)), C.map List.length = demoBtilde.map List.length →
      (∀ row ∈ C, ∀ v ∈ row, v.isBinary64 = true) →
      matMul C demoBtilde ≠ identityMatrix 5 :=
  ⟨by decide!, by decide!, demoBtilde_nonsingular, by decide!,
    demoBtilde_no_binary64_inverse⟩

/-- Counterexample to C20 as stated: in binary64, on the engine of `main.cpp`, the matrix
`B_tilde` is non-singular and no matrix of doubles is its inverse, so that `C_tilde` is not
the inverse whatever the inversion returns; and with `C_tilde` the doubles nearest to the
exact inverse, the matrix `operatorMatrix(0)` has the entry `1 + 2 ^ (-52)` at `(0, 0)` and
nonzero entries off the diagonal: it is the identity only up to rounding. -/
theorem C20_counterexample :
    Binary64.Spline.construct 3 (knots64 demoKnots) demoK nearestInverse64
      = .ok demoEngine64 ∧
    demoEngine64.B_tilde_matrix.map (fun row => row.map F64.val) = demoBtilde ∧
    Nonsingular demoBtilde ∧
    (∀ (C : List (List Dbl)), C.map List.length = demoBtilde.map List.length →
      (∀ row ∈ C, ∀ v ∈ row, v.isBinary64 = true) →
      matMul C demoBtilde ≠ identityMatrix 5) ∧
    demoEngine64.C_tilde_matrix
      = demoCtilde.map (fun row => row.map (fun v => F64.mk v.round)) ∧
    demoEngine64.operatorMatrix 0 = .ok
      [[F64.mk (Dbl.fin (1 + 1 / 2 ^ 52)), F64.mk (Dbl.fin (1 / 2 ^ 55)), F64.mk (Dbl.fin 0)],
       [F64.mk (Dbl.fin (27 / 2 ^ 60)), F64.mk (Dbl.fin 1), F64.mk (Dbl.fin 0)],
       [F64.mk (Dbl.fin (3 / 2 ^ 60)), F64.mk (Dbl.fin (-(1 / 2 ^ 58))), F64.mk (Dbl.fin 1)]] :=
  ⟨demoEngine64_constructed, by decide!, demoBtilde_nonsingular,
    demoBtilde_no_binary64_inverse, by decide!, by decide!⟩

/-- Counterexample to C14 as stated: on the binary64 engine of `main.cpp`, for `k = 3`,
`i = 1` and `x = NaN`, none of the five conditions `k = 0`, `k > order`,
`i ≥ numKnots - k`, `x < knot.front()`, `x > knot.back()` holds, and the call `B(3, 1, NaN)`
fails the assertion `knot.front() <= x && x <= knot.back()`. -/
theorem C14_counterexample :
    Binary64.Spline.construct 3 (knots64 demoKnots) demoK nearestInverse64
      = .ok demoEngine64 ∧
    ¬ (3 = 0 ∨ demoEngine64.order < 3 ∨ demoEngine64.numKnots - 3 ≤ 1 ∨
      F64.nan < F64.ofRat 0 ∨ F64.nan > F64.ofRat 7) ∧
    demoEngine64.front = .ok (F64.ofRat 0) ∧ demoEngine64.back = .ok (F64.ofRat 7) ∧
    demoEngine64.B 3 1 F64.nan = .error .assertion :=
  ⟨demoEngine64_constructed, by decide!, by decide!, by decide!, by decide!⟩

/-! ## Strictly increasing knots on which a knot difference overflows -/

theorem overflowEngine64_constructed :
    Binary64.Spline.construct 3 (knots64 overflowKnots) demoK noInverse64
      = .ok overflowEngine64 := by decide!

/-- The knots `overflowKnots` are doubles and strictly increasing, and the binary64
constructor accepts them. -/
theorem overflowKnots_strict :
    (∀ q ∈ overflowKnots, Dbl.isBinary64 (Dbl.fin q) = true) ∧
    knots64 overflowKnots = overflowKnots.map (fun q => F64.mk (Dbl.fin q)) ∧
    (∀ j, j + 1 < overflowKnots.length →
      overflowKnots.getD j 0 < overflowKnots.getD (j + 1) 0) ∧
    Binary64.Spline.construct 3 (knots64 overflowKnots) demoK noInverse64
      = .ok overflowEngine64 := by
  refine ⟨by decide!, by decide!, ?_, overflowEngine64_constructed⟩
  intro j hj
  have hj1 : j < 7 := by
    have h8 : overflowKnots.length = 8 := rfl
    omega
  clear hj
  interval_cases j <;> decide!

/-- Why the equations of C3 and C17 are stated in exact arithmetic: in binary64, on the
strictly increasing knots `overflowKnots` and at `x = 5 * 2 ^ 1019`, right of the support of
`B(2,0,·)`, the call `B(2,0,x)` returns `0` early, while the difference `x - knot[0]`
overflows, so that the blend of `B(1,0,x) = 0` and `B(1,1,x) = 0` is `inf * 0 = NaN`, and so
is `D_B(0,2,0,x)`. -/
theorem overflowEngine64_blend :
    overflowEngine64.B 2 0 (F64.ofRat (5 * 2 ^ 1019)) = .ok (F64.ofRat 0) ∧
    overflowEngine64.B 1 0 (F64.ofRat (5 * 2 ^ 1019)) = .ok (F64.ofRat 0) ∧
    overflowEngine64.B 1 1 (F64.ofRat (5 * 2 ^ 1019)) = .ok (F64.ofRat 0) ∧
    (F64.ofRat (5 * 2 ^ 1019) - F64.ofRat (-(31 * 2 ^ 1019)))
        / (F64.ofRat (-(16 * 2 ^ 1019)) - F64.ofRat (-(31 * 2 ^ 1019))) * F64.ofRat 0
      + (F64.ofRat (2 * 2 ^ 1019) - F64.ofRat (5 * 2 ^ 1019))
        / (F64.ofRat (2 * 2 ^ 1019) - F64.ofRat (-(16 * 2 ^ 1019))) * F64.ofRat 0 = F64.nan ∧
    overflowEngine64.D_B 0 2 0 (F64.ofRat (5 * 2 ^ 1019)) = .ok F64.nan := by
  decide!

/-- Why the second part of C4 is stated in exact arithmetic: in binary64, on the strictly
increasing knots `overflowKnots`, the call `B(3,0,x)` at the right end `x = knot[3]` of the
support returns `NaN`, not `0`. -/
theorem overflowEngine64_right_end :
    overflowEngine64.knotX[3]? = some (F64.ofRat (4 * 2 ^ 1019)) ∧
    overflowEngine64.B 3 0 (F64.ofRat (4 * 2 ^ 1019)) = .ok F64.nan := by
  decide!

/-- Why C13 and C22 are stated in exact arithmetic: in binary64, on the strictly increasing
knots `overflowKnots`, every entry of column `0` of `B_matrix` is `NaN`, the entry `(1, 0)`
left of the band of row 1 among them, and the cache slot `(3, 0, 0)` holds `NaN`, the marker
of an unset slot. -/
theorem overflowEngine64_column :
    overflowEngine64.B_matrix
      = [[F64.nan, F64.mk (Dbl.fin (7656119366529843 / 9007199254740992)),
          F64.mk (Dbl.fin (1 / 8)), F64.mk (Dbl.fin 0), F64.mk (Dbl.fin 0)],
         [F64.nan, F64.mk (Dbl.fin (1 / 8)), F64.mk (Dbl.fin (3 / 4)),
          F64.mk (Dbl.fin (1 / 8)), F64.mk (Dbl.fin 0)],
         [F64.nan, F64.mk (Dbl.fin 0), F64.mk (Dbl.fin (1 / 8)), F64.mk (Dbl.fin (3 / 4)),
          F64.mk (Dbl.fin (1 / 8))]] ∧
    Binary64.cacheGet overflowEngine64.B_k_i_alpha 3 0 0 = .ok F64.nan := by
  decide!

/-! ## Claim C14: the contract of `B` at a double argument -/

theorem B64_unfold (s : Binary64.Spline) (k i : Nat) (x : F64) :
    s.B k i x =
      (if ¬ (1 ≤ k ∧ k ≤ s.order) then .error .assertion
      else if ¬ (i < s.numKnots - k) then .error .assertion
      else do
        let lo ← s.front
        let hi ← s.back
        if ¬ (lo ≤ x ∧ x ≤ hi) then .error .assertion
        else do
          let ti ← s.knot i
          let tik ← s.knot (i + k)
          if x < ti ∨ x > tik then pure (F64.ofNat 0)
          else
            match k with
            | k' + 2 => do
              let b1 ← s.B (k' + 1) i x
              let tk1 ← s.knot (k' + 2 + i - 1)
              let firstTerm := b1 * ((x - ti) / (tk1 - ti))
              let b2 ← s.B (k' + 1) (i + 1) x
              let ti1 ← s.knot (i + 1)
              let secondTerm := b2 * ((tik - x) / (tik - ti1))
              pure (firstTerm + secondTerm)
            | _ => do
              let ti1 ← s.knot (i + 1)
              pure (if ti ≤ x ∧ x < ti1 then F64.ofNat 1 else F64.ofNat 0)) := by
  rcases k with _ | _ | k <;> rfl

theorem B_alpha64_unfold (s : Binary64.Spline) (k i alpha : Nat) :
    s.B_alpha k i alpha =
      (if ¬ (1 ≤ k ∧ k ≤ s.order) then .error .assertion
      else if ¬ (i < s.numKnots - k) then .error .assertion
      else if ¬ (alpha < s.N) then .error .assertion
      else do
        let slot ← Binary64.cacheGet s.B_k_i_alpha k i alpha
        if ¬ slot.isNaN then pure (slot, s)
        else do
          let x ← vecGet s.collocationX alpha
          match k with
          | k' + 2 => do
            let (firstTermB, s1) ← s.B_alpha (k' + 1) i alpha
            let (secondTermB, s2) ← s1.B_alpha (k' + 1) (i + 1) alpha
            let ti ← s2.knot i
            let tk1 ← s2.knot (k' + 2 + i - 1)
            let firstTerm := firstTermB * ((x - ti) / (tk1 - ti))
            let tk ← s2.knot (k' + 2 + i)
            let ti1 ← s2.knot (i + 1)
            let secondTerm := secondTermB * ((tk - x) / (tk - ti1))
            pure (firstTerm + secondTerm, s2.store (k' + 2) i alpha (firstTerm + secondTerm))
          | _ => do
            let v ← s.B 1 i x
            pure (v, s.store 1 i alpha v)) := by
  rcases k with _ | _ | k <;> rfl

/-- The memoized evaluator in binary64 leaves the order and the knots as they are. -/
theorem B_alpha64_keeps (k : Nat) :
    ∀ (s : Binary64.Spline) (i alpha : Nat) (v : F64) (s' : Binary64.Spline),
    s.B_alpha k i alpha = .ok (v, s') →
    s'.order = s.order ∧ s'.knotX = s.knotX ∧ s'.numKnots = s.numKnots := by
  induction k using Nat.strong_induction_on with
  | _ k ih =>
    intro s i alpha v s' h
    rw [B_alpha64_unfold] at h
    split_ifs at h with h1 h2 h3
    rw [bind_ok_iff] at h
    obtain ⟨slot, _, h⟩ := h
    split_ifs at h with h4
    · rw [bind_ok_iff] at h
      obtain ⟨x, _, h⟩ := h
      rcases k with _ | _ | k
      · omega
      · simp only [bind_ok_iff] at h
        obtain ⟨w, _, h⟩ := h
        simp only [pure, Except.pure, Except.ok.injEq, Prod.mk.injEq] at h
        rw [← h.2]
        exact ⟨rfl, rfl, rfl⟩
      · simp only [bind_ok_iff] at h
        obtain ⟨⟨b1, s1⟩, hb1, ⟨b2, s2⟩, hb2, ti, _, tk1, _, tk, _, ti1, _, h⟩ := h
        simp only [pure, Except.pure, Except.ok.injEq, Prod.mk.injEq] at h
        rw [← h.2]
        obtain ⟨a1, a2, a3⟩ := ih (k + 1) (by omega) _ _ _ _ _ hb1
        obtain ⟨c1, c2, c3⟩ := ih (k + 1) (by omega) _ _ _ _ _ hb2
        exact ⟨c1.trans a1, c2.trans a2, c3.trans a3⟩
    · simp only [pure, Except.pure, Except.ok.injEq, Prod.mk.injEq] at h
      rw [← h.2]
      exact ⟨rfl, rfl, rfl⟩

/-- What the binary64 constructor leaves in the order and the knots of an engine it
returns. -/
theorem construct64_fields (order : Nat) (knotX : List F64) (K : List (List Int))
    (inverse : List (List F64) → List (List F64)) (s : Binary64.Spline)
    (h : Binary64.Spline.construct order knotX K inverse = .ok s) :
    3 ≤ order ∧ 2 * order ≤ knotX.length ∧ s.order = order ∧ s.knotX = knotX ∧
    s.numKnots = knotX.length := by
  unfold Binary64.Spline.construct at h
  split_ifs at h with h1 h2 h3
  simp only [Spline.MIN_ORDER, Spline.MAX_ORDER, Spline.MAX_NUMBER_KNOTS] at h2 h3
  dsimp only at h
  simp only [bind_ok_iff] at h
  obtain ⟨xMin, -, xMax, -, coll, -, h⟩ := h
  split_ifs at h with h4
  simp only [bind_ok_iff] at h
  obtain ⟨⟨rows, s1⟩, hrows, beta, -, h⟩ := h
  simp only [pure, Except.pure, Except.ok.injEq] at h
  have key := (tabulateS_invariant _
    (fun (st : Binary64.Spline) => st.order = order ∧ st.knotX = knotX ∧
      st.numKnots = knotX.length) (fun _ _ => True) _ 0 _ rows s1
    (fun st j a st1 hP _ _ hf => by
      refine ⟨?_, trivial⟩
      exact (tabulateS_invariant _
        (fun (st' : Binary64.Spline) => st'.order = order ∧ st'.knotX = knotX ∧
          st'.numKnots = knotX.length) (fun _ _ => True) _ 0 st a st1
        (fun st' j' a' st1' hP' _ _ hf' => by
          obtain ⟨e1, e2, e3⟩ := B_alpha64_keeps _ _ _ _ _ _ hf'
          exact ⟨⟨e1.trans hP'.1, e2.trans hP'.2.1, e3.trans hP'.2.2⟩, trivial⟩)
        hP hf).1)
    ⟨rfl, rfl, rfl⟩ hrows).1
  rw [← h]
  exact ⟨h2.1, h3.1, key.1, key.2.1, key.2.2⟩

theorem knot64_ok (s : Binary64.Spline) (j : Nat) (h : j < s.knotX.length) :
    ∃ v, s.knot j = .ok v := ⟨_, vecGet_ok s.knotX j h⟩

/-- In binary64, on arguments that pass its assertions `B` returns a value: the branches
taken depend on comparisons only, and every knot index is in range. -/
theorem B64_total (s : Binary64.Spline) (hn : s.numKnots = s.knotX.length) (x lo up : F64)
    (hlo : s.front = .ok lo) (hhi : s.back = .ok up) (hx : lo ≤ x ∧ x ≤ up) (k : Nat) :
    ∀ (i : Nat), 1 ≤ k → k ≤ s.order → i < s.numKnots - k → ∃ v, s.B k i x = .ok v := by
  induction k using Nat.strong_induction_on with
  | _ k ih =>
    intro i hk1 hk2 hi
    obtain ⟨ti, hti⟩ := knot64_ok s i (by omega)
    obtain ⟨tik, htik⟩ := knot64_ok s (i + k) (by omega)
    obtain ⟨ti1, hti1⟩ := knot64_ok s (i + 1) (by omega)
    rcases k with _ | _ | k
    · omega
    · rw [B64_unfold, hlo, hhi, hti, htik]
      simp only [hk1, hk2, hi, hx, and_self, not_true_eq_false, if_false, bind, Except.bind]
      by_cases hout : x < ti ∨ x > tik
      · simp only [hout, if_true, pure, Except.pure]
        exact ⟨_, rfl⟩
      · simp only [hout, if_false, pure, Except.pure]
        exact ⟨_, rfl⟩
    · obtain ⟨b1, hb1⟩ := ih (k + 1) (by omega) i (by omega) (by omega) (by omega)
      obtain ⟨b2, hb2⟩ := ih (k + 1) (by omega) (i + 1) (by omega) (by omega) (by omega)
      obtain ⟨tk1, htk1⟩ := knot64_ok s (k + 2 + i - 1) (by omega)
      rw [B64_unfold, hlo, hhi, hti, htik]
      simp only [hk1, hk2, hi, hx, and_self, not_true_eq_false, if_false, bind, Except.bind]
      by_cases hout : x < ti ∨ x > tik
      · simp only [hout, if_true, pure, Except.pure]
        exact ⟨_, rfl⟩
      · rw [hb1, hb2, htk1, hti1]
        simp only [hout, if_false, pure, Except.pure]
        exact ⟨_, rfl⟩

theorem B64_rejects (s : Binary64.Spline) (x lo up : F64) (hlo : s.front = .ok lo)
    (hhi : s.back = .ok up) (k i : Nat)
    (h : k = 0 ∨ s.order < k ∨ s.numKnots - k ≤ i ∨ ¬ (lo ≤ x ∧ x ≤ up)) :
    s.B k i x = .error .assertion := by
  rw [B64_unfold]
  by_cases h1 : 1 ≤ k ∧ k ≤ s.order
  · rw [if_neg (not_not.2 h1)]
    by_cases h2 : i < s.numKnots - k
    · have h3 : ¬ (lo ≤ x ∧ x ≤ up) := by
        rcases h with h | h | h | h
        · omega
        · omega
        · omega
        · exact h
      rw [if_neg (not_not.2 h2), hlo, hhi]
      exact if_pos h3
    · rw [if_pos h2]
  · rw [if_pos h1]


theorem Dbl.lt_not_le (a b : Dbl) (h : Dbl.lt a b = true) : Dbl.le b a = false := by
  cases a with
  | fin p =>
    cases b with
    | fin q =>
      have h' : decide (p < q) = true := h
      show decide (q ≤ p) = false
      rw [decide_eq_false_iff_not]
      exact not_le.2 (of_decide_eq_true h')
    | inf t =>
      have h' : (!t) = true := h
      show t = false
      cases t
      · rfl
      · cases h'
    | nan => cases h
  | inf s =>
    cases b with
    | fin q =>
      have h' : s = true := h
      show (!s) = false
      rw [h']
      rfl
    | inf t =>
      have h' : (s && !t) = true := h
      show (t || !s) = false
      cases s <;> cases t <;> first | rfl | cases h'
    | nan => cases h
  | nan => cases b <;> cases h

/-- Claim C14, amended in its condition on `x`: the call is rejected for every `x` that is
not inside `[knot.front(), knot.back()]`, which a `NaN` is not although it is neither below
`knot.front()` nor above `knot.back()`.  In binary64, on a constructed engine, `B(k,i,x)` is
rejected by an assertion when `k = 0`, `k > order`, `i ≥ numKnots - k` or
`knot.front() <= x && x <= knot.back()` is false, as it is when `x < knot.front()`, when
`x > knot.back()` and when `x` is `NaN`; when none of these holds the call returns a value,
so no assertion and no out-of-range knot index is met in any recursive call. -/
theorem C14_B_contract (order : Nat) (knotX : List F64) (K : List (List Int))
    (inverse : List (List F64) → List (List F64)) (s : Binary64.Spline)
    (hc : Binary64.Spline.construct order knotX K inverse = .ok s) (k i : Nat) (x : F64) :
    ∃ lo up, s.front = .ok lo ∧ s.back = .ok up ∧
      ((k = 0 ∨ s.order < k ∨ s.numKnots - k ≤ i ∨ ¬ (lo ≤ x ∧ x ≤ up)) →
        s.B k i x = .error .assertion) ∧
      (x < lo ∨ x > up ∨ x.isNaN = true → ¬ (lo ≤ x ∧ x ≤ up)) ∧
      (¬ (k = 0 ∨ s.order < k ∨ s.numKnots - k ≤ i ∨ ¬ (lo ≤ x ∧ x ≤ up)) →
        ∃ v, s.B k i x = .ok v) := by
  obtain ⟨h3, h2o, ho, hk, hn⟩ := construct64_fields order knotX K inverse s hc
  have hpos : 0 < s.knotX.length := by rw [hk]; omega
  have hnum : s.numKnots = s.knotX.length := by rw [hn, hk]
  refine ⟨_, _, vecGet_ok s.knotX 0 hpos, vecGet_ok s.knotX (s.knotX.length - 1) (by omega),
    B64_rejects s x _ _ (vecGet_ok s.knotX 0 hpos)
      (vecGet_ok s.knotX (s.knotX.length - 1) (by omega)) k i, ?_, ?_⟩
  · rintro (h | h | h) ⟨h1, h2⟩
    · have := Dbl.lt_not_le _ _ h
      rw [h1] at this
      cases this
    · have := Dbl.lt_not_le _ _ h
      rw [h2] at this
      cases this
    · have h1' : Dbl.le _ x.val = true := h1
      have hx : x.val = Dbl.nan := by
        have h' : x.val.isNaN = true := h
        cases hv : x.val with
        | nan => rfl
        | fin q => rw [hv] at h'; cases h'
        | inf b => rw [hv] at h'; cases h'
      rw [hx] at h1'
      revert h1'
      generalize (s.knotX.get ⟨0, hpos⟩).val = l
      intro h1'
      cases l <;> cases h1'
  · intro h
    simp only [not_or, not_lt, not_le, not_not] at h
    obtain ⟨h1, h2, h4, h5⟩ := h
    exact B64_total s hnum x _ _ (vecGet_ok s.knotX 0 hpos)
      (vecGet_ok s.knotX (s.knotX.length - 1) (by omega)) h5 k i (by omega) h2 h4

/-- Witness of C14 on the binary64 engine of `main.cpp`: each condition rejects a call, the
`NaN` among them, and a call that meets none of them returns. -/
theorem C14_B_contract_witness :
    demoEngine64.B 0 0 (F64.ofRat (5 / 2)) = .error .assertion ∧
    demoEngine64.B 4 0 (F64.ofRat (5 / 2)) = .error .assertion ∧
    demoEngine64.B 3 5 (F64.ofRat (5 / 2)) = .error .assertion ∧
    demoEngine64.B 3 0 (F64.ofRat (-1)) = .error .assertion ∧
    demoEngine64.B 3 0 (F64.ofRat 8) = .error .assertion ∧
    demoEngine64.B 3 0 F64.nan = .error .assertion ∧
    demoEngine64.B 3 1 (F64.ofRat (5 / 2)) = .ok (F64.ofRat (3 / 4)) ∧
    ∃ lo up, demoEngine64.front = .ok lo ∧ demoEngine64.back = .ok up ∧
      ((3 = 0 ∨ demoEngine64.order < 3 ∨ demoEngine64.numKnots - 3 ≤ 1 ∨
          ¬ (lo ≤ F64.nan ∧ F64.nan ≤ up)) →
        demoEngine64.B 3 1 F64.nan = .error .assertion) ∧
      (F64.nan < lo ∨ F64.nan > up ∨ F64.nan.isNaN = true →
        ¬ (lo ≤ F64.nan ∧ F64.nan ≤ up)) ∧
      (¬ (3 = 0 ∨ demoEngine64.order < 3 ∨ demoEngine64.numKnots - 3 ≤ 1 ∨
          ¬ (lo ≤ F64.nan ∧ F64.nan ≤ up)) →
        ∃ v, demoEngine64.B 3 1 F64.nan = .ok v) :=
  ⟨by decide!, by decide!, by decide!, by decide!, by decide!, by decide!, by decide!,
    C14_B_contract 3 (knots64 demoKnots) demoK nearestInverse64 demoEngine64
      demoEngine64_constructed 3 1 F64.nan⟩

end BSCM
